import Mathlib

/-!
# RNAtedistance: tree edit distance between RNA secondary structures

A shallow embedding of `RNAtedistance.c` and a verification of the statements its
specification makes about it.

Conventions of the embedding.

* `int` values are `Int`.  In the parser, the indexer and the engine every integer is a
  position in, or a sum of unit costs over, an input line, which `main` reads with at
  most 1023 characters: these stay far inside the range of `int`.  In `main` the size
  and the offsets of the distance matrix are products of the number of input lines;
  they can leave the range of `int` and are taken modulo 2^32 (`wrap32`).
* A `Node*` tree is the inductive type `Node`; `num_children` is the length of
  `children`.
* Inside `parse_dot_bracket` nodes are mutated through the table `nodes`, so the parser
  is embedded over an explicit heap (`ANode`, a node whose child pointers are positions
  of `nodes`), and the tree behind the returned `root` pointer is read off that heap by
  `toTree`.
* Buffers that the program fills front to back (`list` in `postorder_traversal`,
  `keyroots` in `collect_keyroots`, the two stacks of the parser) are lists that grow
  by one entry per write; the number of entries a buffer was allocated with is kept
  apart (`max_nodes`), and the positions at which the parser assigns entries of its two
  stacks are listed by `stack_writes`.
* Tables that are read at computed positions (`leftmost`, `keyroots`, `postorder`,
  `fd`, `treedist`) are accessed through checked reads and writes: an access outside
  the table makes the function return `none`.
-/

namespace RNAted

/-! ## Data model -/

/-- The C `struct Node`: `label` is 'P', 'U' or 'R'; `index` is the postorder index;
`i`, `j` are positions in the dot-bracket string. -/
inductive Node where
  | mk (label : Char) (children : List Node) (index : Int) (i : Int) (j : Int) : Node
deriving Repr, Inhabited

namespace Node

/-- Field `label`. -/
def label : Node → Char
  | mk l _ _ _ _ => l

/-- Field `children`. -/
def children : Node → List Node
  | mk _ cs _ _ _ => cs

/-- Field `index`. -/
def index : Node → Int
  | mk _ _ x _ _ => x

/-- Field `i`. -/
def i : Node → Int
  | mk _ _ _ a _ => a

/-- Field `j`. -/
def j : Node → Int
  | mk _ _ _ _ b => b

end Node

/-- A `struct Node` on the parser's heap: child pointers are positions in `nodes`. -/
structure ANode where
  label : Char
  children : List Nat
  index : Int
  i : Int
  j : Int
deriving Repr, Inhabited

/-- The C `struct TreeInfo`. -/
structure TreeInfo where
  root : Node
  postorder : List Node
  postorder_size : Int
  leftmost : List Int
  keyroots : List Int
  num_keyroots : Int
deriving Repr, Inhabited

/-! ## Checked table access -/

/-- Read `a[k]`; `none` outside the table. -/
def geti {α : Type} (a : List α) (k : Int) : Option α :=
  if 0 ≤ k then a[k.toNat]? else none

/-- Write `a[k] = v`; `none` outside the table. -/
def seti {α : Type} (a : List α) (k : Int) (v : α) : Option (List α) :=
  if 0 ≤ k ∧ k.toNat < a.length then some (a.set k.toNat v) else none

/-- Read `t[a][b]`. -/
def get2 (t : List (List Int)) (a b : Int) : Option Int :=
  (geti t a).bind fun row => geti row b

/-- Write `t[a][b] = v`. -/
def set2 (t : List (List Int)) (a b : Int) (v : Int) : Option (List (List Int)) :=
  (geti t a).bind fun row => (seti row b v).bind fun row2 => seti t a row2

/-- The loop `for (int d = lo; ...; d++) body`, run for `n` iterations. -/
def for_steps {σ : Type} : Nat → Int → (Int → σ → Option σ) → σ → Option σ
  | 0, _, _, s => some s
  | n + 1, d, body, s => (body d s).bind fun s2 => for_steps n (d + 1) body s2

/-- The loop `for (int d = lo; d < hi; d++) body`. -/
def for_loop {σ : Type} (lo hi : Int) (body : Int → σ → Option σ) (s : σ) : Option σ :=
  for_steps (hi - lo).toNat lo body s

/-! ## Structure parser -/

/-- The ways `parse_dot_bracket` terminates the program. -/
inductive ParseError where
  | unmatched_closing (pos : Int)
  | invalid_character (pos : Int)
  | unbalanced
  | unclosed
  | fault
deriving Repr, DecidableEq

/-- Local state of `parse_dot_bracket`: the root node, the table `nodes`
(`node_count` is its length), the two stacks (top first) and the two counters. -/
structure PState where
  root : ANode
  nodes : List ANode
  stack : List Int
  parent_stack : List Int
  open_count : Int
  close_count : Int
deriving Repr

/-- The effect of `parent->children[parent->num_children] = new_node; num_children++`
on the node `parent_stack[parent_stack_size - 1]` (the root when that entry is -1). -/
def attach (st : PState) (child : Nat) : Option PState :=
  match st.parent_stack with
  | [] => none
  | parent_idx :: _ =>
    if parent_idx = -1 then
      some { st with root := { st.root with children := st.root.children ++ [child] } }
    else
      match geti st.nodes parent_idx with
      | none => none
      | some parent =>
        let parent2 : ANode := { parent with children := parent.children ++ [child] }
        some { st with nodes := st.nodes.set parent_idx.toNat parent2 }

/-- One iteration of the main loop of `parse_dot_bracket` at position `i` on
character `c`. -/
def parse_step (st : PState) (i : Int) (c : Char) : Except ParseError PState :=
  if c = '.' then
    let new_node : ANode := { label := 'U', children := [], index := -1, i := i, j := i }
    let node_count := st.nodes.length
    let st1 := { st with nodes := st.nodes ++ [new_node] }
    match attach st1 node_count with
    | none => .error .fault
    | some st2 => .ok st2
  else if c = '(' then
    let new_node : ANode := { label := 'P', children := [], index := -1, i := i, j := -1 }
    let node_count := st.nodes.length
    let st1 := { st with open_count := st.open_count + 1, nodes := st.nodes ++ [new_node] }
    match attach st1 node_count with
    | none => .error .fault
    | some st2 =>
      .ok { st2 with stack := (node_count : Int) :: st2.stack,
                     parent_stack := (node_count : Int) :: st2.parent_stack }
  else if c = ')' then
    match st.stack with
    | [] => .error (.unmatched_closing i)
    | node_idx :: rest =>
      match geti st.nodes node_idx with
      | none => .error .fault
      | some nd =>
        let nd2 : ANode := { nd with j := i }
        .ok { st with close_count := st.close_count + 1,
                      stack := rest,
                      nodes := st.nodes.set node_idx.toNat nd2,
                      parent_stack := st.parent_stack.tail }
  else
    .error (.invalid_character i)

/-- The main loop of `parse_dot_bracket` over the characters from position `i` on. -/
def parse_loop : List Char → Int → PState → Except ParseError PState
  | [], _, st => .ok st
  | c :: cs, i, st =>
    match parse_step st i c with
    | .error e => .error e
    | .ok st2 => parse_loop cs (i + 1) st2

/-- Reads `xs` as a list of values, `none` if one of them is missing. -/
def allSome {α : Type} : List (Option α) → Option (List α)
  | [] => some []
  | none :: _ => none
  | some a :: r => (allSome r).map fun l => a :: l

/-- The tree behind a node of the heap `nodes`, followed to depth `fuel`. -/
def toTree (nodes : List ANode) : Nat → ANode → Option Node
  | 0, _ => none
  | fuel + 1, a =>
    (allSome (a.children.map fun c => (nodes[c]?).bind (toTree nodes fuel))).map
      fun cs => Node.mk a.label cs a.index a.i a.j

/-- State of `parse_dot_bracket` on entry to its main loop. -/
def parse_init (len : Int) : PState :=
  { root := { label := 'R', children := [], index := -1, i := 0, j := len - 1 },
    nodes := [], stack := [], parent_stack := [-1], open_count := 0, close_count := 0 }

/-- The C function `parse_dot_bracket`, on the characters of the string. -/
def parse_chars (db : List Char) : Except ParseError Node :=
  match parse_loop db 0 (parse_init db.length) with
  | .error e => .error e
  | .ok st =>
    if st.open_count ≠ st.close_count then .error .unbalanced
    else if st.stack.length ≠ 0 then .error .unclosed
    else
      match toTree st.nodes (st.nodes.length + 1) st.root with
      | none => .error .fault
      | some t => .ok t

/-- The C function `parse_dot_bracket`. -/
def parse_dot_bracket (db : String) : Except ParseError Node :=
  parse_chars db.toList

/-- An assignment to an entry of one of the two index stacks of `parse_dot_bracket`:
`stack[k] = ...` or `parent_stack[k] = ...`. -/
inductive StackWrite where
  | stack (k : Int)
  | parent_stack (k : Int)
deriving Repr, DecidableEq

/-- The assignments to entries of `stack` and `parent_stack` that the main loop of
`parse_dot_bracket` makes over the characters from position `i` on, in order: on '('
it assigns `stack[stack_size]` and `parent_stack[parent_stack_size]`; the loop ends at
the first character on which the function reports an error. -/
def loop_writes : List Char → Int → PState → List StackWrite
  | [], _, _ => []
  | c :: cs, i, st =>
    match parse_step st i c with
    | .error _ => []
    | .ok st2 =>
      (if c = '(' then
        [StackWrite.stack st.stack.length, StackWrite.parent_stack st.parent_stack.length]
       else []) ++ loop_writes cs (i + 1) st2

/-- All assignments to entries of `stack` and `parent_stack` that `parse_dot_bracket`
makes on `db`: `parent_stack[0] = -1` before the loop, then those of the loop.  Both
stacks are allocated with `strlen(db)` entries. -/
def stack_writes (db : String) : List StackWrite :=
  StackWrite.parent_stack 0 :: loop_writes db.toList 0 (parse_init db.toList.length)

/-! ## Tree indexer -/

/-- Number of entries of the buffer `compute_tree_info` allocates for `postorder`. -/
def max_nodes : Int := 1000

mutual
/-- The C function `postorder_traversal`: returns the node with its indices set, the
list with the entries written, and the new value of `*index`. -/
def postorder_traversal : Node → List Node → Int → Node × List Node × Int
  | Node.mk l cs _ a b, list, index =>
    match postorder_children cs list index with
    | (cs2, list2, index2) =>
      (Node.mk l cs2 index2 a b, list2 ++ [Node.mk l cs2 index2 a b], index2 + 1)
/-- The loop of `postorder_traversal` over the children. -/
def postorder_children : List Node → List Node → Int → List Node × List Node × Int
  | [], list, index => ([], list, index)
  | c :: cs, list, index =>
    match postorder_traversal c list index with
    | (c2, list2, index2) =>
      match postorder_children cs list2 index2 with
      | (cs2, list3, index3) => (c2 :: cs2, list3, index3)
end

/-- The C function `find_leftmost_index`. -/
def find_leftmost_index : Node → Int
  | Node.mk _ [] x _ _ => x
  | Node.mk _ (c :: _) _ _ _ => find_leftmost_index c

mutual
/-- The C function `collect_keyroots`: returns the list `keyroots` with the entries
written (`*index` is its length). -/
def collect_keyroots : Node → Bool → Bool → List Int → List Int
  | Node.mk _ cs x _ _, parent_null, is_first_child, keyroots =>
    collect_keyroots_children cs 0
      (if parent_null || !is_first_child then keyroots ++ [x] else keyroots)
/-- The loop of `collect_keyroots` over the children, from child number `i` on. -/
def collect_keyroots_children : List Node → Nat → List Int → List Int
  | [], _, keyroots => keyroots
  | c :: cs, i, keyroots =>
    collect_keyroots_children cs (i + 1) (collect_keyroots c false (i == 0) keyroots)
end

/-- The comparison function `compare_int`. -/
def compare_int (a b : Int) : Int := a - b

/-- The C library function `qsort` on an `int` array: the entries in ascending order of
the comparison function. -/
def qsort (cmp : Int → Int → Int) (a : List Int) : List Int :=
  a.insertionSort fun x y => cmp x y ≤ 0

/-- The C function `compute_tree_info`. -/
def compute_tree_info (root : Node) : TreeInfo :=
  match postorder_traversal root [] 0 with
  | (root2, postorder, index) =>
    let keyroots := collect_keyroots root2 true false []
    { root := root2,
      postorder := postorder,
      postorder_size := index,
      leftmost := postorder.map find_leftmost_index,
      keyroots := qsort compare_int keyroots,
      num_keyroots := keyroots.length }

/-! ## Edit distance engine -/

/-- The C function `cost_insert`. -/
def cost_insert (label : Char) : Int := if label = 'P' then 2 else 1

/-- The C function `cost_delete`. -/
def cost_delete (label : Char) : Int := if label = 'P' then 2 else 1

/-- The C function `cost_relabel`. -/
def cost_relabel (label1 label2 : Char) : Int := if label1 = label2 then 0 else 1

/-- The C function `min`. -/
def min (a b : Int) : Int := if a < b then a else b

/-- The tables `fd` and `treedist` during `forest_dist`. -/
structure Tables where
  fd : List (List Int)
  treedist : List (List Int)
deriving Repr

/-- First initialisation loop of `forest_dist`: `fd[di][0]`. -/
def fd_init_col (t1 : TreeInfo) (l1 : Int) (di : Int) (fd : List (List Int)) :
    Option (List (List Int)) :=
  (geti t1.postorder (l1 + di - 1)).bind fun n1 =>
  (get2 fd (di - 1) 0).bind fun v =>
  set2 fd di 0 (v + cost_delete n1.label)

/-- Second initialisation loop of `forest_dist`: `fd[0][dj]`. -/
def fd_init_row (t2 : TreeInfo) (l2 : Int) (dj : Int) (fd : List (List Int)) :
    Option (List (List Int)) :=
  (geti t2.postorder (l2 + dj - 1)).bind fun n2 =>
  (get2 fd 0 (dj - 1)).bind fun v =>
  set2 fd 0 dj (v + cost_insert n2.label)

/-- Body of the double loop of `forest_dist` at `(di, dj)`. -/
def fd_cell (t1 t2 : TreeInfo) (l1 l2 : Int) (di dj : Int) (tb : Tables) : Option Tables :=
  let idx1 := l1 + di - 1
  let idx2 := l2 + dj - 1
  (geti t1.postorder idx1).bind fun n1 =>
  (geti t2.postorder idx2).bind fun n2 =>
  let label1 := n1.label
  let label2 := n2.label
  (geti t1.leftmost idx1).bind fun lm1 =>
  (geti t2.leftmost idx2).bind fun lm2 =>
  if lm1 = l1 ∧ lm2 = l2 then
    (get2 tb.fd (di - 1) dj).bind fun a =>
    (get2 tb.fd di (dj - 1)).bind fun b =>
    (get2 tb.fd (di - 1) (dj - 1)).bind fun c =>
    let delete_cost := a + cost_delete label1
    let insert_cost := b + cost_insert label2
    let relabel_cost := c + cost_relabel label1 label2
    let cost := min delete_cost (min insert_cost relabel_cost)
    (set2 tb.treedist idx1 idx2 cost).bind fun td =>
    (set2 tb.fd di dj cost).bind fun fd =>
    some { fd := fd, treedist := td }
  else
    (get2 tb.fd (di - 1) dj).bind fun a =>
    (get2 tb.fd di (dj - 1)).bind fun b =>
    (get2 tb.fd (lm1 - l1) (lm2 - l2)).bind fun c =>
    (get2 tb.treedist idx1 idx2).bind fun d =>
    let delete_cost := a + cost_delete label1
    let insert_cost := b + cost_insert label2
    let subtree_cost := c + d
    let cost := min delete_cost (min insert_cost subtree_cost)
    (set2 tb.fd di dj cost).bind fun fd =>
    some { fd := fd, treedist := tb.treedist }

/-- The C function `forest_dist`: returns the updated `treedist`. -/
def forest_dist (i j : Int) (t1 t2 : TreeInfo) (treedist : List (List Int)) :
    Option (List (List Int)) :=
  (geti t1.leftmost i).bind fun l1 =>
  (geti t2.leftmost j).bind fun l2 =>
  let base_d1 := i - l1 + 2
  let base_d2 := j - l2 + 2
  if base_d1 < 0 ∨ base_d2 < 0 then none else
  let fd0 := List.replicate base_d1.toNat (List.replicate base_d2.toNat (base_d1 + base_d2))
  (set2 fd0 0 0 0).bind fun fd1 =>
  (for_loop 1 base_d1 (fd_init_col t1 l1) fd1).bind fun fd2 =>
  (for_loop 1 base_d2 (fd_init_row t2 l2) fd2).bind fun fd3 =>
  (for_loop 1 base_d1
    (fun di tb => for_loop 1 base_d2 (fun dj tb2 => fd_cell t1 t2 l1 l2 di dj tb2) tb)
    { fd := fd3, treedist := treedist }).bind fun tb =>
  some tb.treedist

/-- The C function `fill_tree_edit_matrix`. -/
def fill_tree_edit_matrix (t1 t2 : TreeInfo) (treedist : List (List Int)) :
    Option (List (List Int)) :=
  for_loop 0 t1.num_keyroots
    (fun ki td =>
      (geti t1.keyroots ki).bind fun i =>
      for_loop 0 t2.num_keyroots
        (fun kj td2 =>
          (geti t2.keyroots kj).bind fun j =>
          forest_dist i j t1 t2 td2) td) treedist

/-- The C function `tree_edit_dist`. -/
def tree_edit_dist (t1 t2 : TreeInfo) : Option Int :=
  let m := t1.postorder_size
  let n := t2.postorder_size
  if m < 0 ∨ n < 0 then none else
  let treedist := List.replicate m.toNat (List.replicate n.toNat (m + n))
  (fill_tree_edit_matrix t1 t2 treedist).bind fun td =>
  get2 td (m - 1) (n - 1)

/-- The pipeline `parse_dot_bracket`, `compute_tree_info`, `tree_edit_dist` that `main`
applies to two input lines. -/
def distance (s t : String) : Option Int :=
  match parse_dot_bracket s, parse_dot_bracket t with
  | .ok a, .ok b => tree_edit_dist (compute_tree_info a) (compute_tree_info b)
  | _, _ => none

/-! ## Orchestrator

`main` after option parsing and input reading: `structures` holds the input lines, and
`num_structures`, an `int`, is their number.  A buffer obtained from `malloc` starts
with indeterminate cells (`none`); reading such a cell, or an access outside the
buffer, makes the function return `none`.  The `int` products and sums that can leave
the range of `int` (the size and the offsets of `distance_matrix`) are taken modulo
2^32 (`wrap32`).  The `parallel for` loops of the first-only and of the full-matrix
branch, which print after the loop, are run in index order (`full_matrix_schedule`
runs the latter in any order); the loop of the row-wise branch, which prints each row
as soon as it is complete, is run in the order `order` given to `main`.  The progress
display (`completed_rows`, `last_percentage` and the messages on stderr) is left
out. -/

/-- The largest value of the C type `int`. -/
def INT_MAX : Int := 2147483647

/-- The value that an `int` holds after a computation whose exact result is `v`: `v`
modulo 2^32, in two's complement. -/
def wrap32 (v : Int) : Int := (v + 2147483648) % 4294967296 - 2147483648

/-- The call `malloc(n * sizeof(int))` for the value `n` of an `int` expression.  The
product is computed in `size_t`: for a negative `n` it is `2^64 + 4 * n`, a request of
more than 2^63 bytes that no allocation grants, so that the result is the null pointer,
on which `main` reports the failure and stops (`none`).  Otherwise a buffer of `n`
indeterminate cells. -/
def malloc_cells (n : Int) : Option (List (Option Int)) :=
  if n < 0 then none else some (List.replicate n.toNat none)

/-- Write `a[k] = v` into a buffer of possibly indeterminate cells. -/
def put (a : List (Option Int)) (k : Int) (v : Int) : Option (List (Option Int)) :=
  seti a k (some v)

/-- Read `a[k]` from a buffer of possibly indeterminate cells. -/
def fetch (a : List (Option Int)) (k : Int) : Option Int :=
  (geti a k).bind fun c => c

/-- The loop `for (j = 0; j < n; j++) printf("%d ", a[base + j])`: the integers printed. -/
def print_cells (a : List (Option Int)) (base n : Int) : Option (List Int) :=
  for_loop 0 n (fun j out => (fetch a (base + j)).map fun v => out ++ [v]) []

/-- The loops of `main` that build `trees` and `ti_array` from `structures`. -/
def build_ti_array : List String → Except ParseError (List TreeInfo)
  | [] => .ok []
  | s :: rest =>
    match parse_dot_bracket s with
    | .error e => .error e
    | .ok t =>
      match build_ti_array rest with
      | .error e => .error e
      | .ok tis => .ok (compute_tree_info t :: tis)

/-- The `first_only` branch of `main`: the integers printed, one per line. -/
def first_only_branch (ti_array : List TreeInfo) : Option (List Int) :=
  let num_structures : Int := ti_array.length
  if num_structures < 2 then none else
  let distances : List (Option Int) := List.replicate (num_structures - 1).toNat none
  (for_loop 1 num_structures
    (fun j distances =>
      (geti ti_array 0).bind fun t0 =>
      (geti ti_array j).bind fun tj =>
      (tree_edit_dist t0 tj).bind fun ted =>
      put distances (j - 1) ted) distances).bind fun distances =>
  print_cells distances 0 (num_structures - 1)

/-- The body of the parallel loop of the `row_wise` branch for row `i`: the row it
prints. -/
def row_wise_row (ti_array : List TreeInfo) (i : Int) : Option (List Int) :=
  let num_structures : Int := ti_array.length
  let row : List (Option Int) := List.replicate num_structures.toNat none
  (put row i 0).bind fun row =>
  (for_loop 0 num_structures
    (fun j row =>
      if j ≠ i then
        (geti ti_array i).bind fun t_i =>
        (geti ti_array j).bind fun tj =>
        (tree_edit_dist t_i tj).bind fun ted =>
        put row j ted
      else some row) row).bind fun row =>
  print_cells row 0 num_structures

/-- The `row_wise` branch of `main`: the rows printed, when the iterations of the
parallel loop reach the critical section that prints their row in the order `order`. -/
def row_wise_branch (ti_array : List TreeInfo) : List Int → Option (List (List Int))
  | [] => some []
  | i :: rest =>
    (row_wise_row ti_array i).bind fun row =>
    (row_wise_branch ti_array rest).map fun out => row :: out

/-- The body of the parallel loop of the full-matrix branch for row `i`. -/
def full_matrix_unit (ti_array : List TreeInfo) (i : Int)
    (distance_matrix : List (Option Int)) : Option (List (Option Int)) :=
  let num_structures : Int := ti_array.length
  for_loop (i + 1) num_structures
    (fun j distance_matrix =>
      (geti ti_array i).bind fun t_i =>
      (geti ti_array j).bind fun tj =>
      (tree_edit_dist t_i tj).bind fun ted =>
      (put distance_matrix (wrap32 (wrap32 (i * num_structures) + j)) ted).bind
        fun distance_matrix =>
      put distance_matrix (wrap32 (wrap32 (j * num_structures) + i)) ted) distance_matrix

/-- The table `distance_matrix` of the full-matrix branch after its allocation with
`malloc(num_structures * num_structures * sizeof(int))` and its diagonal loop. -/
def full_matrix_diag (num_structures : Int) : Option (List (Option Int)) :=
  (malloc_cells (wrap32 (num_structures * num_structures))).bind fun distance_matrix =>
  for_loop 0 num_structures
    (fun i distance_matrix =>
      put distance_matrix (wrap32 (wrap32 (i * num_structures) + i)) 0)
    distance_matrix

/-- The loops of the full-matrix branch that print `distance_matrix`. -/
def print_matrix (num_structures : Int) (distance_matrix : List (Option Int)) :
    Option (List (List Int)) :=
  for_loop 0 num_structures
    (fun i out =>
      (for_loop 0 num_structures
        (fun j row =>
          (fetch distance_matrix (wrap32 (wrap32 (i * num_structures) + j))).map
            fun v => row ++ [v]) []).map fun row =>
        out ++ [row]) []

/-- The full-matrix branch of `main`: the rows printed. -/
def full_matrix_branch (ti_array : List TreeInfo) : Option (List (List Int)) :=
  let num_structures : Int := ti_array.length
  (full_matrix_diag num_structures).bind fun distance_matrix =>
  (for_loop 0 num_structures (full_matrix_unit ti_array) distance_matrix).bind
    fun distance_matrix =>
  print_matrix num_structures distance_matrix

/-- The part of `main` after input reading: `none` when the program stops with an
error, else what it prints (in `first_only` mode one integer per line).  `order` is the
order in which the iterations of the parallel loop of the row-wise branch print their
rows. -/
def main (first_only row_wise : Bool) (structures : List String) (order : List Int) :
    Option (List (List Int)) :=
  if structures.length = 0 then none else
  match build_ti_array structures with
  | .error _ => none
  | .ok ti_array =>
    if first_only then (first_only_branch ti_array).map fun ds => ds.map fun d => [d]
    else if row_wise then row_wise_branch ti_array order
    else full_matrix_branch ti_array

end RNAted

namespace RNAted

/-! ## Specification-level notions

Ordered labeled trees, the postorder listing of a tree, and the edit distance between
ordered forests, against which the program is verified. -/

/-- An ordered labeled tree: what remains of a `Node` when the bookkeeping fields
`index`, `i`, `j` are dropped. -/
inductive LTree where
  | mk (label : Char) (children : List LTree) : LTree
deriving Repr, Inhabited

namespace LTree

/-- The label of the root. -/
def label : LTree → Char
  | mk l _ => l

/-- The subtrees below the root, left to right. -/
def children : LTree → List LTree
  | mk _ cs => cs

end LTree

mutual
/-- The ordered labeled tree behind a node. -/
def shape : Node → LTree
  | Node.mk l cs _ _ _ => LTree.mk l (shapes cs)
/-- The ordered labeled forest behind a list of nodes. -/
def shapes : List Node → List LTree
  | [] => []
  | c :: cs => shape c :: shapes cs
end

mutual
/-- Number of nodes of a tree. -/
def nsize : Node → Nat
  | Node.mk _ cs _ _ _ => fsize cs + 1
/-- Number of nodes of a forest. -/
def fsize : List Node → Nat
  | [] => 0
  | c :: cs => nsize c + fsize cs
end

mutual
/-- Number of nodes of an ordered labeled tree. -/
def lsize : LTree → Nat
  | LTree.mk _ cs => lsizes cs + 1
/-- Number of nodes of an ordered labeled forest. -/
def lsizes : List LTree → Nat
  | [] => 0
  | c :: cs => lsize c + lsizes cs
end

mutual
/-- The nodes of a tree in postorder: children left to right, then the node. -/
def po : Node → List Node
  | Node.mk l cs x a b => poF cs ++ [Node.mk l cs x a b]
/-- The nodes of a forest in postorder. -/
def poF : List Node → List Node
  | [] => []
  | c :: cs => po c ++ poF cs
end

mutual
/-- The forest made of the first `a` nodes (in postorder) of a tree with more than `a`
nodes. -/
def takeT : Nat → Node → List Node
  | a, Node.mk _ cs _ _ _ => takeF a cs
/-- The forest made of the first `a` nodes (in postorder) of a forest. -/
def takeF : Nat → List Node → List Node
  | _, [] => []
  | a, c :: cs => if nsize c ≤ a then c :: takeF (a - nsize c) cs else takeT a c
end

/-- The leaf reached from a node by repeatedly following the first child. -/
def first_leaf : Node → Node
  | Node.mk l [] x a b => Node.mk l [] x a b
  | Node.mk _ (c :: _) _ _ _ => first_leaf c

/-- The leftmost-leaf position of the node at position `x` of a postorder listing `L`:
the node's subtree ends at `x` and has `nsize` nodes. -/
def lmOf (L : List Node) (x : Nat) : Nat :=
  x + 1 - nsize (L.getD x default)

mutual
/-- The `index` fields that `collect_keyroots` appends for the subtree of a node;
`flag` says whether the node itself is recorded. -/
def krN : Node → Bool → List Int
  | Node.mk _ cs x _ _, flag => (if flag then [x] else []) ++ krF cs true
/-- The `index` fields that `collect_keyroots` appends for a run of siblings; `first`
says whether the run starts with the first child. -/
def krF : List Node → Bool → List Int
  | [], _ => []
  | c :: cs, first => krN c (!first) ++ krF cs false
end

/-- Edit distance between two ordered forests, each given with its rightmost tree
first: the rightmost root of the first forest is deleted, or the rightmost root of the
second is inserted, or the two rightmost roots are matched and their child forests and
the remaining forests are edited separately. -/
def dist : List LTree → List LTree → Int
  | [], [] => 0
  | LTree.mk a cs :: F, [] => dist (cs.reverse ++ F) [] + cost_delete a
  | [], LTree.mk b ds :: G => dist [] (ds.reverse ++ G) + cost_insert b
  | LTree.mk a cs :: F, LTree.mk b ds :: G =>
    min (dist (cs.reverse ++ F) (LTree.mk b ds :: G) + cost_delete a)
      (min (dist (LTree.mk a cs :: F) (ds.reverse ++ G) + cost_insert b)
        (dist F G + dist cs.reverse ds.reverse + cost_relabel a b))
termination_by F G => lsizes F + lsizes G
decreasing_by
  all_goals
    have app : ∀ (x y : List LTree), lsizes (x ++ y) = lsizes x + lsizes y := by
      intro x y
      induction x with
      | nil => simp [lsizes]
      | cons h t ih => simp [lsizes, ih]; omega
    have rev : ∀ (x : List LTree), lsizes x.reverse = lsizes x := by
      intro x
      induction x with
      | nil => rfl
      | cons h t ih => simp [lsizes, app, ih]; omega
    simp only [lsizes, lsize, app, rev]
    omega

/-- Tree edit distance between two ordered labeled trees. -/
def tree_dist (s t : LTree) : Int := dist [s] [t]

/-- The value that cell `fd[a][b]` of `forest_dist` stands for when the call works on
the subtrees of `v` and `w`: the distance between the forests of their first `a` and
first `b` nodes. -/
def fd_spec (v w : Node) (a b : Int) : Int :=
  dist (shapes (takeF a.toNat [v])).reverse (shapes (takeF b.toNat [w])).reverse

/-- The value that cell `treedist[x][y]` stands for: the distance between the subtrees
at positions `x` and `y` of two postorder listings. -/
def td_spec (L1 L2 : List Node) (x y : Int) : Int :=
  tree_dist (shape (L1.getD x.toNat default)) (shape (L2.getD y.toNat default))

/-! ## The engine with a record of assigned cells

The same computation as `forest_dist`, `fill_tree_edit_matrix` and `tree_edit_dist`,
carrying next to `treedist` a table `written` that holds 1 in the cells of `treedist`
assigned so far.  A read of `treedist[idx1][idx2]` fails unless the cell was assigned
before the current call of `forest_dist` started (`w0` is `written` at that moment). -/

/-- The tables of `forest_dist` and the record `written`. -/
structure GTables where
  fd : List (List Int)
  treedist : List (List Int)
  written : List (List Int)
deriving Repr

/-- The body of the main double loop of `forest_dist`, as `fd_cell`, with the record. -/
def fd_cell_g (w0 : List (List Int)) (t1 t2 : TreeInfo) (l1 l2 : Int) (di dj : Int)
    (tb : GTables) : Option GTables :=
  let idx1 := l1 + di - 1
  let idx2 := l2 + dj - 1
  (geti t1.postorder idx1).bind fun n1 =>
  (geti t2.postorder idx2).bind fun n2 =>
  let label1 := n1.label
  let label2 := n2.label
  (geti t1.leftmost idx1).bind fun lm1 =>
  (geti t2.leftmost idx2).bind fun lm2 =>
  if lm1 = l1 ∧ lm2 = l2 then
    (get2 tb.fd (di - 1) dj).bind fun a =>
    (get2 tb.fd di (dj - 1)).bind fun b =>
    (get2 tb.fd (di - 1) (dj - 1)).bind fun c =>
    let delete_cost := a + cost_delete label1
    let insert_cost := b + cost_insert label2
    let relabel_cost := c + cost_relabel label1 label2
    let cost := min delete_cost (min insert_cost relabel_cost)
    (set2 tb.treedist idx1 idx2 cost).bind fun td =>
    (set2 tb.written idx1 idx2 1).bind fun wr =>
    (set2 tb.fd di dj cost).bind fun fd =>
    some { fd := fd, treedist := td, written := wr }
  else
    (get2 tb.fd (di - 1) dj).bind fun a =>
    (get2 tb.fd di (dj - 1)).bind fun b =>
    (get2 tb.fd (lm1 - l1) (lm2 - l2)).bind fun c =>
    (get2 w0 idx1 idx2).bind fun flag =>
    if flag = 1 then
      (get2 tb.treedist idx1 idx2).bind fun d =>
      let delete_cost := a + cost_delete label1
      let insert_cost := b + cost_insert label2
      let subtree_cost := c + d
      let cost := min delete_cost (min insert_cost subtree_cost)
      (set2 tb.fd di dj cost).bind fun fd =>
      some { fd := fd, treedist := tb.treedist, written := tb.written }
    else none

/-- The function `forest_dist` with the record. -/
def forest_dist_g (i j : Int) (t1 t2 : TreeInfo) (st : List (List Int) × List (List Int)) :
    Option (List (List Int) × List (List Int)) :=
  (geti t1.leftmost i).bind fun l1 =>
  (geti t2.leftmost j).bind fun l2 =>
  let base_d1 := i - l1 + 2
  let base_d2 := j - l2 + 2
  if base_d1 < 0 ∨ base_d2 < 0 then none else
  let fd0 := List.replicate base_d1.toNat (List.replicate base_d2.toNat (base_d1 + base_d2))
  (set2 fd0 0 0 0).bind fun fd1 =>
  (for_loop 1 base_d1 (fd_init_col t1 l1) fd1).bind fun fd2 =>
  (for_loop 1 base_d2 (fd_init_row t2 l2) fd2).bind fun fd3 =>
  (for_loop 1 base_d1
    (fun di tb => for_loop 1 base_d2 (fun dj tb2 => fd_cell_g st.2 t1 t2 l1 l2 di dj tb2) tb)
    { fd := fd3, treedist := st.1, written := st.2 }).bind fun tb =>
  some (tb.treedist, tb.written)

/-- The function `fill_tree_edit_matrix` with the record. -/
def fill_tree_edit_matrix_g (t1 t2 : TreeInfo) (st : List (List Int) × List (List Int)) :
    Option (List (List Int) × List (List Int)) :=
  for_loop 0 t1.num_keyroots
    (fun ki st1 =>
      (geti t1.keyroots ki).bind fun i =>
      for_loop 0 t2.num_keyroots
        (fun kj st2 =>
          (geti t2.keyroots kj).bind fun j =>
          forest_dist_g i j t1 t2 st2) st1) st

/-- The function `tree_edit_dist` with the record, every cell of `treedist` starting
out as `init` and unassigned. -/
def tree_edit_dist_g (t1 t2 : TreeInfo) (init : Int) : Option Int :=
  let m := t1.postorder_size
  let n := t2.postorder_size
  if m < 0 ∨ n < 0 then none else
  let treedist := List.replicate m.toNat (List.replicate n.toNat init)
  let written := List.replicate m.toNat (List.replicate n.toNat (0 : Int))
  (fill_tree_edit_matrix_g t1 t2 (treedist, written)).bind fun st =>
  get2 st.1 (m - 1) (n - 1)

/-- The function `tree_edit_dist` with every cell of `treedist` starting out as `init`
instead of `m + n`. -/
def tree_edit_dist_from (t1 t2 : TreeInfo) (init : Int) : Option Int :=
  let m := t1.postorder_size
  let n := t2.postorder_size
  if m < 0 ∨ n < 0 then none else
  let treedist := List.replicate m.toNat (List.replicate n.toNat init)
  (fill_tree_edit_matrix t1 t2 treedist).bind fun td =>
  get2 td (m - 1) (n - 1)

end RNAted

namespace RNAted

/-! ## Predicates used in the verification of the engine -/

/-- What a call of `forest_dist` on the block of `v` (first position `l`, `b - 1` nodes)
reads at each offset of the block. -/
def RowView (t : TreeInfo) (v : Node) (l b : Int) : Prop :=
  ∀ a : Int, 1 ≤ a → a < b → ∃ u : Node,
    geti t.postorder (l + a - 1) = some u ∧
    geti t.leftmost (l + a - 1) = some (l + a - nsize u) ∧
    (1 : Int) ≤ nsize u ∧ (nsize u : Int) ≤ a ∧
    t.postorder.getD (l + a - 1).toNat default = u ∧
    takeF a.toNat [v] = takeF (a - nsize u).toNat [v] ++ [u] ∧
    takeF (a - 1).toNat [v] = takeF (a - nsize u).toNat [v] ++ u.children

/-- State of the tables of a call of `forest_dist` when its main double loop is at
`(di, dj)`. -/
structure CellInv (t1 t2 : TreeInfo) (v w : Node) (l1 l2 b1 b2 : Int) (m n : Nat)
    (td0 w0 : List (List Int)) (di dj : Int) (tb : GTables) : Prop where
  fd_len : tb.fd.length = b1.toNat
  fd_row : ∀ row ∈ tb.fd, row.length = b2.toNat
  td_len : tb.treedist.length = m
  td_row : ∀ row ∈ tb.treedist, row.length = n
  w_len : tb.written.length = m
  w_row : ∀ row ∈ tb.written, row.length = n
  fd_ok : ∀ a b : Int, 0 ≤ a → a < b1 → 0 ≤ b → b < b2 →
    (a = 0 ∨ b = 0 ∨ a < di ∨ (a = di ∧ b < dj)) → get2 tb.fd a b = some (fd_spec v w a b)
  td_keep : ∀ x y : Int, get2 td0 x y = some (td_spec t1.postorder t2.postorder x y) →
    get2 tb.treedist x y = some (td_spec t1.postorder t2.postorder x y)
  w_keep : ∀ x y : Int, get2 w0 x y = some 1 → get2 tb.written x y = some 1
  td_new : ∀ a b : Int, 1 ≤ a → a < b1 → 1 ≤ b → b < b2 → (a < di ∨ (a = di ∧ b < dj)) →
    geti t1.leftmost (l1 + a - 1) = some l1 → geti t2.leftmost (l2 + b - 1) = some l2 →
    get2 tb.treedist (l1 + a - 1) (l2 + b - 1)
      = some (td_spec t1.postorder t2.postorder (l1 + a - 1) (l2 + b - 1)) ∧
    get2 tb.written (l1 + a - 1) (l2 + b - 1) = some 1

/-- Cell `(x, y)` of `treedist` holds the distance between the subtrees at positions
`x` and `y` and is recorded as assigned. -/
def CellOk (r1 r2 : Node) (st : List (List Int) × List (List Int)) (x y : Nat) : Prop :=
  get2 st.1 x y = some (td_spec (compute_tree_info r1).postorder
    (compute_tree_info r2).postorder x y) ∧ get2 st.2 x y = some 1

/-- The tables `treedist` and `written` have one row per node of the first tree and one
column per node of the second. -/
def TablesDims (r1 r2 : Node) (st : List (List Int) × List (List Int)) : Prop :=
  st.1.length = nsize r1 ∧ (∀ row ∈ st.1, row.length = nsize r2) ∧
  st.2.length = nsize r1 ∧ (∀ row ∈ st.2, row.length = nsize r2)

/-- Position `x` of the first tree has its keyroot among the first `ki` keyroots. -/
def KeyrootBefore (r : Node) (ki : Int) (x : Nat) : Prop :=
  ∃ (a p : Nat), (a : Int) < ki ∧ (compute_tree_info r).keyroots[a]? = some (p : Int) ∧
    lmOf (compute_tree_info r).postorder p = lmOf (compute_tree_info r).postorder x

/-! ## The matrix that `main` is expected to print -/

/-- The tree edit distance between the trees `i` and `j` of a list of trees. -/
def dspec (rs : List Node) (i j : Int) : Int :=
  tree_dist (shape (rs.getD i.toNat default)) (shape (rs.getD j.toNat default))

/-- Entry `(i, j)` of the distance matrix of a list of trees: 0 on the diagonal, above
it the distance from tree `i` to tree `j`, below it the mirrored entry. -/
def mspec (rs : List Node) (i j : Int) : Int :=
  if i = j then 0 else if i < j then dspec rs i j else dspec rs j i

/-- Entry `(i, j)` of a matrix given by its rows. -/
def entry (M : List (List Int)) (i j : Nat) : Option Int :=
  (M[i]?).bind fun row => row[j]?

/-- The matrix with `N` rows and columns whose entry `(i, j)` is `g i j`. -/
def matrix_of (N : Nat) (g : Int → Int → Int) : List (List Int) :=
  (List.range N).map fun i : Nat => (List.range N).map fun j : Nat => g i j

end RNAted

namespace RNAted

/-! ## Notions used in the verification of the parser -/

mutual
/-- Writing a tree back out: an unpaired node is a dot, a pair node is its children
between brackets, and the root is its children. -/
def render : Node → List Char
  | Node.mk l cs _ _ _ =>
    if l = 'U' then ['.'] else if l = 'P' then '(' :: (renderF cs ++ [')']) else renderF cs
/-- Writing a forest back out, left to right. -/
def renderF : List Node → List Char
  | [] => []
  | t :: ts => render t ++ renderF ts
end

/-- Reads a dot-bracket string from nesting depth `d`: the depth after it, `none` when
a character is outside the alphabet or a ')' comes at depth 0. -/
def scan : List Char → Nat → Option Nat
  | [], d => some d
  | c :: cs, d =>
    if c = '.' then scan cs d
    else if c = '(' then scan cs (d + 1)
    else if c = ')' then (if d = 0 then none else scan cs (d - 1))
    else none

/-- The brackets at positions `i < j` of `s` match: `s[i]` is '(' and `s[j]` is
')' and the characters between them read from depth 0 back to depth 0. -/
def matching (s : List Char) (i j : Nat) : Prop :=
  s[i]? = some '(' ∧ s[j]? = some ')' ∧ i < j ∧ scan ((s.drop (i + 1)).take (j - i - 1)) 0 = some 0

/-- The heap addresses of the roots of a forest laid out from address `a` on. -/
def addrs : Nat → List Node → List Nat
  | _, [] => []
  | a, t :: ts => a :: addrs (a + nsize t) ts

mutual
/-- The heap cells of a tree laid out from address `a` on: the node, then its children
one after the other. -/
def layout : Nat → Node → List ANode
  | a, Node.mk l cs x i j =>
    { label := l, children := addrs (a + 1) cs, index := x, i := i, j := j } :: layoutL (a + 1) cs
/-- The heap cells of a forest laid out from address `a` on. -/
def layoutL : Nat → List Node → List ANode
  | _, [] => []
  | a, t :: ts => layout a t ++ layoutL (a + nsize t) ts
end

/-- Number of heap cells in use when the parser has the completed children `cur` of
its innermost open node and, for each open node from the innermost outwards, the
position of its '(' and the completed children of its parent that precede it. -/
def zsize : List Node → List (Int × List Node) → Nat
  | cur, [] => fsize cur
  | cur, (_, before) :: rest => zsize before rest + 1 + fsize cur

/-- The heap of the parser in that situation; `extra` is appended to the children of
the innermost open node. -/
def heapX : List Node → List Nat → List (Int × List Node) → List ANode
  | cur, _, [] => layoutL 0 cur
  | cur, extra, (p, before) :: rest =>
    heapX before [zsize before rest] rest ++
      ({ label := 'P', children := addrs (zsize before rest + 1) cur ++ extra, index := -1,
         i := p, j := -1 } : ANode) :: layoutL (zsize before rest + 1) cur

/-- The children of the root node in that situation. -/
def rootKids : List Node → List Nat → List (Int × List Node) → List Nat
  | cur, extra, [] => addrs 0 cur ++ extra
  | _, _, (_, before) :: rest => rootKids before [zsize before rest] rest

/-- The stack of open nodes in that situation, top first. -/
def stackZ : List (Int × List Node) → List Int
  | [] => []
  | (_, before) :: rest => (zsize before rest : Int) :: stackZ rest

/-- The characters read in that situation. -/
def renderZ : List Node → List (Int × List Node) → List Char
  | cur, [] => renderF cur
  | cur, (_, before) :: rest => renderZ before rest ++ '(' :: renderF cur

mutual
/-- A tree of 'U' leaves and 'P' nodes whose fields `i`, `j` are the positions of its
first and last character when it is written out from position `o` on. -/
def Good : Int → Node → Prop
  | o, Node.mk l cs x i j =>
    x = -1 ∧ i = o ∧
      ((l = 'U' ∧ cs = [] ∧ j = o) ∨
       (l = 'P' ∧ j = o + 1 + (renderF cs).length ∧ GoodL (o + 1) cs))
/-- A forest of such trees written out from position `o` on. -/
def GoodL : Int → List Node → Prop
  | _, [] => True
  | o, t :: ts => Good o t ∧ GoodL (o + (render t).length) ts
end

/-- The completed children and the open nodes of the parser carry the positions of the
characters read. -/
def GoodZ : List Node → List (Int × List Node) → Prop
  | cur, [] => GoodL 0 cur
  | cur, (p, before) :: rest =>
    GoodZ before rest ∧ p = (renderZ before rest).length ∧ GoodL (p + 1) cur

/-- The state of the parser after reading `w`, in terms of the completed children
`cur` of the innermost open node and the open nodes `stack`. -/
structure PInv (len : Int) (st : PState) (cur : List Node) (stack : List (Int × List Node))
    (w : List Char) : Prop where
  nodes_eq : st.nodes = heapX cur [] stack
  root_eq : st.root = { label := 'R', children := rootKids cur [] stack, index := -1,
                        i := 0, j := len - 1 }
  stack_eq : st.stack = stackZ stack
  pstack_eq : st.parent_stack = stackZ stack ++ [-1]
  open_eq : st.open_count = (w.count '(' : Int)
  close_eq : st.close_count = (w.count ')' : Int)
  depth_eq : stack.length + w.count ')' = w.count '('
  render_eq : renderZ cur stack = w
  good : GoodZ cur stack

end RNAted

namespace RNAted

/-! ## Edit scripts

The edit operations on ordered labeled forests (trees left to right) and their cost
under the cost model of the program. -/

end RNAted

namespace RNAted

/-! ## Basic facts -/

theorem node_ind {P : Node → Prop} {Q : List Node → Prop}
    (hmk : ∀ l cs x a b, Q cs → P (Node.mk l cs x a b))
    (hnil : Q []) (hcons : ∀ c cs, P c → Q cs → Q (c :: cs)) :
    (∀ v, P v) ∧ (∀ F, Q F) :=
  ⟨fun v => Node.rec (motive_1 := P) (motive_2 := Q) hmk hnil hcons v,
   fun F => Node.rec_1 (motive_1 := P) (motive_2 := Q) hmk hnil hcons F⟩

theorem ltree_ind {P : LTree → Prop} {Q : List LTree → Prop}
    (hmk : ∀ l cs, Q cs → P (LTree.mk l cs))
    (hnil : Q []) (hcons : ∀ c cs, P c → Q cs → Q (c :: cs)) :
    (∀ v, P v) ∧ (∀ F, Q F) :=
  ⟨fun v => LTree.rec (motive_1 := P) (motive_2 := Q) hmk hnil hcons v,
   fun F => LTree.rec_1 (motive_1 := P) (motive_2 := Q) hmk hnil hcons F⟩

theorem min_le_l (a b : Int) : min a b ≤ a := by
  unfold min; split_ifs <;> omega

theorem min_le_r (a b : Int) : min a b ≤ b := by
  unfold min; split_ifs <;> omega

theorem le_min_of (a b c : Int) (h1 : c ≤ a) (h2 : c ≤ b) : c ≤ min a b := by
  unfold min; split_ifs <;> omega

theorem min_cases (a b : Int) : min a b = a ∨ min a b = b := by
  unfold min; split_ifs <;> simp

theorem min_comm3 (a b c : Int) : min a (min b c) = min b (min a c) := by
  unfold min; split_ifs <;> omega

theorem cost_delete_pos (l : Char) : 1 ≤ cost_delete l ∧ cost_delete l ≤ 2 := by
  unfold cost_delete; split_ifs <;> omega

theorem cost_insert_pos (l : Char) : 1 ≤ cost_insert l ∧ cost_insert l ≤ 2 := by
  unfold cost_insert; split_ifs <;> omega

theorem cost_insert_eq_delete (l : Char) : cost_insert l = cost_delete l := rfl

theorem cost_relabel_nonneg (a b : Char) : 0 ≤ cost_relabel a b ∧ cost_relabel a b ≤ 1 := by
  unfold cost_relabel; split_ifs <;> omega

theorem cost_relabel_comm (a b : Char) : cost_relabel a b = cost_relabel b a := by
  unfold cost_relabel
  by_cases h : a = b
  · simp [h]
  · have h2 : ¬ b = a := fun e => h e.symm
    simp [h, h2]

theorem nsize_pos (v : Node) : 0 < nsize v := by
  cases v; simp [nsize]

theorem fsize_append (F G : List Node) : fsize (F ++ G) = fsize F + fsize G := by
  induction F with
  | nil => simp [fsize]
  | cons c cs ih => simp [fsize, ih]; omega

theorem poF_append (F G : List Node) : poF (F ++ G) = poF F ++ poF G := by
  induction F with
  | nil => simp [poF]
  | cons c cs ih => simp [poF, ih]

theorem length_po_both :
    (∀ v : Node, (po v).length = nsize v) ∧ (∀ F : List Node, (poF F).length = fsize F) := by
  apply node_ind
  · intro l cs x a b ih
    simp [po, nsize, ih]
  · simp [poF, fsize]
  · intro c cs ih1 ih2
    simp [poF, fsize, ih1, ih2]

theorem length_po (v : Node) : (po v).length = nsize v := length_po_both.1 v

theorem length_poF (F : List Node) : (poF F).length = fsize F := length_po_both.2 F

theorem shapes_eq_map (F : List Node) : shapes F = F.map shape := by
  induction F with
  | nil => rfl
  | cons c cs ih => simp [shapes, ih]

theorem shape_label (v : Node) : (shape v).1 = v.label := by
  cases v; rfl

/-- Every position of a forest's postorder listing holds a node whose own postorder
listing is the block of the listing that ends at that position. -/
theorem block_both :
    (∀ v : Node, ∀ (A B : List Node) (x : Nat), A.length ≤ x → x < A.length + nsize v →
      ∃ u A2 B2, (A ++ po v ++ B)[x]? = some u ∧ nsize u ≤ x + 1 - A.length ∧
        A ++ po v ++ B = A2 ++ po u ++ B2 ∧ A2.length = x + 1 - nsize u) ∧
    (∀ F : List Node, ∀ (A B : List Node) (x : Nat), A.length ≤ x → x < A.length + fsize F →
      ∃ u A2 B2, (A ++ poF F ++ B)[x]? = some u ∧ nsize u ≤ x + 1 - A.length ∧
        A ++ poF F ++ B = A2 ++ po u ++ B2 ∧ A2.length = x + 1 - nsize u) := by
  apply node_ind
  · intro l cs i a b ih A B x h1 h2
    by_cases hx : x < A.length + fsize cs
    · obtain ⟨u, A2, B2, e1, e2, e3, e4⟩ := ih A ([Node.mk l cs i a b] ++ B) x h1 hx
      refine ⟨u, A2, B2, ?_, e2, ?_, e4⟩
      · simpa [po, List.append_assoc] using e1
      · simpa [po, List.append_assoc] using e3
    · have hx2 : x = A.length + fsize cs := by simp [nsize] at h2; omega
      refine ⟨Node.mk l cs i a b, A, B, ?_, ?_, rfl, ?_⟩
      · have : (A ++ poF cs).length = x := by simp [length_poF, hx2]
        simp only [po, ← List.append_assoc]
        rw [List.append_assoc (A ++ poF cs)]
        rw [List.getElem?_append_right (by omega)]
        simp [this]
      · simp [nsize]; omega
      · simp [nsize]; omega
  · intro A B x h1 h2
    simp [fsize] at h2; omega
  · intro c cs ih1 ih2 A B x h1 h2
    by_cases hx : x < A.length + nsize c
    · obtain ⟨u, A2, B2, e1, e2, e3, e4⟩ := ih1 A (poF cs ++ B) x h1 hx
      refine ⟨u, A2, B2, ?_, e2, ?_, e4⟩
      · simpa [poF, List.append_assoc] using e1
      · simpa [poF, List.append_assoc] using e3
    · obtain ⟨u, A2, B2, e1, e2, e3, e4⟩ := ih2 (A ++ po c) B x
        (by simp [length_po]; omega) (by simp [length_po, fsize] at h2 ⊢; omega)
      refine ⟨u, A2, B2, ?_, ?_, ?_, e4⟩
      · simpa [poF, List.append_assoc] using e1
      · simp [length_po] at e2; omega
      · simpa [poF, List.append_assoc] using e3

end RNAted

namespace RNAted

/-! ## The indexer -/

theorem node_ind_mem {P : Node → Prop}
    (h : ∀ l cs x a b, (∀ c ∈ cs, P c) → P (Node.mk l cs x a b)) : ∀ v, P v := by
  have := node_ind (P := P) (Q := fun F => ∀ c ∈ F, P c) h (by simp)
    (by intro c cs h1 h2 d hd
        rcases List.mem_cons.1 hd with e | e
        · exact e ▸ h1
        · exact h2 d e)
  exact this.1

theorem po_ne_nil (v : Node) : po v ≠ [] := by
  cases v; simp [po]

theorem po_getLast (v : Node) : (po v)[nsize v - 1]? = some v := by
  cases v with
  | mk l cs x a b =>
    simp only [po, nsize]
    rw [List.getElem?_append_right (by simp [length_poF])]
    simp [length_poF]

/-- The result of `postorder_traversal`: the list grows by the postorder listing of the
re-indexed tree, whose `index` fields count up from the incoming `index`. -/
theorem postorder_traversal_both :
    (∀ v : Node, ∀ (list : List Node) (index : Int),
      (postorder_traversal v list index).2.1 = list ++ po (postorder_traversal v list index).1 ∧
      (postorder_traversal v list index).2.2 = index + nsize v ∧
      shape (postorder_traversal v list index).1 = shape v ∧
      nsize (postorder_traversal v list index).1 = nsize v ∧
      ∀ (x : Nat) (u : Node), (po (postorder_traversal v list index).1)[x]? = some u →
        u.index = index + x) ∧
    (∀ F : List Node, ∀ (list : List Node) (index : Int),
      (postorder_children F list index).2.1 = list ++ poF (postorder_children F list index).1 ∧
      (postorder_children F list index).2.2 = index + fsize F ∧
      shapes (postorder_children F list index).1 = shapes F ∧
      fsize (postorder_children F list index).1 = fsize F ∧
      ∀ (x : Nat) (u : Node), (poF (postorder_children F list index).1)[x]? = some u →
        u.index = index + x) := by
  apply node_ind
  · intro l cs i a b ih list index
    have H := ih list index
    simp only [postorder_traversal]
    generalize postorder_children cs list index = q at H ⊢
    obtain ⟨cs2, list2, index2⟩ := q
    simp only at H ⊢
    obtain ⟨h1, h2, h3, h4, h5⟩ := H
    refine ⟨?_, ?_, ?_, ?_, ?_⟩
    · simp [po, h1]
    · simp [nsize, h2]; omega
    · simp [shape, h3]
    · simp [nsize, h4]
    · intro x u hu
      simp only [po] at hu
      by_cases hx : x < (poF cs2).length
      · rw [List.getElem?_append_left hx] at hu
        exact h5 x u hu
      · rw [List.getElem?_append_right (by omega)] at hu
        have hx0 : x - (poF cs2).length = 0 := by
          by_contra hne
          rw [List.getElem?_eq_none (by simp; omega)] at hu
          cases hu
        rw [hx0] at hu
        simp at hu
        subst hu
        simp only [Node.index, h2]
        have : x = fsize cs := by rw [length_poF, h4] at hx hx0; omega
        rw [this]
  · intro list index
    simp [postorder_children, poF, fsize, shapes]
  · intro c cs ih1 ih2 list index
    have H1 := ih1 list index
    have H2 := ih2 (postorder_traversal c list index).2.1
      (postorder_traversal c list index).2.2
    simp only [postorder_children]
    generalize postorder_traversal c list index = r at H1 H2 ⊢
    obtain ⟨c2, list2, index2⟩ := r
    simp only at H1 H2 ⊢
    generalize postorder_children cs list2 index2 = q at H2 ⊢
    obtain ⟨cs2, list3, index3⟩ := q
    simp only at H2 ⊢
    obtain ⟨h1, h2, h3, h4, h5⟩ := H1
    obtain ⟨g1, g2, g3, g4, g5⟩ := H2
    refine ⟨?_, ?_, ?_, ?_, ?_⟩
    · simp [poF, g1, h1]
    · simp [fsize, g2, h2]; omega
    · simp [shapes, g3, h3]
    · simp [fsize, g4, h4]
    · intro x u hu
      simp only [poF] at hu
      by_cases hx : x < (po c2).length
      · rw [List.getElem?_append_left hx] at hu
        exact h5 x u hu
      · rw [List.getElem?_append_right (by omega)] at hu
        have := g5 _ u hu
        rw [this, h2]
        rw [length_po, h4] at hx ⊢
        omega

/-- What `find_leftmost_index` returns is the `index` field of the first node of the
postorder listing. -/
theorem find_leftmost_index_eq (v : Node) :
    ∃ u, (po v)[0]? = some u ∧ find_leftmost_index v = u.index := by
  revert v
  apply node_ind_mem
  intro l cs x a b ih
  cases cs with
  | nil => exact ⟨Node.mk l [] x a b, by simp [po, poF], by simp [find_leftmost_index, Node.index]⟩
  | cons c rest =>
    obtain ⟨u, h1, h2⟩ := ih c (by simp)
    refine ⟨u, ?_, by simpa [find_leftmost_index] using h2⟩
    have hlen : 0 < (po c).length := by rw [length_po]; exact nsize_pos c
    simp only [po, poF, List.append_assoc]
    rw [List.getElem?_append_left hlen]
    exact h1

end RNAted

namespace RNAted

/-! ## Leftmost leaves and keyroots in a postorder listing -/

theorem getD_of_getElem? {α : Type} [Inhabited α] (L : List α) (x : Nat) (u : α)
    (h : L[x]? = some u) : L.getD x default = u := by
  simp [List.getD, h]

theorem lmOf_forest (F A B : List Node) (x : Nat) (h1 : A.length ≤ x)
    (h2 : x < A.length + fsize F) :
    A.length ≤ lmOf (A ++ poF F ++ B) x ∧ lmOf (A ++ poF F ++ B) x ≤ x := by
  obtain ⟨u, A2, B2, e1, e2, _, _⟩ := block_both.2 F A B x h1 h2
  have hp := nsize_pos u
  unfold lmOf
  rw [getD_of_getElem? _ _ _ e1]
  omega

theorem lmOf_le (L : List Node) (x : Nat) : lmOf L x ≤ x := by
  unfold lmOf
  have := nsize_pos (L.getD x default)
  omega

theorem getElem?_root (v : Node) (A B : List Node) :
    (A ++ po v ++ B)[A.length + nsize v - 1]? = some v := by
  have hp := nsize_pos v
  rw [List.append_assoc, List.getElem?_append_right (by omega)]
  rw [List.getElem?_append_left (by rw [length_po]; omega)]
  have : A.length + nsize v - 1 - A.length = nsize v - 1 := by omega
  rw [this]
  exact po_getLast v

theorem lmOf_root (v : Node) (A B : List Node) :
    lmOf (A ++ po v ++ B) (A.length + nsize v - 1) = A.length := by
  unfold lmOf
  rw [getD_of_getElem? _ _ _ (getElem?_root v A B)]
  have hp := nsize_pos v
  omega

/-- The entries recorded by `collect_keyroots` inside a block of an indexed postorder
listing: each is a position of the block that is the last one with its leftmost leaf,
and every position of the block has such an entry unless it lies on the leftmost path
of an unrecorded root. -/
theorem kr_both (L : List Node) (hidx : ∀ (x : Nat) (u : Node), L[x]? = some u → u.index = x) :
    (∀ v : Node, ∀ (A B : List Node) (flag : Bool), L = A ++ po v ++ B →
      (∀ k ∈ krN v flag, ∃ p : Nat, k = (p : Int) ∧ A.length ≤ p ∧ p ≤ A.length + nsize v - 1 ∧
        (p = A.length + nsize v - 1 ∨ lmOf L p ≠ A.length) ∧
        (p = A.length + nsize v - 1 → flag = true) ∧
        ∀ x, A.length ≤ x → x ≤ A.length + nsize v - 1 → lmOf L x = lmOf L p → x ≤ p) ∧
      (∀ x, A.length ≤ x → x ≤ A.length + nsize v - 1 → (flag = true ∨ lmOf L x ≠ A.length) →
        ∃ p : Nat, (p : Int) ∈ krN v flag ∧ lmOf L p = lmOf L x ∧ x ≤ p) ∧
      (krN v flag).Nodup) ∧
    (∀ F : List Node, ∀ (A B : List Node) (first : Bool), L = A ++ poF F ++ B →
      (∀ k ∈ krF F first, ∃ p : Nat, k = (p : Int) ∧ A.length ≤ p ∧ p < A.length + fsize F ∧
        (first = true → lmOf L p ≠ A.length) ∧
        ∀ x, A.length ≤ x → x < A.length + fsize F → lmOf L x = lmOf L p → x ≤ p) ∧
      (∀ x, A.length ≤ x → x < A.length + fsize F → (first = false ∨ lmOf L x ≠ A.length) →
        ∃ p : Nat, (p : Int) ∈ krF F first ∧ lmOf L p = lmOf L x ∧ x ≤ p) ∧
      (krF F first).Nodup) := by
  apply node_ind
  · intro l cs idx a b ih A B flag hL
    have hL2 : L = A ++ poF cs ++ ([Node.mk l cs idx a b] ++ B) := by
      simpa [po, List.append_assoc] using hL
    obtain ⟨ihA, ihB, ihD⟩ := ih A ([Node.mk l cs idx a b] ++ B) true hL2
    have hroot := getElem?_root (Node.mk l cs idx a b) A B
    rw [← hL] at hroot
    have hidxv : idx = ((A.length + nsize (Node.mk l cs idx a b) - 1 : Nat) : Int) := by
      have := hidx _ _ hroot
      simpa [Node.index] using this
    have hlmroot := lmOf_root (Node.mk l cs idx a b) A B
    rw [← hL] at hlmroot
    have hn : nsize (Node.mk l cs idx a b) = fsize cs + 1 := by simp [nsize]
    refine ⟨?_, ?_, ?_⟩
    · intro k hk
      simp only [krN, List.mem_append] at hk
      rcases hk with hk | hk
      · by_cases hf : flag = true
        · simp [hf] at hk
          refine ⟨A.length + nsize (Node.mk l cs idx a b) - 1, ?_, ?_, ?_, ?_, ?_, ?_⟩
          · rw [hk]; exact hidxv
          · omega
          · omega
          · left; rfl
          · intro _; exact hf
          · intro x _ hx _; exact hx
        · simp [hf] at hk
      · obtain ⟨p, e1, e2, e3, e4, e5⟩ := ihA k hk
        refine ⟨p, e1, e2, by omega, Or.inr (e4 rfl), by intro h; omega, ?_⟩
        intro x hx1 hx2 hx3
        by_cases hxl : x < A.length + fsize cs
        · exact e5 x hx1 hxl hx3
        · have : x = A.length + nsize (Node.mk l cs idx a b) - 1 := by omega
          rw [this, hlmroot] at hx3
          exact absurd hx3.symm (e4 rfl)
    · intro x hx1 hx2 hx3
      by_cases hxl : x < A.length + fsize cs
      · by_cases hlm : lmOf L x = A.length
        · have hf : flag = true := by
            rcases hx3 with h | h
            · exact h
            · exact absurd hlm h
          refine ⟨A.length + nsize (Node.mk l cs idx a b) - 1, ?_, ?_, hx2⟩
          · simp only [krN, List.mem_append]
            left
            rw [if_pos hf]
            exact List.mem_singleton.2 hidxv.symm
          · rw [hlmroot, hlm]
        · obtain ⟨p, e1, e2, e3⟩ := ihB x hx1 hxl (Or.inr hlm)
          exact ⟨p, by simp only [krN, List.mem_append]; right; exact e1, e2, e3⟩
      · have hxe : x = A.length + nsize (Node.mk l cs idx a b) - 1 := by omega
        have hf : flag = true := by
          rcases hx3 with h | h
          · exact h
          · rw [hxe, hlmroot] at h; exact absurd rfl h
        refine ⟨A.length + nsize (Node.mk l cs idx a b) - 1, ?_, ?_, hx2⟩
        · simp only [krN, List.mem_append]
          left
          rw [if_pos hf]
          exact List.mem_singleton.2 hidxv.symm
        · rw [hxe]
    · simp only [krN]
      rw [List.nodup_append]
      refine ⟨by split_ifs <;> simp, ihD, ?_⟩
      intro k hk1 hk2
      obtain ⟨p, e1, e2, e3, _⟩ := ihA k hk2
      by_cases hf : flag = true
      · simp [hf] at hk1
        rw [hk1, hidxv] at e1
        omega
      · simp [hf] at hk1
  · intro A B first hL
    refine ⟨by simp [krF], ?_, by simp [krF]⟩
    intro x hx1 hx2
    simp [fsize] at hx2
    omega
  · intro c cs ih1 ih2 A B first hL
    have hL1 : L = A ++ po c ++ (poF cs ++ B) := by
      simpa [poF, List.append_assoc] using hL
    have hL2 : L = (A ++ po c) ++ poF cs ++ B := by
      simpa [poF, List.append_assoc] using hL
    obtain ⟨aA, aB, aD⟩ := ih1 A (poF cs ++ B) (!first) hL1
    obtain ⟨bA, bB, bD⟩ := ih2 (A ++ po c) B false hL2
    have hlen : (A ++ po c).length = A.length + nsize c := by simp [length_po]
    rw [hlen] at bA bB
    have hpc := nsize_pos c
    have hfs : fsize (c :: cs) = nsize c + fsize cs := by simp [fsize]
    have lm_c : ∀ x, A.length ≤ x → x < A.length + nsize c →
        A.length ≤ lmOf L x ∧ lmOf L x ≤ x := by
      intro x h1 h2
      have := lmOf_forest [c] A (poF cs ++ B) x h1 (by simpa [fsize] using h2)
      simpa [poF, ← hL1] using this
    have lm_cs : ∀ x, A.length + nsize c ≤ x → x < A.length + nsize c + fsize cs →
        A.length + nsize c ≤ lmOf L x ∧ lmOf L x ≤ x := by
      intro x h1 h2
      have := lmOf_forest cs (A ++ po c) B x (by rw [hlen]; exact h1) (by rw [hlen]; exact h2)
      rw [hlen, ← hL2] at this
      exact this
    refine ⟨?_, ?_, ?_⟩
    · intro k hk
      simp only [krF, List.mem_append] at hk
      rcases hk with hk | hk
      · obtain ⟨p, e1, e2, e3, e4, e5, e6⟩ := aA k hk
        refine ⟨p, e1, e2, by omega, ?_, ?_⟩
        · intro hf
          rcases e4 with h | h
          · have := e5 h
            simp [hf] at this
          · exact h
        · intro x hx1 hx2 hx3
          by_cases hxl : x < A.length + nsize c
          · exact e6 x hx1 (by omega) hx3
          · have h1 := lm_cs x (by omega) (by omega)
            have h2 := lm_c p e2 (by omega)
            omega
      · obtain ⟨p, e1, e2, e3, _, e5⟩ := bA k hk
        have h2 := lm_cs p e2 (by omega)
        refine ⟨p, e1, by omega, by omega, by intro _; omega, ?_⟩
        intro x hx1 hx2 hx3
        by_cases hxl : x < A.length + nsize c
        · have h1 := lm_c x hx1 hxl
          omega
        · exact e5 x (by omega) (by omega) hx3
    · intro x hx1 hx2 hx3
      by_cases hxl : x < A.length + nsize c
      · have hx3b : (!first) = true ∨ lmOf L x ≠ A.length := by
          rcases hx3 with h | h
          · left; simp [h]
          · right; exact h
        obtain ⟨p, e1, e2, e3⟩ := aB x hx1 (by omega) hx3b
        exact ⟨p, by simp only [krF, List.mem_append]; left; exact e1, e2, e3⟩
      · obtain ⟨p, e1, e2, e3⟩ := bB x (by omega) (by omega) (Or.inl rfl)
        exact ⟨p, by simp only [krF, List.mem_append]; right; exact e1, e2, e3⟩
    · simp only [krF]
      rw [List.nodup_append]
      refine ⟨aD, bD, ?_⟩
      intro k hk1 hk2
      obtain ⟨p, e1, e2, e3, _⟩ := aA k hk1
      obtain ⟨q, f1, f2, f3, _⟩ := bA k hk2
      omega

end RNAted

namespace RNAted

/-! ## The indexed tree built by `compute_tree_info` -/

theorem collect_keyroots_both :
    (∀ v : Node, ∀ (pn ifc : Bool) (acc : List Int),
      collect_keyroots v pn ifc acc = acc ++ krN v (pn || !ifc)) ∧
    (∀ F : List Node, ∀ (i : Nat) (acc : List Int),
      collect_keyroots_children F i acc = acc ++ krF F (i == 0)) := by
  apply node_ind
  · intro l cs x a b ih pn ifc acc
    simp only [collect_keyroots, krN]
    rw [ih]
    by_cases h : (pn || !ifc) = true
    · simp [h]
    · simp [h]
  · intro i acc
    simp [collect_keyroots_children, krF]
  · intro c cs ih1 ih2 i acc
    simp only [collect_keyroots_children, krF]
    rw [ih2, ih1]
    simp

theorem qsort_perm (l : List Int) : (qsort compare_int l).Perm l := by
  unfold qsort
  exact List.perm_insertionSort _ l

theorem qsort_sorted (l : List Int) : (qsort compare_int l).Sorted (· ≤ ·) := by
  unfold qsort
  have ht : IsTotal Int (fun x y => compare_int x y ≤ 0) :=
    ⟨fun a b => by simp only [compare_int]; omega⟩
  have htr : IsTrans Int (fun x y => compare_int x y ≤ 0) :=
    ⟨fun a b c h1 h2 => by simp only [compare_int] at *; omega⟩
  have := List.sorted_insertionSort (fun x y : Int => compare_int x y ≤ 0) l
  refine List.Pairwise.imp ?_ this
  intro a b h
  simp only [compare_int] at h
  omega

theorem qsort_strict (l : List Int) (h : l.Nodup) : (qsort compare_int l).Sorted (· < ·) := by
  have h1 := qsort_sorted l
  have h2 : (qsort compare_int l).Nodup := (qsort_perm l).nodup_iff.2 h
  exact (List.Sorted.lt_of_le h1 h2)

theorem mem_qsort (l : List Int) (k : Int) : k ∈ qsort compare_int l ↔ k ∈ l :=
  (qsort_perm l).mem_iff

theorem length_qsort (l : List Int) : (qsort compare_int l).length = l.length :=
  (qsort_perm l).length_eq

theorem cti_postorder (r : Node) :
    (compute_tree_info r).postorder = po (compute_tree_info r).root ∧
    shape (compute_tree_info r).root = shape r ∧
    nsize (compute_tree_info r).root = nsize r ∧
    (compute_tree_info r).postorder_size = (nsize r : Int) ∧
    (∀ (x : Nat) (u : Node), (compute_tree_info r).postorder[x]? = some u → u.index = x) ∧
    (compute_tree_info r).leftmost =
      (compute_tree_info r).postorder.map find_leftmost_index ∧
    (compute_tree_info r).keyroots = qsort compare_int (krN (compute_tree_info r).root true) ∧
    (compute_tree_info r).num_keyroots = ((compute_tree_info r).keyroots.length : Int) := by
  have H := postorder_traversal_both.1 r [] 0
  unfold compute_tree_info
  generalize postorder_traversal r [] 0 = q at H ⊢
  obtain ⟨root2, postorder, index⟩ := q
  simp only at H ⊢
  obtain ⟨h1, h2, h3, h4, h5⟩ := H
  refine ⟨by simpa using h1, h3, h4, by simpa using h2, ?_, trivial, ?_, ?_⟩
  · intro x u hu
    have h1b : postorder = po root2 := by simpa using h1
    rw [h1b] at hu
    simpa using h5 x u hu
  · rw [collect_keyroots_both.1]; simp
  · rw [length_qsort]

theorem length_cti_postorder (r : Node) :
    (compute_tree_info r).postorder.length = nsize r := by
  obtain ⟨h1, _, h3, _⟩ := cti_postorder r
  rw [h1, length_po, h3]

/-- Every position of the postorder listing of an indexed tree holds a node whose
subtree is the block of the listing from its leftmost leaf to the position. -/
theorem cti_block (r : Node) (x : Nat) (hx : x < nsize r) :
    ∃ u A B, (compute_tree_info r).postorder[x]? = some u ∧ nsize u ≤ x + 1 ∧
      (compute_tree_info r).postorder = A ++ po u ++ B ∧
      A.length = lmOf (compute_tree_info r).postorder x := by
  obtain ⟨h1, _, h3, _⟩ := cti_postorder r
  have := block_both.1 (compute_tree_info r).root [] [] x (by simp) (by simp [h3, hx])
  obtain ⟨u, A, B, e1, e2, e3, e4⟩ := this
  simp only [List.nil_append, List.append_nil] at e1 e3
  rw [← h1] at e1 e3
  refine ⟨u, A, B, e1, by simpa using e2, e3, ?_⟩
  unfold lmOf
  rw [getD_of_getElem? _ _ _ e1]
  exact e4

/-- The `leftmost` table holds, at each position, the position of the leftmost leaf. -/
theorem cti_leftmost (r : Node) (x : Nat) (hx : x < nsize r) :
    (compute_tree_info r).leftmost[x]? = some (lmOf (compute_tree_info r).postorder x : Int) := by
  obtain ⟨u, A, B, e1, e2, e3, e4⟩ := cti_block r x hx
  obtain ⟨_, _, _, _, hidx, hlm, _⟩ := cti_postorder r
  rw [hlm, List.getElem?_map, e1]
  simp only [Option.map_some']
  obtain ⟨w, hw1, hw2⟩ := find_leftmost_index_eq u
  rw [hw2]
  have hpos := nsize_pos u
  have hw : (compute_tree_info r).postorder[A.length]? = some w := by
    rw [e3, List.append_assoc, List.getElem?_append_right (le_refl _)]
    rw [List.getElem?_append_left (by rw [length_po]; simpa using hpos)]
    simpa using hw1
  rw [hidx _ _ hw, e4]

theorem length_cti_leftmost (r : Node) : (compute_tree_info r).leftmost.length = nsize r := by
  obtain ⟨_, _, _, _, _, hlm, _⟩ := cti_postorder r
  rw [hlm, List.length_map, length_cti_postorder]

/-- Inside the subtree block of a position, leftmost leaves stay inside the block. -/
theorem cti_laminar (r : Node) (x p : Nat) (hx : x < nsize r)
    (h1 : lmOf (compute_tree_info r).postorder x ≤ p) (h2 : p ≤ x) :
    lmOf (compute_tree_info r).postorder x ≤ lmOf (compute_tree_info r).postorder p := by
  obtain ⟨u, A, B, e1, e2, e3, e4⟩ := cti_block r x hx
  have hm : lmOf (compute_tree_info r).postorder x = x + 1 - nsize u := by
    unfold lmOf; rw [getD_of_getElem? _ _ _ e1]
  have := lmOf_forest [u] A B p (by omega) (by simp [fsize]; omega)
  simp only [poF, List.append_nil] at this
  rw [← e3] at this
  omega

/-- The keyroots of an indexed tree. -/
theorem cti_keyroots (r : Node) :
    (∀ k ∈ (compute_tree_info r).keyroots, ∃ p : Nat, k = (p : Int) ∧ p < nsize r ∧
      ∀ x, x < nsize r → lmOf (compute_tree_info r).postorder x =
        lmOf (compute_tree_info r).postorder p → x ≤ p) ∧
    (∀ x, x < nsize r → ∃ p : Nat, (p : Int) ∈ (compute_tree_info r).keyroots ∧
      lmOf (compute_tree_info r).postorder p = lmOf (compute_tree_info r).postorder x ∧ x ≤ p) ∧
    (compute_tree_info r).keyroots.Sorted (· < ·) := by
  obtain ⟨h1, _, h3, _, hidx, _, hk, _⟩ := cti_postorder r
  have hp := nsize_pos r
  have H := (kr_both (compute_tree_info r).postorder hidx).1 (compute_tree_info r).root [] [] true
    (by simpa using h1)
  obtain ⟨HA, HB, HD⟩ := H
  rw [h3] at HA HB
  refine ⟨?_, ?_, ?_⟩
  · intro k hk1
    rw [hk, mem_qsort] at hk1
    obtain ⟨p, e1, _, e2, _, _, e5⟩ := HA k hk1
    simp only [List.length_nil, Nat.zero_add] at e2 e5
    exact ⟨p, e1, by omega, fun x hx hl => e5 x (Nat.zero_le _) (by omega) hl⟩
  · intro x hx
    obtain ⟨p, e1, e2, e3⟩ := HB x (Nat.zero_le _)
      (by simp only [List.length_nil, Nat.zero_add]; omega) (Or.inl rfl)
    exact ⟨p, by rw [hk, mem_qsort]; exact e1, e2, e3⟩
  · rw [hk]
    exact qsort_strict _ HD

end RNAted

namespace RNAted

/-! ## Prefix forests -/

theorem takeT_eq (a : Nat) (v : Node) : takeT a v = takeF a v.children := by
  cases v; simp [takeT, Node.children]

theorem nsize_eq (v : Node) : nsize v = fsize v.children + 1 := by
  cases v; simp [nsize, Node.children]

theorem takeF_zero_both :
    (∀ v : Node, takeT 0 v = []) ∧ (∀ F : List Node, takeF 0 F = []) := by
  apply node_ind
  · intro l cs x a b ih
    simpa [takeT] using ih
  · simp [takeF]
  · intro c cs ih1 ih2
    have := nsize_pos c
    simp only [takeF]
    rw [if_neg (by omega)]
    exact ih1

theorem takeF_zero (F : List Node) : takeF 0 F = [] := takeF_zero_both.2 F

theorem takeF_full (F : List Node) : takeF (fsize F) F = F := by
  induction F with
  | nil => simp [takeF]
  | cons c cs ih =>
    simp only [takeF, fsize]
    rw [if_pos (by omega)]
    have : nsize c + fsize cs - nsize c = fsize cs := by omega
    rw [this, ih]

/-- The forest of the first `x + 1` nodes ends with the tree rooted at position `x`;
removing that root leaves the forest of the first `x` nodes. -/
theorem takeF_step_both :
    (∀ v : Node, ∀ (x : Nat) (u : Node), x + 1 < nsize v → (po v)[x]? = some u →
      nsize u ≤ x + 1 ∧ takeT (x + 1) v = takeT (x + 1 - nsize u) v ++ [u] ∧
      takeT x v = takeT (x + 1 - nsize u) v ++ u.children) ∧
    (∀ F : List Node, ∀ (x : Nat) (u : Node), x < fsize F → (poF F)[x]? = some u →
      nsize u ≤ x + 1 ∧ takeF (x + 1) F = takeF (x + 1 - nsize u) F ++ [u] ∧
      takeF x F = takeF (x + 1 - nsize u) F ++ u.children) := by
  apply node_ind
  · intro l cs i a b ih x u hx hu
    simp only [nsize] at hx
    simp only [po] at hu
    rw [List.getElem?_append_left (by rw [length_poF]; omega)] at hu
    simpa [takeT] using ih x u (by omega) hu
  · intro x u hx
    simp [fsize] at hx
  · intro c cs ih1 ih2 x u hx hu
    have hpc := nsize_pos c
    simp only [fsize] at hx
    simp only [poF] at hu
    by_cases h1 : x + 1 < nsize c
    · rw [List.getElem?_append_left (by rw [length_po]; omega)] at hu
      obtain ⟨e1, e2, e3⟩ := ih1 x u h1 hu
      refine ⟨e1, ?_, ?_⟩
      · simp only [takeF]
        rw [if_neg (by omega), if_neg (by omega)]
        exact e2
      · simp only [takeF]
        rw [if_neg (by omega), if_neg (by omega)]
        exact e3
    · by_cases h2 : x + 1 = nsize c
      · rw [List.getElem?_append_left (by rw [length_po]; omega)] at hu
        have hc := po_getLast c
        have hx1 : nsize c - 1 = x := by omega
        rw [hx1, hu] at hc
        have huc : u = c := by simpa using hc
        subst huc
        refine ⟨by omega, ?_, ?_⟩
        · have e1 : x + 1 - nsize u = 0 := by omega
          rw [e1, takeF_zero, takeF.eq_2, if_pos (by omega), e1, takeF_zero]
          simp
        · have e1 : x + 1 - nsize u = 0 := by omega
          rw [e1, takeF_zero, takeF.eq_2, if_neg (by omega), takeT_eq]
          have e2 : x = fsize u.children := by
            have := nsize_eq u; omega
          rw [e2, takeF_full]
          simp
      · rw [List.getElem?_append_right (by rw [length_po]; omega), length_po] at hu
        obtain ⟨e1, e2, e3⟩ := ih2 (x - nsize c) u (by omega) hu
        have e4 : x - nsize c + 1 = x + 1 - nsize c := by omega
        rw [e4] at e1 e2
        refine ⟨by omega, ?_, ?_⟩
        · simp only [takeF]
          rw [if_pos (by omega), if_pos (by omega), e2]
          have : x + 1 - nsize c - nsize u = x + 1 - nsize u - nsize c := by omega
          rw [this]
          simp
        · simp only [takeF]
          rw [if_pos (by omega), if_pos (by omega), e3]
          have : x - nsize c + 1 - nsize u = x + 1 - nsize u - nsize c := by omega
          rw [this]
          simp

theorem takeF_step (F : List Node) (x : Nat) (u : Node) (hx : x < fsize F)
    (hu : (poF F)[x]? = some u) :
    nsize u ≤ x + 1 ∧ takeF (x + 1) F = takeF (x + 1 - nsize u) F ++ [u] ∧
      takeF x F = takeF (x + 1 - nsize u) F ++ u.children :=
  takeF_step_both.2 F x u hx hu

/-! ## Properties of the forest edit distance -/

theorem lsizes_append (F G : List LTree) : lsizes (F ++ G) = lsizes F + lsizes G := by
  induction F with
  | nil => simp [lsizes]
  | cons c cs ih => simp [lsizes, ih]; omega

theorem lsizes_reverse (F : List LTree) : lsizes F.reverse = lsizes F := by
  induction F with
  | nil => rfl
  | cons c cs ih => simp [lsizes, lsizes_append, ih]; omega

theorem dist_nonneg (F G : List LTree) : 0 ≤ dist F G := by
  induction F, G using dist.induct with
  | case1 => simp [dist]
  | case2 a cs F ih =>
    rw [dist]; have := cost_delete_pos a; omega
  | case3 b ds G ih =>
    rw [dist]; have := cost_insert_pos b; omega
  | case4 a cs F b ds G ih1 ih2 ih3 ih4 =>
    rw [dist]
    have := cost_delete_pos a
    have := cost_insert_pos b
    have := cost_relabel_nonneg a b
    apply le_min_of
    · omega
    · apply le_min_of <;> omega

theorem dist_symm (F G : List LTree) : dist F G = dist G F := by
  induction F, G using dist.induct with
  | case1 => rfl
  | case2 a cs F ih =>
    rw [dist, dist, ih, cost_insert_eq_delete]
  | case3 b ds G ih =>
    rw [dist, dist, ih, cost_insert_eq_delete]
  | case4 a cs F b ds G ih1 ih2 ih3 ih4 =>
    rw [dist, dist.eq_4 b ds G a cs F, ih1, ih2, ih3, ih4, cost_relabel_comm a b,
      cost_insert_eq_delete, cost_insert_eq_delete]
    exact min_comm3 _ _ _

theorem dist_le_delete (a : Char) (cs F G : List LTree) :
    dist (LTree.mk a cs :: F) G ≤ dist (cs.reverse ++ F) G + cost_delete a := by
  cases G with
  | nil => rw [dist]
  | cons w G =>
    cases w with
    | mk b ds => rw [dist]; exact min_le_l _ _

theorem dist_le_insert (b : Char) (ds F G : List LTree) :
    dist F (LTree.mk b ds :: G) ≤ dist F (ds.reverse ++ G) + cost_insert b := by
  cases F with
  | nil => rw [dist]
  | cons v F =>
    cases v with
    | mk a cs =>
      rw [dist]
      exact le_trans (min_le_r _ _) (min_le_l _ _)

theorem dist_le_relabel (a b : Char) (cs ds F G : List LTree) :
    dist (LTree.mk a cs :: F) (LTree.mk b ds :: G) ≤
      dist F G + dist cs.reverse ds.reverse + cost_relabel a b := by
  rw [dist]
  exact le_trans (min_le_r _ _) (min_le_r _ _)

/-- Editing two pairs of forests side by side costs no more than editing them apart. -/
theorem dist_append_le (X Y : List LTree) :
    ∀ F G : List LTree, dist (X ++ F) (Y ++ G) ≤ dist X Y + dist F G := by
  induction X, Y using dist.induct with
  | case1 => intro F G; simp [dist]
  | case2 a cs X ih =>
    intro F G
    have h1 := dist_le_delete a cs (X ++ F) G
    have h2 := ih F G
    rw [dist.eq_2]
    simp only [List.nil_append, List.cons_append, List.append_assoc] at h1 h2 ⊢
    omega
  | case3 b ds Y ih =>
    intro F G
    have h1 := dist_le_insert b ds F (Y ++ G)
    have h2 := ih F G
    rw [dist.eq_3]
    simp only [List.nil_append, List.cons_append, List.append_assoc] at h1 h2 ⊢
    omega
  | case4 a cs X b ds Y ih1 ih2 ih3 ih4 =>
    intro F G
    rw [dist.eq_4]
    have c1 := min_cases (dist (cs.reverse ++ X) (LTree.mk b ds :: Y) + cost_delete a)
      (min (dist (LTree.mk a cs :: X) (ds.reverse ++ Y) + cost_insert b)
        (dist X Y + dist cs.reverse ds.reverse + cost_relabel a b))
    have c2 := min_cases (dist (LTree.mk a cs :: X) (ds.reverse ++ Y) + cost_insert b)
        (dist X Y + dist cs.reverse ds.reverse + cost_relabel a b)
    have h1 := dist_le_delete a cs (X ++ F) (LTree.mk b ds :: Y ++ G)
    have h2 := dist_le_insert b ds (LTree.mk a cs :: X ++ F) (Y ++ G)
    have h3 := dist_le_relabel a b cs ds (X ++ F) (Y ++ G)
    have i1 := ih1 F G
    have i2 := ih2 F G
    have i3 := ih3 F G
    simp only [List.nil_append, List.cons_append, List.append_assoc] at h1 h2 h3 i1 i2 i3 ⊢
    rcases c1 with c1 | c1
    · rw [c1]; omega
    · rw [c1]
      rcases c2 with c2 | c2
      · rw [c2]; omega
      · rw [c2]; omega

theorem dist_le_size (F G : List LTree) : dist F G ≤ 2 * ((lsizes F : Int) + lsizes G) := by
  induction F, G using dist.induct with
  | case1 => simp [dist]
  | case2 a cs F ih =>
    rw [dist]
    have := cost_delete_pos a
    simp only [lsizes, lsize, lsizes_append, lsizes_reverse] at ih ⊢
    push_cast at ih ⊢
    omega
  | case3 b ds G ih =>
    rw [dist]
    have := cost_insert_pos b
    simp only [lsizes, lsize, lsizes_append, lsizes_reverse] at ih ⊢
    push_cast at ih ⊢
    omega
  | case4 a cs F b ds G ih1 ih2 ih3 ih4 =>
    have h := dist_le_delete a cs F (LTree.mk b ds :: G)
    have := cost_delete_pos a
    simp only [lsizes, lsize, lsizes_append, lsizes_reverse] at ih1 ⊢
    push_cast at ih1 ⊢
    omega

end RNAted

namespace RNAted

/-! ## Tables and loops -/

theorem geti_eq_some {α : Type} (a : List α) (k : Int) (v : α) :
    geti a k = some v ↔ 0 ≤ k ∧ a[k.toNat]? = some v := by
  unfold geti
  by_cases h : 0 ≤ k <;> simp [h]

theorem geti_nat {α : Type} (a : List α) (k : Nat) : geti a (k : Int) = a[k]? := by
  simp [geti]

theorem geti_lt {α : Type} (a : List α) (k : Int) (h0 : 0 ≤ k) (h1 : k < a.length) :
    ∃ v, geti a k = some v := by
  unfold geti
  rw [if_pos h0]
  have : k.toNat < a.length := by omega
  exact ⟨a[k.toNat], by simp [this]⟩

theorem for_steps_inv {σ : Type} (Inv : Int → σ → Prop) (hi : Int)
    (body : Int → σ → Option σ) (lo : Int)
    (hstep : ∀ d s, lo ≤ d → d < hi → Inv d s → ∃ s2, body d s = some s2 ∧ Inv (d + 1) s2) :
    ∀ (n : Nat) (d : Int) (s : σ), d + n = hi → lo ≤ d → Inv d s →
      ∃ s2, for_steps n d body s = some s2 ∧ Inv hi s2 := by
  intro n
  induction n with
  | zero =>
    intro d s h1 _ h3
    have : d = hi := by simpa using h1
    subst this
    exact ⟨s, rfl, h3⟩
  | succ n ih =>
    intro d s h1 h2 h3
    obtain ⟨s2, e1, e2⟩ := hstep d s h2 (by push_cast at h1; omega) h3
    obtain ⟨s3, f1, f2⟩ := ih (d + 1) s2 (by push_cast at h1; omega) (by omega) e2
    exact ⟨s3, by simp [for_steps, e1, f1], f2⟩

/-- Invariant rule for `for_loop`. -/
theorem for_loop_inv {σ : Type} (Inv : Int → σ → Prop) (lo hi : Int)
    (body : Int → σ → Option σ) (s0 : σ) (hle : lo ≤ hi) (h0 : Inv lo s0)
    (hstep : ∀ d s, lo ≤ d → d < hi → Inv d s → ∃ s2, body d s = some s2 ∧ Inv (d + 1) s2) :
    ∃ s2, for_loop lo hi body s0 = some s2 ∧ Inv hi s2 := by
  unfold for_loop
  exact for_steps_inv Inv hi body lo hstep (hi - lo).toNat lo s0 (by omega) (le_refl _) h0

theorem for_steps_sim {σ τ : Type} (R : σ → τ → Prop)
    (body1 : Int → σ → Option σ) (body2 : Int → τ → Option τ)
    (hstep : ∀ d s t s2, R s t → body1 d s = some s2 → ∃ t2, body2 d t = some t2 ∧ R s2 t2) :
    ∀ (n : Nat) (d : Int) (s : σ) (t : τ) (s2 : σ), R s t → for_steps n d body1 s = some s2 →
      ∃ t2, for_steps n d body2 t = some t2 ∧ R s2 t2 := by
  intro n
  induction n with
  | zero =>
    intro d s t s2 h1 h2
    simp only [for_steps, Option.some.injEq] at h2
    subst h2
    exact ⟨t, rfl, h1⟩
  | succ n ih =>
    intro d s t s2 h1 h2
    simp only [for_steps] at h2
    cases hb : body1 d s with
    | none => rw [hb] at h2; simp at h2
    | some s1 =>
      rw [hb] at h2
      simp only [Option.some_bind] at h2
      obtain ⟨t1, e1, e2⟩ := hstep d s t s1 h1 hb
      obtain ⟨t2, f1, f2⟩ := ih (d + 1) s1 t1 s2 e2 h2
      exact ⟨t2, by simp [for_steps, e1, f1], f2⟩

/-- Simulation rule for `for_loop`. -/
theorem for_loop_sim {σ τ : Type} (R : σ → τ → Prop) (lo hi : Int)
    (body1 : Int → σ → Option σ) (body2 : Int → τ → Option τ)
    (hstep : ∀ d s t s2, R s t → body1 d s = some s2 → ∃ t2, body2 d t = some t2 ∧ R s2 t2)
    (s : σ) (t : τ) (s2 : σ) (h : R s t) (hr : for_loop lo hi body1 s = some s2) :
    ∃ t2, for_loop lo hi body2 t = some t2 ∧ R s2 t2 :=
  for_steps_sim R body1 body2 hstep _ lo s t s2 h hr

theorem get2_eq_some (t : List (List Int)) (a b : Int) (v : Int) :
    get2 t a b = some v ↔ ∃ row, geti t a = some row ∧ geti row b = some v := by
  unfold get2
  cases geti t a <;> simp

theorem get2_of_dims (t : List (List Int)) (r c : Nat) (hr : t.length = r)
    (hc : ∀ row ∈ t, row.length = c) (a b : Int) (ha : 0 ≤ a) (ha2 : a < r) (hb : 0 ≤ b)
    (hb2 : b < c) : ∃ v, get2 t a b = some v := by
  obtain ⟨row, hrow⟩ := geti_lt t a ha (by omega)
  have hmem : row ∈ t := by
    rw [geti_eq_some] at hrow
    exact List.getElem?_mem hrow.2
  obtain ⟨v, hv⟩ := geti_lt row b hb (by rw [hc row hmem]; omega)
  exact ⟨v, by rw [get2_eq_some]; exact ⟨row, hrow, hv⟩⟩

theorem set2_of_dims (t : List (List Int)) (r c : Nat) (hr : t.length = r)
    (hc : ∀ row ∈ t, row.length = c) (a b : Int) (ha : 0 ≤ a) (ha2 : a < r) (hb : 0 ≤ b)
    (hb2 : b < c) (v : Int) :
    ∃ t2, set2 t a b v = some t2 ∧ t2.length = r ∧ (∀ row ∈ t2, row.length = c) ∧
      get2 t2 a b = some v ∧
      ∀ a2 b2 : Int, (a2 ≠ a ∨ b2 ≠ b) → get2 t2 a2 b2 = get2 t a2 b2 := by
  obtain ⟨row, hrow⟩ := geti_lt t a ha (by omega)
  have hrow2 := (geti_eq_some _ _ _).1 hrow
  have hmem : row ∈ t := List.getElem?_mem hrow2.2
  have hlen := hc row hmem
  have hbn : b.toNat < row.length := by omega
  have han : a.toNat < t.length := by omega
  refine ⟨t.set a.toNat (row.set b.toNat v), ?_, ?_, ?_, ?_, ?_⟩
  · unfold set2
    rw [hrow]
    simp only [Option.some_bind, seti]
    rw [if_pos ⟨hb, hbn⟩]
    simp only [Option.some_bind]
    rw [if_pos ⟨ha, han⟩]
  · simp [hr]
  · intro row2 hrow2
    rcases List.mem_or_eq_of_mem_set hrow2 with h | h
    · exact hc _ h
    · rw [h]; simp [hlen]
  · rw [get2_eq_some]
    refine ⟨row.set b.toNat v, ?_, ?_⟩
    · rw [geti_eq_some]
      exact ⟨ha, by simp [han]⟩
    · rw [geti_eq_some]
      exact ⟨hb, by simp [hbn]⟩
  · intro a2 b2 hne
    unfold get2 geti
    by_cases ha2 : 0 ≤ a2
    · simp only [ha2, if_true]
      by_cases hab : a2 = a
      · subst hab
        have hb2ne : b2 ≠ b := by
          rcases hne with h | h
          · exact absurd rfl h
          · exact h
        simp only [List.getElem?_set_self han, han, Option.some_bind, if_true]
        rw [hrow2.2]
        simp only [Option.some_bind]
        by_cases hb2 : 0 ≤ b2
        · simp only [hb2, if_true]
          rw [List.getElem?_set_ne]
          omega
        · simp [hb2]
      · rw [List.getElem?_set_ne]
        omega
    · simp [ha2]

theorem get2_replicate (r c : Nat) (v : Int) (a b : Int) (ha : 0 ≤ a) (ha2 : a < r)
    (hb : 0 ≤ b) (hb2 : b < c) :
    get2 (List.replicate r (List.replicate c v)) a b = some v := by
  rw [get2_eq_some]
  refine ⟨List.replicate c v, ?_, ?_⟩
  · rw [geti_eq_some]
    refine ⟨ha, ?_⟩
    rw [List.getElem?_replicate]
    simp; omega
  · rw [geti_eq_some]
    refine ⟨hb, ?_⟩
    rw [List.getElem?_replicate]
    simp; omega

theorem dims_replicate (r c : Nat) (v : Int) :
    (List.replicate r (List.replicate c v)).length = r ∧
      ∀ row ∈ List.replicate r (List.replicate c v), row.length = c := by
  refine ⟨by simp, ?_⟩
  intro row hrow
  rw [List.eq_of_mem_replicate hrow]
  simp

end RNAted

namespace RNAted

/-! ## The cells of `forest_dist` -/

theorem shape_eq (u : Node) : shape u = LTree.mk u.label (shapes u.children) := by
  cases u; simp [shape, Node.label, Node.children]

theorem shapes_append (F G : List Node) : shapes (F ++ G) = shapes F ++ shapes G := by
  simp [shapes_eq_map]

theorem lsize_shape_both :
    (∀ v : Node, lsize (shape v) = nsize v) ∧ (∀ F : List Node, lsizes (shapes F) = fsize F) := by
  apply node_ind
  · intro l cs x a b ih
    simp [shape, lsize, nsize, ih]
  · simp [shapes, lsizes, fsize]
  · intro c cs ih1 ih2
    simp [shapes, lsizes, fsize, ih1, ih2]

/-- What `forest_dist` reads about the node at offset `di` of the block of position
`i`, and how the prefix forests of the block are built up at that node. -/
theorem cell_view (r : Node) (i : Nat) (hi : i < nsize r) (di : Int) (h1 : 1 ≤ di)
    (h2 : di < (i : Int) - lmOf (compute_tree_info r).postorder i + 2) :
    ∃ u : Node,
      geti (compute_tree_info r).postorder (lmOf (compute_tree_info r).postorder i + di - 1)
        = some u ∧
      geti (compute_tree_info r).leftmost (lmOf (compute_tree_info r).postorder i + di - 1)
        = some ((lmOf (compute_tree_info r).postorder i : Int) + di - nsize u) ∧
      (1 : Int) ≤ nsize u ∧ (nsize u : Int) ≤ di ∧
      (compute_tree_info r).postorder.getD
        ((lmOf (compute_tree_info r).postorder i : Int) + di - 1).toNat default = u ∧
      takeF di.toNat [(compute_tree_info r).postorder.getD i default] =
        takeF (di - nsize u).toNat [(compute_tree_info r).postorder.getD i default] ++ [u] ∧
      takeF (di - 1).toNat [(compute_tree_info r).postorder.getD i default] =
        takeF (di - nsize u).toNat [(compute_tree_info r).postorder.getD i default]
          ++ u.children := by
  obtain ⟨v, A, B, e1, e2, e3, e4⟩ := cti_block r i hi
  have hv : (compute_tree_info r).postorder.getD i default = v := getD_of_getElem? _ _ _ e1
  have hlm : lmOf (compute_tree_info r).postorder i = i + 1 - nsize v := by
    unfold lmOf; rw [hv]
  rw [hv]
  generalize hl : lmOf (compute_tree_info r).postorder i = l at *
  have hpv := nsize_pos v
  obtain ⟨a, rfl⟩ : ∃ a : Nat, di = ((a + 1 : Nat) : Int) := ⟨(di - 1).toNat, by omega⟩
  have ha : a < nsize v := by push_cast at h2; omega
  have hux : ∃ u, (po v)[a]? = some u := by
    have : a < (po v).length := by rw [length_po]; exact ha
    exact ⟨(po v)[a], by simp [this]⟩
  obtain ⟨u, hu⟩ := hux
  have hstep := takeF_step [v] a u (by simpa [fsize] using ha) (by simpa [poF] using hu)
  obtain ⟨s1, s2, s3⟩ := hstep
  have hpu := nsize_pos u
  have hLx : (compute_tree_info r).postorder[l + a]? = some u := by
    rw [e3, List.append_assoc, List.getElem?_append_right (by omega)]
    rw [List.getElem?_append_left (by rw [length_po]; omega)]
    have : l + a - A.length = a := by omega
    rw [this]; exact hu
  have hx : ((l : Int) + ((a + 1 : Nat) : Int) - 1) = ((l + a : Nat) : Int) := by
    push_cast; omega
  have hlt : l + a < nsize r := by omega
  refine ⟨u, ?_, ?_, by omega, by push_cast; omega, ?_, ?_, ?_⟩
  · rw [hx, geti_nat]; exact hLx
  · rw [hx, geti_nat, cti_leftmost r (l + a) hlt]
    unfold lmOf
    rw [getD_of_getElem? _ _ _ hLx]
    congr 1
    push_cast
    omega
  · rw [hx]
    simp only [Int.toNat_ofNat]
    exact getD_of_getElem? _ _ _ hLx
  · have t1 : ((a + 1 : Nat) : Int).toNat = a + 1 := by simp
    have t2 : (((a + 1 : Nat) : Int) - (nsize u : Int)).toNat = a + 1 - nsize u := by omega
    rw [t1, t2]; exact s2
  · have t1 : (((a + 1 : Nat) : Int) - 1).toNat = a := by omega
    have t2 : (((a + 1 : Nat) : Int) - (nsize u : Int)).toNat = a + 1 - nsize u := by omega
    rw [t1, t2]; exact s3

theorem fd_spec_zero (v w : Node) : fd_spec v w 0 0 = 0 := by
  simp [fd_spec, takeF_zero, shapes, dist]

theorem fd_spec_col (v w u : Node) (a : Int)
    (h1 : takeF a.toNat [v] = takeF (a - nsize u).toNat [v] ++ [u])
    (h2 : takeF (a - 1).toNat [v] = takeF (a - nsize u).toNat [v] ++ u.children) :
    fd_spec v w a 0 = fd_spec v w (a - 1) 0 + cost_delete u.label := by
  unfold fd_spec
  rw [h1, h2]
  simp only [Int.toNat_zero, takeF_zero, shapes, List.reverse_nil, shapes_append,
    List.reverse_append, List.reverse_cons, List.nil_append, List.singleton_append]
  rw [shape_eq u, dist.eq_2]

theorem fd_spec_row (v w u : Node) (b : Int)
    (h1 : takeF b.toNat [w] = takeF (b - nsize u).toNat [w] ++ [u])
    (h2 : takeF (b - 1).toNat [w] = takeF (b - nsize u).toNat [w] ++ u.children) :
    fd_spec v w 0 b = fd_spec v w 0 (b - 1) + cost_insert u.label := by
  unfold fd_spec
  rw [h1, h2]
  simp only [Int.toNat_zero, takeF_zero, shapes, List.reverse_nil, shapes_append,
    List.reverse_append, List.reverse_cons, List.nil_append, List.singleton_append]
  rw [shape_eq u, dist.eq_3]

theorem fd_spec_cell (v w u1 u2 : Node) (a b : Int)
    (h1 : takeF a.toNat [v] = takeF (a - nsize u1).toNat [v] ++ [u1])
    (h2 : takeF (a - 1).toNat [v] = takeF (a - nsize u1).toNat [v] ++ u1.children)
    (h3 : takeF b.toNat [w] = takeF (b - nsize u2).toNat [w] ++ [u2])
    (h4 : takeF (b - 1).toNat [w] = takeF (b - nsize u2).toNat [w] ++ u2.children) :
    fd_spec v w a b =
      min (fd_spec v w (a - 1) b + cost_delete u1.label)
        (min (fd_spec v w a (b - 1) + cost_insert u2.label)
          (fd_spec v w (a - nsize u1) (b - nsize u2)
            + dist (shapes u1.children).reverse (shapes u2.children).reverse
            + cost_relabel u1.label u2.label)) := by
  unfold fd_spec
  rw [h1, h2, h3, h4]
  simp only [shapes, List.reverse_nil, shapes_append,
    List.reverse_append, List.reverse_cons, List.nil_append, List.singleton_append]
  rw [shape_eq u1, shape_eq u2, dist.eq_4]

/-- The cell value computed in the branch of `forest_dist` where both positions are
aligned with the leftmost leaves of the call. -/
theorem fd_spec_aligned (v w u1 u2 : Node) (a b : Int)
    (ha : a = nsize u1) (hb : b = nsize u2)
    (h1 : takeF a.toNat [v] = takeF (a - nsize u1).toNat [v] ++ [u1])
    (h2 : takeF (a - 1).toNat [v] = takeF (a - nsize u1).toNat [v] ++ u1.children)
    (h3 : takeF b.toNat [w] = takeF (b - nsize u2).toNat [w] ++ [u2])
    (h4 : takeF (b - 1).toNat [w] = takeF (b - nsize u2).toNat [w] ++ u2.children) :
    min (fd_spec v w (a - 1) b + cost_delete u1.label)
        (min (fd_spec v w a (b - 1) + cost_insert u2.label)
          (fd_spec v w (a - 1) (b - 1) + cost_relabel u1.label u2.label)) = fd_spec v w a b ∧
    fd_spec v w a b = tree_dist (shape u1) (shape u2) := by
  have e := fd_spec_cell v w u1 u2 a b h1 h2 h3 h4
  have z1 : (a - (nsize u1 : Int)).toNat = 0 := by omega
  have z2 : (b - (nsize u2 : Int)).toNat = 0 := by omega
  have e0 : fd_spec v w (a - nsize u1) (b - nsize u2) = 0 := by
    simp [fd_spec, z1, z2, takeF_zero, shapes, dist]
  have e1 : fd_spec v w (a - 1) (b - 1) =
      dist (shapes u1.children).reverse (shapes u2.children).reverse := by
    unfold fd_spec
    rw [h2, h4, z1, z2, takeF_zero, takeF_zero]
    simp
  refine ⟨?_, ?_⟩
  · rw [e, e0, e1]; simp
  · unfold fd_spec tree_dist
    rw [h1, h3, z1, z2, takeF_zero, takeF_zero]
    simp [shapes]

/-- The cell value computed in the other branch of `forest_dist`, given the distance
between the two subtrees. -/
theorem fd_spec_forest (v w u1 u2 : Node) (a b : Int)
    (h1 : takeF a.toNat [v] = takeF (a - nsize u1).toNat [v] ++ [u1])
    (h2 : takeF (a - 1).toNat [v] = takeF (a - nsize u1).toNat [v] ++ u1.children)
    (h3 : takeF b.toNat [w] = takeF (b - nsize u2).toNat [w] ++ [u2])
    (h4 : takeF (b - 1).toNat [w] = takeF (b - nsize u2).toNat [w] ++ u2.children) :
    min (fd_spec v w (a - 1) b + cost_delete u1.label)
        (min (fd_spec v w a (b - 1) + cost_insert u2.label)
          (fd_spec v w (a - nsize u1) (b - nsize u2) + tree_dist (shape u1) (shape u2)))
      = fd_spec v w a b := by
  have e := fd_spec_cell v w u1 u2 a b h1 h2 h3 h4
  have k1 : tree_dist (shape u1) (shape u2) ≤
      dist (shapes u1.children).reverse (shapes u2.children).reverse
        + cost_relabel u1.label u2.label := by
    unfold tree_dist
    rw [shape_eq u1, shape_eq u2]
    have := dist_le_relabel u1.label u2.label (shapes u1.children) (shapes u2.children) [] []
    simpa [dist] using this
  have k2 : fd_spec v w a b ≤
      fd_spec v w (a - nsize u1) (b - nsize u2) + tree_dist (shape u1) (shape u2) := by
    unfold fd_spec tree_dist
    rw [h1, h3]
    simp only [shapes_append, List.reverse_append, shapes, List.reverse_cons, List.reverse_nil,
      List.nil_append]
    have := dist_append_le [shape u1] [shape u2]
      (shapes (takeF (a - nsize u1).toNat [v])).reverse
      (shapes (takeF (b - nsize u2).toNat [w])).reverse
    omega
  rw [e] at k2 ⊢
  generalize fd_spec v w (a - 1) b + cost_delete u1.label = X at *
  generalize fd_spec v w a (b - 1) + cost_insert u2.label = Y at *
  generalize fd_spec v w (a - nsize u1) (b - nsize u2) = Z at *
  generalize tree_dist (shape u1) (shape u2) = T at *
  generalize dist (shapes u1.children).reverse (shapes u2.children).reverse = D at *
  generalize cost_relabel u1.label u2.label = R at *
  unfold min at *
  split_ifs at * <;> omega

end RNAted

namespace RNAted

/-! ## One call of `forest_dist` -/

theorem keep_after_set (t t2 : List (List Int)) (X Y V : Int) (f : Int → Int → Int)
    (hV : V = f X Y) (hget : get2 t2 X Y = some V)
    (hframe : ∀ a b : Int, (a ≠ X ∨ b ≠ Y) → get2 t2 a b = get2 t a b)
    (x y : Int) (h : get2 t x y = some (f x y)) : get2 t2 x y = some (f x y) := by
  by_cases hx : x = X ∧ y = Y
  · rw [hx.1, hx.2, hget, hV]
  · rw [hframe x y (by by_contra hc; push_neg at hc; exact hx hc)]
    exact h

/-- One iteration of the main double loop of `forest_dist` succeeds and re-establishes
the loop invariant. -/
theorem fd_cell_g_step (t1 t2 : TreeInfo) (v w : Node) (l1 l2 b1 b2 : Int) (m n : Nat)
    (td0 w0 : List (List Int)) (di dj : Int) (tb : GTables)
    (hv1 : RowView t1 v l1 b1) (hv2 : RowView t2 w l2 b2)
    (hl1 : 0 ≤ l1) (hl2 : 0 ≤ l2) (hm : l1 + b1 - 2 < m) (hn : l2 + b2 - 2 < n)
    (hread : ∀ a b : Int, 1 ≤ a → a < b1 → 1 ≤ b → b < b2 →
      ¬ (geti t1.leftmost (l1 + a - 1) = some l1 ∧ geti t2.leftmost (l2 + b - 1) = some l2) →
      get2 w0 (l1 + a - 1) (l2 + b - 1) = some 1 ∧
      get2 td0 (l1 + a - 1) (l2 + b - 1)
        = some (td_spec t1.postorder t2.postorder (l1 + a - 1) (l2 + b - 1)))
    (hdi1 : 1 ≤ di) (hdi2 : di < b1) (hdj1 : 1 ≤ dj) (hdj2 : dj < b2)
    (inv : CellInv t1 t2 v w l1 l2 b1 b2 m n td0 w0 di dj tb) :
    ∃ tb2, fd_cell_g w0 t1 t2 l1 l2 di dj tb = some tb2 ∧
      CellInv t1 t2 v w l1 l2 b1 b2 m n td0 w0 di (dj + 1) tb2 := by
  obtain ⟨u1, p1, q1, n1, n1b, g1, s1, s1b⟩ := hv1 di hdi1 hdi2
  obtain ⟨u2, p2, q2, n2, n2b, g2, s2, s2b⟩ := hv2 dj hdj1 hdj2
  have hts : td_spec t1.postorder t2.postorder (l1 + di - 1) (l2 + dj - 1)
      = tree_dist (shape u1) (shape u2) := by
    unfold td_spec; rw [g1, g2]
  obtain ⟨A, hA⟩ : ∃ A, get2 tb.fd (di - 1) dj = some A ∧ A = fd_spec v w (di - 1) dj :=
    ⟨_, inv.fd_ok (di - 1) dj (by omega) (by omega) (by omega) hdj2 (by omega), rfl⟩
  obtain ⟨B, hB⟩ : ∃ B, get2 tb.fd di (dj - 1) = some B ∧ B = fd_spec v w di (dj - 1) :=
    ⟨_, inv.fd_ok di (dj - 1) (by omega) hdi2 (by omega) (by omega) (by omega), rfl⟩
  obtain ⟨fd2, hset, hlen2, hrow2, hget2, hframe2⟩ :=
    set2_of_dims tb.fd b1.toNat b2.toNat inv.fd_len inv.fd_row di dj (by omega) (by omega)
      (by omega) (by omega) (fd_spec v w di dj)
  have fd_ok2 : ∀ a b : Int, 0 ≤ a → a < b1 → 0 ≤ b → b < b2 →
      (a = 0 ∨ b = 0 ∨ a < di ∨ (a = di ∧ b < dj + 1)) →
      get2 fd2 a b = some (fd_spec v w a b) := by
    intro a b ha1 ha2 hb1 hb2 hc
    by_cases hab : a = di ∧ b = dj
    · rw [hab.1, hab.2]; exact hget2
    · rw [hframe2 a b (by by_contra hc2; push_neg at hc2; exact hab hc2)]
      apply inv.fd_ok a b ha1 ha2 hb1 hb2
      rcases hc with h | h | h | h
      · exact Or.inl h
      · exact Or.inr (Or.inl h)
      · exact Or.inr (Or.inr (Or.inl h))
      · refine Or.inr (Or.inr (Or.inr ⟨h.1, ?_⟩))
        by_contra hc3
        exact hab ⟨h.1, by omega⟩
  unfold fd_cell_g
  simp only [p1, p2, q1, q2, Option.some_bind]
  by_cases hal : l1 + di - (nsize u1 : Int) = l1 ∧ l2 + dj - (nsize u2 : Int) = l2
  · rw [if_pos hal]
    obtain ⟨C, hC⟩ : ∃ C, get2 tb.fd (di - 1) (dj - 1) = some C ∧
        C = fd_spec v w (di - 1) (dj - 1) :=
      ⟨_, inv.fd_ok (di - 1) (dj - 1) (by omega) (by omega) (by omega) (by omega) (by omega), rfl⟩
    have hcost := fd_spec_aligned v w u1 u2 di dj (by omega) (by omega) s1 s1b s2 s2b
    rw [hA.1, hB.1, hC.1]
    simp only [Option.some_bind]
    rw [hA.2, hB.2, hC.2, hcost.1]
    obtain ⟨td2, htset, htlen, htrow, htget, htframe⟩ :=
      set2_of_dims tb.treedist m n inv.td_len inv.td_row (l1 + di - 1) (l2 + dj - 1)
        (by omega) (by omega) (by omega) (by omega) (fd_spec v w di dj)
    obtain ⟨wr2, hwset, hwlen, hwrow, hwget, hwframe⟩ :=
      set2_of_dims tb.written m n inv.w_len inv.w_row (l1 + di - 1) (l2 + dj - 1)
        (by omega) (by omega) (by omega) (by omega) 1
    rw [htset, hwset, hset]
    simp only [Option.some_bind]
    have hval : fd_spec v w di dj
        = td_spec t1.postorder t2.postorder (l1 + di - 1) (l2 + dj - 1) := by
      rw [hts, hcost.2]
    refine ⟨_, rfl, ?_⟩
    refine ⟨hlen2, hrow2, htlen, htrow, hwlen, hwrow, fd_ok2, ?_, ?_, ?_⟩
    · intro x y h
      exact keep_after_set tb.treedist td2 _ _ _ (td_spec t1.postorder t2.postorder) hval
        htget htframe x y (inv.td_keep x y h)
    · intro x y h
      exact keep_after_set tb.written wr2 _ _ 1 (fun _ _ => 1) rfl hwget hwframe x y
        (inv.w_keep x y h)
    · intro a b ha1 ha2 hb1 hb2 hc e1 e2
      by_cases hab : a = di ∧ b = dj
      · rw [hab.1, hab.2]
        exact ⟨by rw [htget, hval], hwget⟩
      · have hc2 : a < di ∨ (a = di ∧ b < dj) := by
          rcases hc with h | h
          · exact Or.inl h
          · refine Or.inr ⟨h.1, ?_⟩
            by_contra hc3
            exact hab ⟨h.1, by omega⟩
        obtain ⟨k1, k2⟩ := inv.td_new a b ha1 ha2 hb1 hb2 hc2 e1 e2
        exact ⟨keep_after_set tb.treedist td2 _ _ _ (td_spec t1.postorder t2.postorder) hval
            htget htframe _ _ k1,
          keep_after_set tb.written wr2 _ _ 1 (fun _ _ => 1) rfl hwget hwframe _ _ k2⟩
  · rw [if_neg hal]
    have hna : ¬ (geti t1.leftmost (l1 + di - 1) = some l1 ∧
        geti t2.leftmost (l2 + dj - 1) = some l2) := by
      rw [q1, q2]
      intro h
      apply hal
      constructor
      · have := h.1; simpa using this
      · have := h.2; simpa using this
    obtain ⟨r1, r2⟩ := hread di dj hdi1 hdi2 hdj1 hdj2 hna
    have r3 := inv.td_keep _ _ r2
    obtain ⟨C, hC⟩ : ∃ C, get2 tb.fd (l1 + di - nsize u1 - l1) (l2 + dj - nsize u2 - l2) = some C ∧
        C = fd_spec v w (di - nsize u1) (dj - nsize u2) := by
      have e1 : l1 + di - (nsize u1 : Int) - l1 = di - nsize u1 := by omega
      have e2 : l2 + dj - (nsize u2 : Int) - l2 = dj - nsize u2 := by omega
      rw [e1, e2]
      exact ⟨_, inv.fd_ok _ _ (by omega) (by omega) (by omega) (by omega)
        (Or.inr (Or.inr (Or.inl (by omega)))), rfl⟩
    have hcost := fd_spec_forest v w u1 u2 di dj s1 s1b s2 s2b
    rw [hA.1, hB.1, hC.1, r1]
    simp only [Option.some_bind, if_true]
    rw [r3]
    simp only [Option.some_bind]
    rw [hA.2, hB.2, hC.2, hts, hcost, hset]
    simp only [Option.some_bind]
    refine ⟨_, rfl, ?_⟩
    refine ⟨hlen2, hrow2, inv.td_len, inv.td_row, inv.w_len, inv.w_row, fd_ok2, inv.td_keep,
      inv.w_keep, ?_⟩
    intro a b ha1 ha2 hb1 hb2 hc e1 e2
    by_cases hab : a = di ∧ b = dj
    · exfalso
      apply hna
      rw [← hab.1, ← hab.2]
      exact ⟨e1, e2⟩
    · have hc2 : a < di ∨ (a = di ∧ b < dj) := by
        rcases hc with h | h
        · exact Or.inl h
        · refine Or.inr ⟨h.1, ?_⟩
          by_contra hc3
          exact hab ⟨h.1, by omega⟩
      exact inv.td_new a b ha1 ha2 hb1 hb2 hc2 e1 e2

end RNAted

namespace RNAted

theorem fd_init_col_loop (t1 : TreeInfo) (v w : Node) (l1 b1 b2 : Int)
    (hv1 : RowView t1 v l1 b1) (hb1 : 1 ≤ b1) (hb2 : 1 ≤ b2) (fd1 : List (List Int))
    (hlen : fd1.length = b1.toNat) (hrow : ∀ row ∈ fd1, row.length = b2.toNat)
    (h00 : get2 fd1 0 0 = some 0) :
    ∃ fd2, for_loop 1 b1 (fd_init_col t1 l1) fd1 = some fd2 ∧ fd2.length = b1.toNat ∧
      (∀ row ∈ fd2, row.length = b2.toNat) ∧
      ∀ a : Int, 0 ≤ a → a < b1 → get2 fd2 a 0 = some (fd_spec v w a 0) := by
  have := for_loop_inv
    (fun d fd => fd.length = b1.toNat ∧ (∀ row ∈ fd, row.length = b2.toNat) ∧
      ∀ a : Int, 0 ≤ a → a < d → get2 fd a 0 = some (fd_spec v w a 0))
    1 b1 (fd_init_col t1 l1) fd1 hb1
    ⟨hlen, hrow, by
      intro a ha1 ha2
      have : a = 0 := by omega
      rw [this, h00, fd_spec_zero]⟩
    (by
      intro d fd hd1 hd2 ⟨i1, i2, i3⟩
      obtain ⟨u, p, _, _, _, _, s1, s2⟩ := hv1 d hd1 hd2
      obtain ⟨fd2, hset, hlen2, hrow2, hget2, hframe2⟩ :=
        set2_of_dims fd b1.toNat b2.toNat i1 i2 d 0 (by omega) (by omega)
          (by omega) (by omega) (fd_spec v w (d - 1) 0 + cost_delete u.label)
      refine ⟨fd2, ?_, hlen2, hrow2, ?_⟩
      · unfold fd_init_col
        rw [p, i3 (d - 1) (by omega) (by omega)]
        simpa using hset
      · intro a ha1 ha2
        by_cases had : a = d
        · rw [had, hget2, fd_spec_col v w u d s1 s2]
        · rw [hframe2 a 0 (Or.inl had)]
          exact i3 a ha1 (by omega))
  obtain ⟨fd2, e1, e2, e3, e4⟩ := this
  exact ⟨fd2, e1, e2, e3, e4⟩

theorem fd_init_row_loop (t2 : TreeInfo) (v w : Node) (l2 b1 b2 : Int)
    (hv2 : RowView t2 w l2 b2) (hb1 : 1 ≤ b1) (hb2 : 1 ≤ b2) (fd2 : List (List Int))
    (hlen : fd2.length = b1.toNat) (hrow : ∀ row ∈ fd2, row.length = b2.toNat)
    (hcol : ∀ a : Int, 0 ≤ a → a < b1 → get2 fd2 a 0 = some (fd_spec v w a 0)) :
    ∃ fd3, for_loop 1 b2 (fd_init_row t2 l2) fd2 = some fd3 ∧ fd3.length = b1.toNat ∧
      (∀ row ∈ fd3, row.length = b2.toNat) ∧
      (∀ a : Int, 0 ≤ a → a < b1 → get2 fd3 a 0 = some (fd_spec v w a 0)) ∧
      ∀ b : Int, 0 ≤ b → b < b2 → get2 fd3 0 b = some (fd_spec v w 0 b) := by
  have := for_loop_inv
    (fun d fd => fd.length = b1.toNat ∧ (∀ row ∈ fd, row.length = b2.toNat) ∧
      (∀ a : Int, 0 ≤ a → a < b1 → get2 fd a 0 = some (fd_spec v w a 0)) ∧
      ∀ b : Int, 0 ≤ b → b < d → get2 fd 0 b = some (fd_spec v w 0 b))
    1 b2 (fd_init_row t2 l2) fd2 hb2
    ⟨hlen, hrow, hcol, by
      intro b hb1 hb2
      have : b = 0 := by omega
      rw [this]
      exact hcol 0 (le_refl _) (by omega)⟩
    (by
      intro d fd hd1 hd2 ⟨i1, i2, i3, i4⟩
      obtain ⟨u, p, _, _, _, _, s1, s2⟩ := hv2 d hd1 hd2
      obtain ⟨fd3, hset, hlen2, hrow2, hget2, hframe2⟩ :=
        set2_of_dims fd b1.toNat b2.toNat i1 i2 0 d (by omega) (by omega)
          (by omega) (by omega) (fd_spec v w 0 (d - 1) + cost_insert u.label)
      refine ⟨fd3, ?_, hlen2, hrow2, ?_, ?_⟩
      · unfold fd_init_row
        rw [p, i4 (d - 1) (by omega) (by omega)]
        simpa using hset
      · intro a ha1 ha2
        rw [hframe2 a 0 (Or.inr (by omega))]
        exact i3 a ha1 ha2
      · intro b hb1 hb2
        by_cases hbd : b = d
        · rw [hbd, hget2, fd_spec_row v w u d s1 s2]
        · rw [hframe2 0 b (Or.inr hbd)]
          exact i4 b hb1 (by omega))
  obtain ⟨fd3, e1, e2, e3, e4, e5⟩ := this
  exact ⟨fd3, e1, e2, e3, e4, e5⟩

theorem cellinv_next_row (t1 t2 : TreeInfo) (v w : Node) (l1 l2 b1 b2 : Int) (m n : Nat)
    (td0 w0 : List (List Int)) (di : Int) (tb : GTables)
    (inv : CellInv t1 t2 v w l1 l2 b1 b2 m n td0 w0 di b2 tb) :
    CellInv t1 t2 v w l1 l2 b1 b2 m n td0 w0 (di + 1) 1 tb := by
  refine ⟨inv.fd_len, inv.fd_row, inv.td_len, inv.td_row, inv.w_len, inv.w_row, ?_,
    inv.td_keep, inv.w_keep, ?_⟩
  · intro a b ha1 ha2 hb1 hb2 hc
    apply inv.fd_ok a b ha1 ha2 hb1 hb2
    rcases hc with h | h | h | h
    · exact Or.inl h
    · exact Or.inr (Or.inl h)
    · by_cases had : a = di
      · exact Or.inr (Or.inr (Or.inr ⟨had, hb2⟩))
      · exact Or.inr (Or.inr (Or.inl (by omega)))
    · exact Or.inr (Or.inl (by omega))
  · intro a b ha1 ha2 hb1 hb2 hc e1 e2
    apply inv.td_new a b ha1 ha2 hb1 hb2 ?_ e1 e2
    by_cases had : a = di
    · exact Or.inr ⟨had, hb2⟩
    · exact Or.inl (by omega)

/-- A call of `forest_dist` succeeds when the cells of `treedist` it reads hold the
subtree distances and are recorded as assigned; it keeps such cells and assigns the
subtree distance to every cell aligned with the leftmost leaves of the call. -/
theorem forest_dist_g_spec (t1 t2 : TreeInfo) (v w : Node) (i j l1 l2 : Int) (m n : Nat)
    (td0 w0 : List (List Int))
    (hgl1 : geti t1.leftmost i = some l1) (hgl2 : geti t2.leftmost j = some l2)
    (hv1 : RowView t1 v l1 (i - l1 + 2)) (hv2 : RowView t2 w l2 (j - l2 + 2))
    (hl1 : 0 ≤ l1) (hli : l1 ≤ i) (him : i < m) (hl2 : 0 ≤ l2) (hlj : l2 ≤ j) (hjn : j < n)
    (htl : td0.length = m) (htr : ∀ row ∈ td0, row.length = n)
    (hwl : w0.length = m) (hwr : ∀ row ∈ w0, row.length = n)
    (hread : ∀ a b : Int, 1 ≤ a → a < i - l1 + 2 → 1 ≤ b → b < j - l2 + 2 →
      ¬ (geti t1.leftmost (l1 + a - 1) = some l1 ∧ geti t2.leftmost (l2 + b - 1) = some l2) →
      get2 w0 (l1 + a - 1) (l2 + b - 1) = some 1 ∧
      get2 td0 (l1 + a - 1) (l2 + b - 1)
        = some (td_spec t1.postorder t2.postorder (l1 + a - 1) (l2 + b - 1))) :
    ∃ td wr, forest_dist_g i j t1 t2 (td0, w0) = some (td, wr) ∧
      td.length = m ∧ (∀ row ∈ td, row.length = n) ∧
      wr.length = m ∧ (∀ row ∈ wr, row.length = n) ∧
      (∀ x y : Int, get2 td0 x y = some (td_spec t1.postorder t2.postorder x y) →
        get2 td x y = some (td_spec t1.postorder t2.postorder x y)) ∧
      (∀ x y : Int, get2 w0 x y = some 1 → get2 wr x y = some 1) ∧
      (∀ a b : Int, 1 ≤ a → a < i - l1 + 2 → 1 ≤ b → b < j - l2 + 2 →
        geti t1.leftmost (l1 + a - 1) = some l1 → geti t2.leftmost (l2 + b - 1) = some l2 →
        get2 td (l1 + a - 1) (l2 + b - 1)
          = some (td_spec t1.postorder t2.postorder (l1 + a - 1) (l2 + b - 1)) ∧
        get2 wr (l1 + a - 1) (l2 + b - 1) = some 1) ∧
      get2 td i j = some (fd_spec v w (i - l1 + 1) (j - l2 + 1)) := by
  obtain ⟨hd0l, hd0r⟩ := dims_replicate (i - l1 + 2).toNat (j - l2 + 2).toNat
    (i - l1 + 2 + (j - l2 + 2))
  obtain ⟨fd1, hset1, hlen1, hrow1, hget1, _⟩ :=
    set2_of_dims _ (i - l1 + 2).toNat (j - l2 + 2).toNat hd0l hd0r 0 0 (le_refl _) (by omega)
      (le_refl _) (by omega) 0
  obtain ⟨fd2, hloop2, hlen2, hrow2, hcol2⟩ :=
    fd_init_col_loop t1 v w l1 (i - l1 + 2) (j - l2 + 2) hv1 (by omega) (by omega) fd1
      hlen1 hrow1 hget1
  obtain ⟨fd3, hloop3, hlen3, hrow3, hcol3, hrw3⟩ :=
    fd_init_row_loop t2 v w l2 (i - l1 + 2) (j - l2 + 2) hv2 (by omega) (by omega) fd2
      hlen2 hrow2 hcol2
  have hmain := for_loop_inv
    (fun di tb => CellInv t1 t2 v w l1 l2 (i - l1 + 2) (j - l2 + 2) m n td0 w0 di 1 tb)
    1 (i - l1 + 2)
    (fun di tb => for_loop 1 (j - l2 + 2)
      (fun dj tb2 => fd_cell_g w0 t1 t2 l1 l2 di dj tb2) tb)
    { fd := fd3, treedist := td0, written := w0 } (by omega)
    ⟨hlen3, hrow3, htl, htr, hwl, hwr, by
        intro a b ha1 ha2 hb1 hb2 hc
        have : a = 0 ∨ b = 0 := by omega
        rcases this with h | h
        · rw [h]; exact hrw3 b hb1 hb2
        · rw [h]; exact hcol3 a ha1 ha2,
      fun _ _ h => h, fun _ _ h => h, by
        intro a b ha1 _ hb1 _ hc
        omega⟩
    (by
      intro di tb hdi1 hdi2 inv
      have hinner := for_loop_inv
        (fun dj tb2 => CellInv t1 t2 v w l1 l2 (i - l1 + 2) (j - l2 + 2) m n td0 w0 di dj tb2)
        1 (j - l2 + 2) (fun dj tb2 => fd_cell_g w0 t1 t2 l1 l2 di dj tb2) tb (by omega) inv
        (by
          intro dj tb2 hdj1 hdj2 inv2
          exact fd_cell_g_step t1 t2 v w l1 l2 (i - l1 + 2) (j - l2 + 2) m n td0 w0 di dj tb2
            hv1 hv2 hl1 hl2 (by omega) (by omega) hread hdi1 hdi2 hdj1 hdj2 inv2)
      obtain ⟨tb3, e1, e2⟩ := hinner
      exact ⟨tb3, e1, cellinv_next_row _ _ _ _ _ _ _ _ _ _ _ _ _ _ e2⟩)
  obtain ⟨tb, hrun, inv⟩ := hmain
  refine ⟨tb.treedist, tb.written, ?_, inv.td_len, inv.td_row, inv.w_len, inv.w_row,
    inv.td_keep, inv.w_keep, ?_, ?_⟩
  · unfold forest_dist_g
    rw [hgl1, hgl2]
    simp only [Option.some_bind]
    rw [if_neg (by omega), hset1]
    simp only [Option.some_bind]
    rw [hloop2]
    simp only [Option.some_bind]
    rw [hloop3]
    simp only [Option.some_bind]
    rw [hrun]
    simp
  · intro a b ha1 ha2 hb1 hb2 e1 e2
    exact inv.td_new a b ha1 ha2 hb1 hb2 (Or.inl ha2) e1 e2
  · have e1 : geti t1.leftmost (l1 + (i - l1 + 1) - 1) = some l1 := by
      have : l1 + (i - l1 + 1) - 1 = i := by omega
      rw [this]; exact hgl1
    have e2 : geti t2.leftmost (l2 + (j - l2 + 1) - 1) = some l2 := by
      have : l2 + (j - l2 + 1) - 1 = j := by omega
      rw [this]; exact hgl2
    obtain ⟨u1, _, q1, _, _, g1, s1, s1b⟩ := hv1 (i - l1 + 1) (by omega) (by omega)
    obtain ⟨u2, _, q2, _, _, g2, s2, s2b⟩ := hv2 (j - l2 + 1) (by omega) (by omega)
    rw [q1] at e1
    rw [q2] at e2
    have a1 : (i - l1 + 1) = (nsize u1 : Int) := by
      have := Option.some.inj e1; omega
    have a2 : (j - l2 + 1) = (nsize u2 : Int) := by
      have := Option.some.inj e2; omega
    have hc := fd_spec_aligned v w u1 u2 (i - l1 + 1) (j - l2 + 1) a1 a2 s1 s1b s2 s2b
    have hn := (inv.td_new (i - l1 + 1) (j - l2 + 1) (by omega) (by omega) (by omega)
      (by omega) (Or.inl (by omega)) (by rw [q1, ← a1]; congr 1; omega)
      (by rw [q2, ← a2]; congr 1; omega)).1
    have x1 : l1 + (i - l1 + 1) - 1 = i := by omega
    have x2 : l2 + (j - l2 + 1) - 1 = j := by omega
    rw [x1, x2] at hn
    rw [x1] at g1
    rw [x2] at g2
    rw [hn, hc.2]
    unfold td_spec
    rw [g1, g2]

end RNAted

namespace RNAted

/-! ## The loop over keyroot pairs -/

theorem rowview_cti (r : Node) (i : Nat) (hi : i < nsize r) :
    RowView (compute_tree_info r) ((compute_tree_info r).postorder.getD i default)
      (lmOf (compute_tree_info r).postorder i)
      ((i : Int) - lmOf (compute_tree_info r).postorder i + 2) :=
  fun a h1 h2 => cell_view r i hi a h1 h2

theorem geti_leftmost (r : Node) (x : Nat) (hx : x < nsize r) :
    geti (compute_tree_info r).leftmost (x : Int)
      = some ((lmOf (compute_tree_info r).postorder x : Nat) : Int) := by
  rw [geti_nat]; exact cti_leftmost r x hx

/-- The call of `forest_dist` for a keyroot pair `(i, j)`, in terms of positions. -/
theorem forest_dist_g_keyroots (r1 r2 : Node) (i j : Nat) (hi : i < nsize r1)
    (hj : j < nsize r2)
    (hki : ∀ x, x < nsize r1 → lmOf (compute_tree_info r1).postorder x =
      lmOf (compute_tree_info r1).postorder i → x ≤ i)
    (hkj : ∀ y, y < nsize r2 → lmOf (compute_tree_info r2).postorder y =
      lmOf (compute_tree_info r2).postorder j → y ≤ j)
    (td0 w0 : List (List Int))
    (htl : td0.length = nsize r1) (htr : ∀ row ∈ td0, row.length = nsize r2)
    (hwl : w0.length = nsize r1) (hwr : ∀ row ∈ w0, row.length = nsize r2)
    (hold : ∀ x y : Nat, lmOf (compute_tree_info r1).postorder i ≤ x → x ≤ i →
      lmOf (compute_tree_info r2).postorder j ≤ y → y ≤ j →
      (lmOf (compute_tree_info r1).postorder x ≠ lmOf (compute_tree_info r1).postorder i ∨
       lmOf (compute_tree_info r2).postorder y ≠ lmOf (compute_tree_info r2).postorder j) →
      get2 w0 x y = some 1 ∧
      get2 td0 x y = some (td_spec (compute_tree_info r1).postorder
        (compute_tree_info r2).postorder x y)) :
    ∃ td wr, forest_dist_g i j (compute_tree_info r1) (compute_tree_info r2) (td0, w0)
        = some (td, wr) ∧
      td.length = nsize r1 ∧ (∀ row ∈ td, row.length = nsize r2) ∧
      wr.length = nsize r1 ∧ (∀ row ∈ wr, row.length = nsize r2) ∧
      (∀ x y : Int, get2 td0 x y = some (td_spec (compute_tree_info r1).postorder
          (compute_tree_info r2).postorder x y) →
        get2 td x y = some (td_spec (compute_tree_info r1).postorder
          (compute_tree_info r2).postorder x y)) ∧
      (∀ x y : Int, get2 w0 x y = some 1 → get2 wr x y = some 1) ∧
      (∀ x y : Nat, x < nsize r1 → y < nsize r2 →
        lmOf (compute_tree_info r1).postorder x = lmOf (compute_tree_info r1).postorder i →
        lmOf (compute_tree_info r2).postorder y = lmOf (compute_tree_info r2).postorder j →
        get2 td x y = some (td_spec (compute_tree_info r1).postorder
          (compute_tree_info r2).postorder x y) ∧ get2 wr x y = some 1) := by
  have hli := lmOf_le (compute_tree_info r1).postorder i
  have hlj := lmOf_le (compute_tree_info r2).postorder j
  have H := forest_dist_g_spec (compute_tree_info r1) (compute_tree_info r2)
    ((compute_tree_info r1).postorder.getD i default)
    ((compute_tree_info r2).postorder.getD j default) i j
    (lmOf (compute_tree_info r1).postorder i) (lmOf (compute_tree_info r2).postorder j)
    (nsize r1) (nsize r2) td0 w0 (geti_leftmost r1 i hi) (geti_leftmost r2 j hj)
    (rowview_cti r1 i hi) (rowview_cti r2 j hj) (by omega) (by omega) (by omega) (by omega)
    (by omega) (by omega) htl htr hwl hwr
    (by
      intro a b ha1 ha2 hb1 hb2 hna
      obtain ⟨x, hx⟩ : ∃ x : Nat, (lmOf (compute_tree_info r1).postorder i : Int) + a - 1 = x :=
        ⟨((lmOf (compute_tree_info r1).postorder i : Int) + a - 1).toNat, by omega⟩
      obtain ⟨y, hy⟩ : ∃ y : Nat, (lmOf (compute_tree_info r2).postorder j : Int) + b - 1 = y :=
        ⟨((lmOf (compute_tree_info r2).postorder j : Int) + b - 1).toNat, by omega⟩
      rw [hx, hy] at hna ⊢
      rw [geti_leftmost r1 x (by omega), geti_leftmost r2 y (by omega)] at hna
      apply hold x y (by omega) (by omega) (by omega) (by omega)
      by_contra hc
      push_neg at hc
      apply hna
      rw [hc.1, hc.2]
      exact ⟨rfl, rfl⟩)
  obtain ⟨td, wr, e1, e2, e3, e4, e5, e6, e7, e8, _⟩ := H
  refine ⟨td, wr, e1, e2, e3, e4, e5, e6, e7, ?_⟩
  intro x y hx hy hlx hly
  have hx2 := hki x hx hlx
  have hy2 := hkj y hy hly
  have hx3 := lmOf_le (compute_tree_info r1).postorder x
  have hy3 := lmOf_le (compute_tree_info r2).postorder y
  have := e8 ((x : Int) - lmOf (compute_tree_info r1).postorder i + 1)
    ((y : Int) - lmOf (compute_tree_info r2).postorder j + 1) (by omega) (by omega) (by omega)
    (by omega)
    (by
      have : (lmOf (compute_tree_info r1).postorder i : Int)
          + ((x : Int) - lmOf (compute_tree_info r1).postorder i + 1) - 1 = x := by omega
      rw [this, geti_leftmost r1 x hx, hlx])
    (by
      have : (lmOf (compute_tree_info r2).postorder j : Int)
          + ((y : Int) - lmOf (compute_tree_info r2).postorder j + 1) - 1 = y := by omega
      rw [this, geti_leftmost r2 y hy, hly])
  have c1 : (lmOf (compute_tree_info r1).postorder i : Int)
      + ((x : Int) - lmOf (compute_tree_info r1).postorder i + 1) - 1 = x := by omega
  have c2 : (lmOf (compute_tree_info r2).postorder j : Int)
      + ((y : Int) - lmOf (compute_tree_info r2).postorder j + 1) - 1 = y := by omega
  rw [c1, c2] at this
  exact this

/-- In a strictly ascending list, a smaller entry stands at a smaller position. -/
theorem sorted_index_lt (K : List Int) (hs : K.Sorted (· < ·)) (a b : Nat) (p q : Int)
    (ha : K[a]? = some p) (hb : K[b]? = some q) (hpq : p < q) : a < b := by
  by_contra hc
  have hba : b ≤ a := by omega
  obtain ⟨ha1, ha2⟩ := List.getElem?_eq_some_iff.1 ha
  obtain ⟨hb1, hb2⟩ := List.getElem?_eq_some_iff.1 hb
  rcases Nat.lt_or_eq_of_le hba with h | h
  · have := List.pairwise_iff_getElem.1 hs b a hb1 ha1 h
    rw [ha2, hb2] at this
    omega
  · subst h
    rw [ha2] at hb2
    omega

/-- The keyroot of a position inside the block of a keyroot `i`, but with another
leftmost leaf, is smaller than `i`. -/
theorem keyroot_lt (r : Node) (i x p : Nat) (hi : i < nsize r) (hp : p < nsize r)
    (h1 : lmOf (compute_tree_info r).postorder i ≤ x) (h2 : x ≤ i)
    (hne : lmOf (compute_tree_info r).postorder x ≠ lmOf (compute_tree_info r).postorder i)
    (hpx : lmOf (compute_tree_info r).postorder p = lmOf (compute_tree_info r).postorder x) :
    p < i := by
  by_contra hc
  have hip : i ≤ p := by omega
  have hlx := cti_laminar r i x hi h1 h2
  have hxx := lmOf_le (compute_tree_info r).postorder x
  have := cti_laminar r p i hp (by omega) hip
  omega

end RNAted

namespace RNAted

theorem keyroot_entry (r : Node) (ki : Int) (h0 : 0 ≤ ki)
    (h1 : ki < (compute_tree_info r).num_keyroots) :
    ∃ i : Nat, geti (compute_tree_info r).keyroots ki = some (i : Int) ∧
      (compute_tree_info r).keyroots[ki.toNat]? = some (i : Int) ∧ i < nsize r ∧
      ∀ x, x < nsize r → lmOf (compute_tree_info r).postorder x =
        lmOf (compute_tree_info r).postorder i → x ≤ i := by
  obtain ⟨_, _, _, _, _, _, _, hnum⟩ := cti_postorder r
  rw [hnum] at h1
  obtain ⟨k, hk⟩ := geti_lt (compute_tree_info r).keyroots ki h0 h1
  have hk2 := (geti_eq_some _ _ _).1 hk
  obtain ⟨p, e1, e2, e3⟩ := (cti_keyroots r).1 k (List.getElem?_mem hk2.2)
  subst e1
  exact ⟨p, hk, hk2.2, e2, e3⟩

theorem keyroot_of (r : Node) (x : Nat) (hx : x < nsize r) :
    ∃ (a p : Nat), (compute_tree_info r).keyroots[a]? = some (p : Int) ∧
      (a : Int) < (compute_tree_info r).num_keyroots ∧ p < nsize r ∧
      lmOf (compute_tree_info r).postorder p = lmOf (compute_tree_info r).postorder x ∧
      x ≤ p := by
  obtain ⟨_, _, _, _, _, _, _, hnum⟩ := cti_postorder r
  obtain ⟨p, e1, e2, e3⟩ := (cti_keyroots r).2.1 x hx
  obtain ⟨q, f1, f2, _⟩ := (cti_keyroots r).1 p e1
  have hpq : p = q := by omega
  obtain ⟨a, ha⟩ := List.getElem?_of_mem e1
  have halen : a < (compute_tree_info r).keyroots.length := by
    by_contra hc
    rw [List.getElem?_eq_none (by omega)] at ha
    cases ha
  exact ⟨a, p, ha, by rw [hnum]; omega, by omega, e2, e3⟩

/-- The inner loop of `fill_tree_edit_matrix` for the keyroot `i` of the first tree. -/
theorem fill_inner (r1 r2 : Node) (ki : Int) (i : Nat) (hi : i < nsize r1)
    (hki0 : 0 ≤ ki)
    (hkey : (compute_tree_info r1).keyroots[ki.toNat]? = some (i : Int))
    (hki : ∀ x, x < nsize r1 → lmOf (compute_tree_info r1).postorder x =
      lmOf (compute_tree_info r1).postorder i → x ≤ i)
    (st : List (List Int) × List (List Int)) (hd : TablesDims r1 r2 st)
    (hinv : ∀ x y : Nat, x < nsize r1 → y < nsize r2 → KeyrootBefore r1 ki x →
      CellOk r1 r2 st x y) :
    ∃ st2, for_loop 0 (compute_tree_info r2).num_keyroots
        (fun kj st2 =>
          (geti (compute_tree_info r2).keyroots kj).bind fun j =>
          forest_dist_g i j (compute_tree_info r1) (compute_tree_info r2) st2) st = some st2 ∧
      TablesDims r1 r2 st2 ∧
      ∀ x y : Nat, x < nsize r1 → y < nsize r2 → KeyrootBefore r1 (ki + 1) x →
        CellOk r1 r2 st2 x y := by
  have hnum0 : (0 : Int) ≤ (compute_tree_info r2).num_keyroots := by
    obtain ⟨_, _, _, _, _, _, _, hnum⟩ := cti_postorder r2
    rw [hnum]; omega
  have H := for_loop_inv
    (fun kj st2 => TablesDims r1 r2 st2 ∧
      ∀ x y : Nat, x < nsize r1 → y < nsize r2 →
        (KeyrootBefore r1 ki x ∨
          (lmOf (compute_tree_info r1).postorder x = lmOf (compute_tree_info r1).postorder i ∧
            KeyrootBefore r2 kj y)) → CellOk r1 r2 st2 x y)
    0 (compute_tree_info r2).num_keyroots
    (fun kj st2 =>
      (geti (compute_tree_info r2).keyroots kj).bind fun j =>
      forest_dist_g i j (compute_tree_info r1) (compute_tree_info r2) st2) st hnum0
    ⟨hd, by
      intro x y hx hy hc
      rcases hc with h | ⟨_, a, p, h, _⟩
      · exact hinv x y hx hy h
      · omega⟩
    (by
      intro kj st2 hkj0 hkj1 ⟨hd2, hinv2⟩
      obtain ⟨j, gj, ej, hj, hkj⟩ := keyroot_entry r2 kj hkj0 hkj1
      obtain ⟨d1, d2, d3, d4⟩ := hd2
      have hcall := forest_dist_g_keyroots r1 r2 i j hi hj hki hkj st2.1 st2.2 d1 d2 d3 d4
        (by
          intro x y hx1 hx2 hy1 hy2 hne
          have hxm : x < nsize r1 := by omega
          have hyn : y < nsize r2 := by omega
          have hok : CellOk r1 r2 st2 x y := by
            apply hinv2 x y hxm hyn
            by_cases hlx : lmOf (compute_tree_info r1).postorder x =
                lmOf (compute_tree_info r1).postorder i
            · right
              refine ⟨hlx, ?_⟩
              have hly : lmOf (compute_tree_info r2).postorder y ≠
                  lmOf (compute_tree_info r2).postorder j := by
                rcases hne with h | h
                · exact absurd hlx h
                · exact h
              obtain ⟨b, q, f1, f2, f3, f4, f5⟩ := keyroot_of r2 y hyn
              have hqj := keyroot_lt r2 j y q hj f3 hy1 hy2 hly f4
              have hb := sorted_index_lt _ (cti_keyroots r2).2.2 b kj.toNat q j f1 ej
                (by omega)
              exact ⟨b, q, by omega, f1, f4⟩
            · left
              obtain ⟨a, p, f1, f2, f3, f4, f5⟩ := keyroot_of r1 x hxm
              have hpi := keyroot_lt r1 i x p hi f3 hx1 hx2 hlx f4
              have ha := sorted_index_lt _ (cti_keyroots r1).2.2 a ki.toNat p i f1 hkey
                (by omega)
              exact ⟨a, p, by omega, f1, f4⟩
          exact ⟨hok.2, hok.1⟩)
      obtain ⟨td, wr, e1, e2, e3, e4, e5, e6, e7, e8⟩ := hcall
      refine ⟨(td, wr), ?_, ⟨e2, e3, e4, e5⟩, ?_⟩
      · simp only [gj, Option.some_bind]
        rw [Prod.mk.eta] at e1
        exact e1
      · intro x y hx hy hc
        have keep : CellOk r1 r2 st2 x y → CellOk r1 r2 (td, wr) x y :=
          fun h => ⟨e6 _ _ h.1, e7 _ _ h.2⟩
        rcases hc with h | ⟨hlx, b, q, hb, hq1, hq2⟩
        · exact keep (hinv2 x y hx hy (Or.inl h))
        · by_cases hbk : (b : Int) < kj
          · exact keep (hinv2 x y hx hy (Or.inr ⟨hlx, b, q, hbk, hq1, hq2⟩))
          · have hbe : b = kj.toNat := by omega
            rw [hbe, ej] at hq1
            have hqj : q = j := by
              have := Option.some.inj hq1; omega
            rw [hqj] at hq2
            exact e8 x y hx hy hlx hq2.symm)
  obtain ⟨st2, e1, e2, e3⟩ := H
  refine ⟨st2, e1, e2, ?_⟩
  intro x y hx hy ⟨a, p, ha, hp1, hp2⟩
  apply e3 x y hx hy
  by_cases hak : (a : Int) < ki
  · exact Or.inl ⟨a, p, hak, hp1, hp2⟩
  · right
    have hae : a = ki.toNat := by omega
    rw [hae, hkey] at hp1
    have hpi : p = i := by
      have := Option.some.inj hp1; omega
    rw [hpi] at hp2
    refine ⟨hp2.symm, ?_⟩
    obtain ⟨b, q, f1, f2, f3, f4, f5⟩ := keyroot_of r2 y hy
    exact ⟨b, q, f2, f1, f4⟩

/-- The function `fill_tree_edit_matrix`, run with the record of assigned cells on
tables of the right size, succeeds and leaves in every cell of `treedist` the distance
between the two subtrees. -/
theorem fill_g_spec (r1 r2 : Node) (st : List (List Int) × List (List Int))
    (hd : TablesDims r1 r2 st) :
    ∃ st2, fill_tree_edit_matrix_g (compute_tree_info r1) (compute_tree_info r2) st
        = some st2 ∧ TablesDims r1 r2 st2 ∧
      ∀ x y : Nat, x < nsize r1 → y < nsize r2 → CellOk r1 r2 st2 x y := by
  have hnum0 : (0 : Int) ≤ (compute_tree_info r1).num_keyroots := by
    obtain ⟨_, _, _, _, _, _, _, hnum⟩ := cti_postorder r1
    rw [hnum]; omega
  have H := for_loop_inv
    (fun ki st2 => TablesDims r1 r2 st2 ∧
      ∀ x y : Nat, x < nsize r1 → y < nsize r2 → KeyrootBefore r1 ki x → CellOk r1 r2 st2 x y)
    0 (compute_tree_info r1).num_keyroots
    (fun ki st1 =>
      (geti (compute_tree_info r1).keyroots ki).bind fun i =>
      for_loop 0 (compute_tree_info r2).num_keyroots
        (fun kj st2 =>
          (geti (compute_tree_info r2).keyroots kj).bind fun j =>
          forest_dist_g i j (compute_tree_info r1) (compute_tree_info r2) st2) st1) st hnum0
    ⟨hd, by
      intro x y _ _ ⟨a, p, h, _⟩
      omega⟩
    (by
      intro ki st2 hki0 hki1 ⟨hd2, hinv2⟩
      obtain ⟨i, gi, ei, hi, hki⟩ := keyroot_entry r1 ki hki0 hki1
      obtain ⟨st3, e1, e2, e3⟩ := fill_inner r1 r2 ki i hi hki0 ei hki st2 hd2 hinv2
      exact ⟨st3, by simp only [gi, Option.some_bind]; exact e1, e2, e3⟩)
  obtain ⟨st2, e1, e2, e3⟩ := H
  refine ⟨st2, e1, e2, ?_⟩
  intro x y hx hy
  apply e3 x y hx hy
  obtain ⟨a, p, f1, f2, f3, f4, f5⟩ := keyroot_of r1 x hx
  exact ⟨a, p, f2, f1, f4⟩

end RNAted

namespace RNAted

/-! ## From the engine with the record to the engine of the program -/

theorem fd_cell_erase (w0 : List (List Int)) (t1 t2 : TreeInfo) (l1 l2 di dj : Int)
    (g g2 : GTables) (h : fd_cell_g w0 t1 t2 l1 l2 di dj g = some g2) :
    fd_cell t1 t2 l1 l2 di dj { fd := g.fd, treedist := g.treedist }
      = some { fd := g2.fd, treedist := g2.treedist } := by
  unfold fd_cell_g at h
  unfold fd_cell
  simp only [Option.bind_eq_some] at h
  obtain ⟨n1, hn1, n2, hn2, lm1, hlm1, lm2, hlm2, h⟩ := h
  simp only [hn1, hn2, hlm1, hlm2, Option.some_bind]
  by_cases hc : lm1 = l1 ∧ lm2 = l2
  · rw [if_pos hc] at h
    rw [if_pos hc]
    simp only [Option.bind_eq_some] at h
    obtain ⟨a, ha, b, hb, c, hc2, td, htd, wr, hwr, fd, hfd, h⟩ := h
    simp only [ha, hb, hc2, htd, hfd, Option.some_bind]
    have := Option.some.inj h
    subst this
    rfl
  · rw [if_neg hc] at h
    rw [if_neg hc]
    simp only [Option.bind_eq_some] at h
    obtain ⟨a, ha, b, hb, c, hc2, flag, hflag, h⟩ := h
    by_cases hf : flag = 1
    · rw [if_pos hf] at h
      simp only [Option.bind_eq_some] at h
      obtain ⟨d, hd, fd, hfd, h⟩ := h
      simp only [ha, hb, hc2, hd, hfd, Option.some_bind]
      have := Option.some.inj h
      subst this
      rfl
    · rw [if_neg hf] at h
      cases h

theorem forest_dist_erase (i j : Int) (t1 t2 : TreeInfo)
    (st st2 : List (List Int) × List (List Int))
    (h : forest_dist_g i j t1 t2 st = some st2) :
    forest_dist i j t1 t2 st.1 = some st2.1 := by
  unfold forest_dist_g at h
  unfold forest_dist
  simp only [Option.bind_eq_some] at h
  obtain ⟨l1, hl1, l2, hl2, h⟩ := h
  simp only [hl1, hl2, Option.some_bind]
  by_cases hc : i - l1 + 2 < 0 ∨ j - l2 + 2 < 0
  · rw [if_pos hc] at h; cases h
  · rw [if_neg hc] at h
    rw [if_neg hc]
    simp only [Option.bind_eq_some] at h
    obtain ⟨fd1, h1, fd2, h2, fd3, h3, tb, h4, h5⟩ := h
    simp only [h1, h2, h3, Option.some_bind]
    have hsim := for_loop_sim
      (fun (g : GTables) (p : Tables) => p.fd = g.fd ∧ p.treedist = g.treedist)
      1 (i - l1 + 2)
      (fun di tb => for_loop 1 (j - l2 + 2)
        (fun dj tb2 => fd_cell_g st.2 t1 t2 l1 l2 di dj tb2) tb)
      (fun di tb => for_loop 1 (j - l2 + 2)
        (fun dj tb2 => fd_cell t1 t2 l1 l2 di dj tb2) tb)
      (by
        intro di g p g2 hR hrun
        exact for_loop_sim
          (fun (g : GTables) (p : Tables) => p.fd = g.fd ∧ p.treedist = g.treedist)
          1 (j - l2 + 2) (fun dj tb2 => fd_cell_g st.2 t1 t2 l1 l2 di dj tb2)
          (fun dj tb2 => fd_cell t1 t2 l1 l2 di dj tb2)
          (by
            intro dj g p g2 hR hrun
            have := fd_cell_erase st.2 t1 t2 l1 l2 di dj g g2 hrun
            obtain ⟨pf, pt⟩ := p
            simp only at hR
            rw [hR.1, hR.2]
            exact ⟨_, this, rfl, rfl⟩)
          g p g2 hR hrun)
      { fd := fd3, treedist := st.1, written := st.2 } { fd := fd3, treedist := st.1 } tb
      ⟨rfl, rfl⟩ h4
    obtain ⟨p, hp1, hp2⟩ := hsim
    rw [hp1]
    simp only [Option.some_bind]
    have := Option.some.inj h5
    rw [← this, hp2.2]

theorem fill_erase (t1 t2 : TreeInfo) (st st2 : List (List Int) × List (List Int))
    (h : fill_tree_edit_matrix_g t1 t2 st = some st2) :
    fill_tree_edit_matrix t1 t2 st.1 = some st2.1 := by
  unfold fill_tree_edit_matrix_g at h
  unfold fill_tree_edit_matrix
  have hsim := for_loop_sim
    (fun (g : List (List Int) × List (List Int)) (p : List (List Int)) => p = g.1)
    0 t1.num_keyroots
    (fun ki st1 =>
      (geti t1.keyroots ki).bind fun i =>
      for_loop 0 t2.num_keyroots
        (fun kj st2 =>
          (geti t2.keyroots kj).bind fun j =>
          forest_dist_g i j t1 t2 st2) st1)
    (fun ki td =>
      (geti t1.keyroots ki).bind fun i =>
      for_loop 0 t2.num_keyroots
        (fun kj td2 =>
          (geti t2.keyroots kj).bind fun j =>
          forest_dist i j t1 t2 td2) td)
    (by
      intro ki g p g2 hR hrun
      simp only [Option.bind_eq_some] at hrun
      obtain ⟨i, hi, hrun⟩ := hrun
      simp only [hi, Option.some_bind]
      exact for_loop_sim
        (fun (g : List (List Int) × List (List Int)) (p : List (List Int)) => p = g.1)
        0 t2.num_keyroots
        (fun kj st2 =>
          (geti t2.keyroots kj).bind fun j =>
          forest_dist_g i j t1 t2 st2)
        (fun kj td2 =>
          (geti t2.keyroots kj).bind fun j =>
          forest_dist i j t1 t2 td2)
        (by
          intro kj g p g2 hR hrun
          simp only [Option.bind_eq_some] at hrun
          obtain ⟨j, hj, hrun⟩ := hrun
          simp only [hj, Option.some_bind]
          have := forest_dist_erase i j t1 t2 g g2 hrun
          rw [hR]
          exact ⟨_, this, rfl⟩)
        g p g2 hR hrun)
    st st.1 st2 rfl h
  obtain ⟨p, hp1, hp2⟩ := hsim
  rw [hp1, hp2]

/-- A run of `tree_edit_dist` that succeeds with the record of assigned cells is a run
of `tree_edit_dist` on the same initial table. -/
theorem tree_edit_dist_erase (t1 t2 : TreeInfo) (init d : Int)
    (h : tree_edit_dist_g t1 t2 init = some d) : tree_edit_dist_from t1 t2 init = some d := by
  unfold tree_edit_dist_g at h
  unfold tree_edit_dist_from
  by_cases hc : t1.postorder_size < 0 ∨ t2.postorder_size < 0
  · simp only [hc, if_true] at h; cases h
  · simp only [hc, if_false] at h ⊢
    simp only [Option.bind_eq_some] at h
    obtain ⟨st, hst, hget⟩ := h
    have := fill_erase t1 t2 _ st hst
    simp only at this
    rw [this]
    exact hget

theorem tree_edit_dist_from_self (t1 t2 : TreeInfo) :
    tree_edit_dist_from t1 t2 (t1.postorder_size + t2.postorder_size) = tree_edit_dist t1 t2 :=
  rfl

theorem getD_root (r : Node) :
    (compute_tree_info r).postorder.getD (nsize r - 1) default = (compute_tree_info r).root := by
  obtain ⟨h1, _, h3, _⟩ := cti_postorder r
  apply getD_of_getElem?
  rw [h1, ← h3]
  exact po_getLast _

/-- The value computed by `tree_edit_dist`, run with the record of assigned cells from
any initial value of the cells: the tree edit distance of the two trees. -/
theorem tree_edit_dist_g_eq (r1 r2 : Node) (init : Int) :
    tree_edit_dist_g (compute_tree_info r1) (compute_tree_info r2) init
      = some (tree_dist (shape r1) (shape r2)) := by
  obtain ⟨_, hs1, _, hm, _⟩ := cti_postorder r1
  obtain ⟨_, hs2, _, hn, _⟩ := cti_postorder r2
  have hp1 := nsize_pos r1
  have hp2 := nsize_pos r2
  unfold tree_edit_dist_g
  simp only [hm, hn]
  rw [if_neg (by omega)]
  simp only [Int.toNat_ofNat]
  obtain ⟨a1, a2⟩ := dims_replicate (nsize r1) (nsize r2) init
  obtain ⟨b1, b2⟩ := dims_replicate (nsize r1) (nsize r2) 0
  obtain ⟨st2, e1, e2, e3⟩ := fill_g_spec r1 r2
    (List.replicate (nsize r1) (List.replicate (nsize r2) init),
      List.replicate (nsize r1) (List.replicate (nsize r2) 0)) ⟨a1, a2, b1, b2⟩
  rw [e1]
  simp only [Option.some_bind]
  have := (e3 (nsize r1 - 1) (nsize r2 - 1) (by omega) (by omega)).1
  have c1 : ((nsize r1 - 1 : Nat) : Int) = (nsize r1 : Int) - 1 := by omega
  have c2 : ((nsize r2 - 1 : Nat) : Int) = (nsize r2 : Int) - 1 := by omega
  rw [c1, c2] at this
  rw [this]
  unfold td_spec
  have d1 : ((nsize r1 : Int) - 1).toNat = nsize r1 - 1 := by omega
  have d2 : ((nsize r2 : Int) - 1).toNat = nsize r2 - 1 := by omega
  rw [d1, d2, getD_root, getD_root, hs1, hs2]

/-- The value returned by `tree_edit_dist` on two indexed trees is the tree edit
distance of the two trees. -/
theorem tree_edit_dist_eq (r1 r2 : Node) :
    tree_edit_dist (compute_tree_info r1) (compute_tree_info r2)
      = some (tree_dist (shape r1) (shape r2)) := by
  rw [← tree_edit_dist_from_self]
  exact tree_edit_dist_erase _ _ _ _ (tree_edit_dist_g_eq r1 r2 _)

end RNAted

namespace RNAted

/-! ## Consequences for the tables of the program -/

/-- The function `fill_tree_edit_matrix` succeeds on every table of the right size and
leaves in every cell the distance between the two subtrees. -/
theorem fill_spec (r1 r2 : Node) (td0 : List (List Int)) (hl : td0.length = nsize r1)
    (hr : ∀ row ∈ td0, row.length = nsize r2) :
    ∃ td, fill_tree_edit_matrix (compute_tree_info r1) (compute_tree_info r2) td0 = some td ∧
      td.length = nsize r1 ∧ (∀ row ∈ td, row.length = nsize r2) ∧
      ∀ x y : Nat, x < nsize r1 → y < nsize r2 →
        get2 td x y = some (td_spec (compute_tree_info r1).postorder
          (compute_tree_info r2).postorder x y) := by
  obtain ⟨b1, b2⟩ := dims_replicate (nsize r1) (nsize r2) 0
  obtain ⟨st2, e1, e2, e3⟩ := fill_g_spec r1 r2
    (td0, List.replicate (nsize r1) (List.replicate (nsize r2) 0)) ⟨hl, hr, b1, b2⟩
  exact ⟨st2.1, fill_erase _ _ _ _ e1, e2.1, e2.2.1, fun x y hx hy => (e3 x y hx hy).1⟩

theorem td_spec_le (r1 r2 : Node) (x y : Nat) (hx : x < nsize r1) (hy : y < nsize r2) :
    td_spec (compute_tree_info r1).postorder (compute_tree_info r2).postorder x y
      ≤ 2 * ((nsize r1 : Int) + nsize r2) := by
  obtain ⟨u1, _, _, e1, e2, _, _⟩ := cti_block r1 x hx
  obtain ⟨u2, _, _, f1, f2, _, _⟩ := cti_block r2 y hy
  unfold td_spec tree_dist
  simp only [Int.toNat_ofNat]
  rw [getD_of_getElem? _ _ _ e1, getD_of_getElem? _ _ _ f1]
  have := dist_le_size [shape u1] [shape u2]
  simp only [lsizes, lsize_shape_both.1] at this
  push_cast at this
  omega

theorem td_spec_nonneg (L1 L2 : List Node) (x y : Int) : 0 ≤ td_spec L1 L2 x y :=
  dist_nonneg _ _

/-! ## Leaves and keyroots -/

theorem length_krN_both :
    (∀ v : Node, ∀ flag : Bool,
      (krN v flag).length + (if flag then 0 else 1)
        = ((po v).filter fun u => u.children.isEmpty).length) ∧
    (∀ F : List Node, ∀ first : Bool,
      (krF F first).length + (if (first && !F.isEmpty) = true then 1 else 0)
        = ((poF F).filter fun u => u.children.isEmpty).length) := by
  apply node_ind
  · intro l cs x a b ih flag
    have h := ih true
    cases cs with
    | nil =>
      cases flag <;> simp [krN, krF, po, poF, Node.children]
    | cons c rest =>
      simp only [krN, po, List.filter_append, List.length_append] at h ⊢
      cases flag <;> simp [Node.children] at h ⊢ <;> omega
  · intro first
    simp [krF, poF]
  · intro c cs ih1 ih2 first
    have h1 := ih1 (!first)
    have h2 := ih2 false
    simp only [krF, poF, List.filter_append, List.length_append]
    cases first <;> simp at h1 h2 ⊢ <;> omega

/-- The number of keyroots is the number of leaves. -/
theorem length_keyroots (r : Node) :
    (compute_tree_info r).keyroots.length
      = ((compute_tree_info r).postorder.filter fun u => u.children.isEmpty).length := by
  obtain ⟨h1, _, _, _, _, _, hk, _⟩ := cti_postorder r
  rw [hk, length_qsort, h1]
  have := length_krN_both.1 (compute_tree_info r).root true
  simpa using this

end RNAted

namespace RNAted

/-! ## Buffers of `main` -/

theorem fetch_eq (a : List (Option Int)) (k : Int) (h0 : 0 ≤ k) (h1 : k < a.length) :
    fetch a k = a.getD k.toNat none := by
  unfold fetch geti
  rw [if_pos h0]
  have : k.toNat < a.length := by omega
  simp [List.getD, List.getElem?_eq_getElem this]

theorem put_ok (a : List (Option Int)) (n : Nat) (hl : a.length = n) (k : Int) (h0 : 0 ≤ k)
    (h1 : k < n) (v : Int) :
    ∃ a2, put a k v = some a2 ∧ a2.length = n ∧ fetch a2 k = some v ∧
      ∀ k2 : Int, k2 ≠ k → fetch a2 k2 = fetch a k2 := by
  have hk : k.toNat < a.length := by omega
  refine ⟨a.set k.toNat (some v), ?_, by simp [hl], ?_, ?_⟩
  · unfold put seti
    rw [if_pos ⟨h0, hk⟩]
  · unfold fetch geti
    rw [if_pos h0]
    simp [hk]
  · intro k2 hne
    unfold fetch geti
    by_cases h2 : 0 ≤ k2
    · rw [if_pos h2, if_pos h2, List.getElem?_set_ne (by omega)]
    · rw [if_neg h2, if_neg h2]

theorem collect_loop_ok (c : Int → Option Int) (n : Int) (f : Int → Int) (hn : 0 ≤ n)
    (h : ∀ j : Int, 0 ≤ j → j < n → c j = some (f j)) :
    for_loop 0 n (fun j out => (c j).map fun v => out ++ [v]) []
      = some ((List.range n.toNat).map fun j : Nat => f (j : Int)) := by
  have H := for_loop_inv
    (fun d out => out = (List.range d.toNat).map fun j : Nat => f (j : Int))
    0 n (fun j out => (c j).map fun v => out ++ [v]) [] hn (by simp)
    (by
      intro d out hd0 hd1 hout
      refine ⟨out ++ [f d], by simp [h d hd0 hd1], ?_⟩
      have e : (d + 1).toNat = d.toNat + 1 := by omega
      show out ++ [f d] = (List.range (d + 1).toNat).map fun j : Nat => f (j : Int)
      rw [e, List.range_succ, List.map_append, hout]
      have e2 : ((d.toNat : Nat) : Int) = d := by omega
      simp [e2])
  obtain ⟨out, e1, e2⟩ := H
  rw [e1, e2]

theorem cell_inj (N a b c d : Int) (hb0 : 0 ≤ b) (hb : b < N) (hd0 : 0 ≤ d) (hd : d < N)
    (h : a * N + b = c * N + d) : a = c ∧ b = d := by
  have hac : a = c := by
    by_contra hne
    rcases lt_or_gt_of_ne hne with h1 | h1
    · have : (c - a) * N ≥ 1 * N := by
        apply mul_le_mul_of_nonneg_right <;> omega
      nlinarith
    · have : (a - c) * N ≥ 1 * N := by
        apply mul_le_mul_of_nonneg_right <;> omega
      nlinarith
  subst hac
  exact ⟨rfl, by omega⟩

theorem cell_lt (N a b : Int) (ha0 : 0 ≤ a) (ha : a < N) (hb0 : 0 ≤ b) (hb : b < N) :
    0 ≤ a * N + b ∧ a * N + b < N * N := by
  have h1 : 0 ≤ a * N := by apply mul_nonneg <;> omega
  have h2 : a * N ≤ (N - 1) * N := by
    apply mul_le_mul_of_nonneg_right <;> omega
  constructor
  · omega
  · nlinarith

/-! ## Offsets that stay inside the range of `int` -/

theorem wrap32_eq (v : Int) (h0 : -2147483648 ≤ v) (h1 : v ≤ INT_MAX) : wrap32 v = v := by
  unfold INT_MAX at h1
  unfold wrap32
  omega

theorem wrap32_add (a b : Int) : wrap32 (wrap32 a + b) = wrap32 (a + b) := by
  unfold wrap32
  omega

/-- The offset of cell `(a, b)` of the distance matrix, as the program computes it, when
the number of cells is inside the range of `int`. -/
theorem cell_wrap (N a b : Int) (hN : N * N ≤ INT_MAX) (ha0 : 0 ≤ a) (ha : a < N)
    (hb0 : 0 ≤ b) (hb : b < N) : wrap32 (wrap32 (a * N) + b) = a * N + b := by
  have hc := cell_lt N a b ha0 ha hb0 hb
  rw [wrap32_add, wrap32_eq _ (by omega) (by omega)]

theorem malloc_cells_ok (N : Nat) (hN : (N : Int) * N ≤ INT_MAX) :
    malloc_cells (wrap32 ((N : Int) * N)) = some (List.replicate (N * N) none) := by
  have h0 : (0 : Int) ≤ (N : Int) * N := by positivity
  rw [wrap32_eq _ (by omega) hN]
  unfold malloc_cells
  rw [if_neg (by omega)]
  have : ((N : Int) * N) = ((N * N : Nat) : Int) := by push_cast; rfl
  rw [this, Int.toNat_ofNat]

/-! ## The indexed trees of the input -/

theorem build_ti_array_ok (structures : List String) (ti_array : List TreeInfo)
    (h : build_ti_array structures = .ok ti_array) :
    ∃ rs : List Node, ti_array = rs.map compute_tree_info ∧ rs.length = structures.length ∧
      ∀ (k : Nat) (s : String), structures[k]? = some s →
        ∃ t, rs[k]? = some t ∧ parse_dot_bracket s = .ok t := by
  induction structures generalizing ti_array with
  | nil =>
    simp only [build_ti_array, Except.ok.injEq] at h
    subst h
    exact ⟨[], rfl, rfl, by simp⟩
  | cons s rest ih =>
    simp only [build_ti_array] at h
    cases hp : parse_dot_bracket s with
    | error e => rw [hp] at h; simp at h
    | ok t =>
      rw [hp] at h
      simp only at h
      cases hb : build_ti_array rest with
      | error e => rw [hb] at h; simp at h
      | ok tis =>
        rw [hb] at h
        simp only [Except.ok.injEq] at h
        subst h
        obtain ⟨rs, e1, e2, e3⟩ := ih tis hb
        refine ⟨t :: rs, by simp [e1], by simp [e2], ?_⟩
        intro k s2 hk
        cases k with
        | zero =>
          simp only [List.getElem?_cons_zero, Option.some.injEq] at hk
          subst hk
          exact ⟨t, by simp, hp⟩
        | succ k =>
          simp only [List.getElem?_cons_succ] at hk ⊢
          exact e3 k s2 hk

theorem geti_ti_array (rs : List Node) (i : Int) (h0 : 0 ≤ i) (h1 : i < rs.length) :
    geti (rs.map compute_tree_info) i = some (compute_tree_info (rs.getD i.toNat default)) := by
  unfold geti
  rw [if_pos h0]
  have : i.toNat < rs.length := by omega
  simp [List.getD, List.getElem?_eq_getElem this]

theorem ted_ti_array (rs : List Node) (i j : Int) (hi0 : 0 ≤ i) (hi1 : i < rs.length)
    (hj0 : 0 ≤ j) (hj1 : j < rs.length) :
    ((geti (rs.map compute_tree_info) i).bind fun t_i =>
      (geti (rs.map compute_tree_info) j).bind fun tj =>
      (tree_edit_dist t_i tj)) = some (dspec rs i j) := by
  rw [geti_ti_array rs i hi0 hi1, geti_ti_array rs j hj0 hj1]
  simp only [Option.some_bind]
  rw [tree_edit_dist_eq]
  rfl

theorem dspec_symm (rs : List Node) (i j : Int) : dspec rs i j = dspec rs j i := by
  unfold dspec tree_dist
  exact dist_symm _ _

theorem mspec_eq (rs : List Node) (i j : Int) :
    mspec rs i j = if i = j then 0 else dspec rs i j := by
  unfold mspec
  by_cases h1 : i = j
  · simp [h1]
  · by_cases h2 : i < j
    · simp [h1, h2]
    · simp [h1, h2, dspec_symm rs j i]

theorem mspec_symm (rs : List Node) (i j : Int) : mspec rs i j = mspec rs j i := by
  rw [mspec_eq, mspec_eq, dspec_symm rs i j]
  by_cases h : i = j
  · simp [h]
  · have : ¬ j = i := fun e => h e.symm
    simp [h, this]

end RNAted

namespace RNAted

/-! ## The three branches of `main` -/

theorem full_matrix_diag_ok (N : Nat) (hN : (N : Int) * N ≤ INT_MAX) :
    ∃ dm, full_matrix_diag N = some dm ∧ dm.length = N * N ∧
      ∀ a b : Int, 0 ≤ a → a < N → 0 ≤ b → b < N →
        fetch dm (a * N + b) = if a = b then some 0 else none := by
  have hlen : (List.replicate (N * N) (none : Option Int)).length = N * N :=
    List.length_replicate _ _
  have H := for_loop_inv
    (fun i dm => dm.length = N * N ∧
      ∀ a b : Int, 0 ≤ a → a < N → 0 ≤ b → b < N →
        fetch dm (a * N + b) = if a = b ∧ a < i then some 0 else none)
    0 N (fun i dm => put dm (wrap32 (wrap32 (i * N) + i)) 0)
    (List.replicate (N * N) none) (by omega)
    ⟨hlen, by
      intro a b ha0 ha1 hb0 hb1
      have hc := cell_lt N a b ha0 ha1 hb0 hb1
      rw [if_neg (by omega), fetch_eq _ _ hc.1 (by rw [hlen]; push_cast; exact hc.2)]
      simp [List.getD]⟩
    (by
      intro i dm hi0 hi1 ⟨hl, hinv⟩
      have hc := cell_lt N i i hi0 hi1 hi0 hi1
      obtain ⟨dm2, e1, e2, e3, e4⟩ := put_ok dm (N * N) hl (i * N + i) hc.1
        (by push_cast; exact hc.2) 0
      refine ⟨dm2, ?_, e2, ?_⟩
      · show put dm (wrap32 (wrap32 (i * N) + i)) 0 = some dm2
        rw [cell_wrap N i i hN hi0 hi1 hi0 hi1]
        exact e1
      intro a b ha0 ha1 hb0 hb1
      by_cases hab : a = i ∧ b = i
      · rw [hab.1, hab.2, e3, if_pos ⟨rfl, by omega⟩]
      · have hne : a * N + b ≠ i * N + i := by
          intro h
          exact hab (cell_inj N a b i i hb0 hb1 hi0 hi1 h)
        rw [e4 _ hne, hinv a b ha0 ha1 hb0 hb1]
        by_cases h1 : a = b ∧ a < i
        · rw [if_pos h1, if_pos ⟨h1.1, by omega⟩]
        · rw [if_neg h1, if_neg]
          intro h2
          apply h1
          refine ⟨h2.1, ?_⟩
          by_contra h3
          exact hab ⟨by omega, by omega⟩)
  obtain ⟨dm, e1, e2, e3⟩ := H
  refine ⟨dm, ?_, e2, ?_⟩
  · unfold full_matrix_diag
    rw [malloc_cells_ok N hN]
    exact e1
  intro a b ha0 ha1 hb0 hb1
  rw [e3 a b ha0 ha1 hb0 hb1]
  by_cases h : a = b
  · rw [if_pos ⟨h, ha1⟩, if_pos h]
  · rw [if_neg (fun hc => h hc.1), if_neg h]

/-- One iteration of the parallel loop of the full-matrix branch: it fills the cells
`(i, b)` and `(b, i)` with `b > i` and leaves every other cell as it was. -/
theorem full_matrix_unit_ok (rs : List Node)
    (hN : (rs.length : Int) * rs.length ≤ INT_MAX) (i : Int) (hi0 : 0 ≤ i)
    (hi1 : i < rs.length) (dm : List (Option Int))
    (hl : dm.length = rs.length * rs.length) :
    ∃ dm2, full_matrix_unit (rs.map compute_tree_info) i dm = some dm2 ∧
      dm2.length = rs.length * rs.length ∧
      ∀ a b : Int, 0 ≤ a → a < rs.length → 0 ≤ b → b < rs.length →
        fetch dm2 (a * rs.length + b) =
          if (a = i ∧ i < b) ∨ (b = i ∧ i < a) then some (mspec rs a b)
          else fetch dm (a * rs.length + b) := by
  have H := for_loop_inv
    (fun j dm2 => dm2.length = rs.length * rs.length ∧
      ∀ a b : Int, 0 ≤ a → a < rs.length → 0 ≤ b → b < rs.length →
        fetch dm2 (a * rs.length + b) =
          if (a = i ∧ i < b ∧ b < j) ∨ (b = i ∧ i < a ∧ a < j) then some (mspec rs a b)
          else fetch dm (a * rs.length + b))
    (i + 1) rs.length
    (fun j distance_matrix =>
      (geti (rs.map compute_tree_info) i).bind fun t_i =>
      (geti (rs.map compute_tree_info) j).bind fun tj =>
      (tree_edit_dist t_i tj).bind fun ted =>
      (put distance_matrix
        (wrap32 (wrap32 (i * ((rs.map compute_tree_info).length : Int)) + j)) ted).bind
        fun distance_matrix =>
      put distance_matrix
        (wrap32 (wrap32 (j * ((rs.map compute_tree_info).length : Int)) + i)) ted)
    dm (by omega)
    ⟨hl, by
      intro a b ha0 ha1 hb0 hb1
      rw [if_neg (by omega)]⟩
    (by
      intro j dm2 hj0 hj1 ⟨hl2, hinv⟩
      have hted := ted_ti_array rs i j hi0 hi1 (by omega) hj1
      have c1 := cell_lt rs.length i j hi0 hi1 (by omega) hj1
      have c2 := cell_lt rs.length j i (by omega) hj1 hi0 hi1
      obtain ⟨dm3, e1, e2, e3, e4⟩ := put_ok dm2 (rs.length * rs.length) hl2
        (i * rs.length + j) c1.1 (by push_cast; exact c1.2) (dspec rs i j)
      obtain ⟨dm4, f1, f2, f3, f4⟩ := put_ok dm3 (rs.length * rs.length) e2
        (j * rs.length + i) c2.1 (by push_cast; exact c2.2) (dspec rs i j)
      refine ⟨dm4, ?_, f2, ?_⟩
      · simp only [List.length_map]
        rw [geti_ti_array rs i hi0 hi1, geti_ti_array rs j (by omega) hj1] at hted ⊢
        simp only [Option.some_bind] at hted ⊢
        rw [hted]
        simp only [Option.some_bind]
        rw [cell_wrap _ i j hN hi0 hi1 (by omega) hj1,
          cell_wrap _ j i hN (by omega) hj1 hi0 hi1, e1]
        simp only [Option.some_bind]
        exact f1
      · intro a b ha0 ha1 hb0 hb1
        have m1 : mspec rs i j = dspec rs i j := by
          unfold mspec; rw [if_neg (by omega), if_pos (by omega)]
        have m2 : mspec rs j i = dspec rs i j := by
          rw [mspec_symm]; exact m1
        by_cases h1 : a = j ∧ b = i
        · rw [h1.1, h1.2, f3, if_pos (Or.inr ⟨rfl, by omega, by omega⟩), m2]
        · have hne1 : a * (rs.length : Int) + b ≠ j * rs.length + i := by
            intro h
            exact h1 (cell_inj rs.length a b j i hb0 hb1 hi0 hi1 h)
          rw [f4 _ hne1]
          by_cases h2 : a = i ∧ b = j
          · rw [h2.1, h2.2, e3, if_pos (Or.inl ⟨rfl, by omega, by omega⟩), m1]
          · have hne2 : a * (rs.length : Int) + b ≠ i * rs.length + j := by
              intro h
              exact h2 (cell_inj rs.length a b i j hb0 hb1 (by omega) hj1 h)
            rw [e4 _ hne2, hinv a b ha0 ha1 hb0 hb1]
            by_cases h3 : (a = i ∧ i < b ∧ b < j) ∨ (b = i ∧ i < a ∧ a < j)
            · rw [if_pos h3, if_pos]
              rcases h3 with h | h
              · exact Or.inl ⟨h.1, h.2.1, by omega⟩
              · exact Or.inr ⟨h.1, h.2.1, by omega⟩
            · rw [if_neg h3, if_neg]
              intro h4
              apply h3
              rcases h4 with h | h
              · refine Or.inl ⟨h.1, h.2.1, ?_⟩
                by_contra hc
                exact h2 ⟨h.1, by omega⟩
              · refine Or.inr ⟨h.1, h.2.1, ?_⟩
                by_contra hc
                exact h1 ⟨by omega, h.1⟩)
  obtain ⟨dm2, e1, e2, e3⟩ := H
  refine ⟨dm2, ?_, e2, ?_⟩
  · unfold full_matrix_unit
    simp only [List.length_map] at e1 ⊢
    exact e1
  · intro a b ha0 ha1 hb0 hb1
    rw [e3 a b ha0 ha1 hb0 hb1]
    by_cases h : (a = i ∧ i < b) ∨ (b = i ∧ i < a)
    · rw [if_pos h, if_pos]
      rcases h with h | h
      · exact Or.inl ⟨h.1, h.2, hb1⟩
      · exact Or.inr ⟨h.1, h.2, ha1⟩
    · rw [if_neg h, if_neg]
      intro h2
      apply h
      rcases h2 with h | h
      · exact Or.inl ⟨h.1, h.2.1⟩
      · exact Or.inr ⟨h.1, h.2.1⟩

/-- The parallel loop of the full-matrix branch, run in index order. -/
theorem full_matrix_loop_ok (rs : List Node)
    (hN : (rs.length : Int) * rs.length ≤ INT_MAX) (dm : List (Option Int))
    (hl : dm.length = rs.length * rs.length) :
    ∃ dm2, for_loop 0 rs.length (full_matrix_unit (rs.map compute_tree_info)) dm = some dm2 ∧
      dm2.length = rs.length * rs.length ∧
      ∀ a b : Int, 0 ≤ a → a < rs.length → 0 ≤ b → b < rs.length →
        fetch dm2 (a * rs.length + b) =
          if a ≠ b then some (mspec rs a b) else fetch dm (a * rs.length + b) := by
  have H := for_loop_inv
    (fun i dm2 => dm2.length = rs.length * rs.length ∧
      ∀ a b : Int, 0 ≤ a → a < rs.length → 0 ≤ b → b < rs.length →
        fetch dm2 (a * rs.length + b) =
          if (a < b ∧ a < i) ∨ (b < a ∧ b < i) then some (mspec rs a b)
          else fetch dm (a * rs.length + b))
    0 rs.length (full_matrix_unit (rs.map compute_tree_info)) dm (by omega)
    ⟨hl, by
      intro a b ha0 ha1 hb0 hb1
      rw [if_neg (by omega)]⟩
    (by
      intro i dm2 hi0 hi1 ⟨hl2, hinv⟩
      obtain ⟨dm3, e1, e2, e3⟩ := full_matrix_unit_ok rs hN i hi0 hi1 dm2 hl2
      refine ⟨dm3, e1, e2, ?_⟩
      intro a b ha0 ha1 hb0 hb1
      rw [e3 a b ha0 ha1 hb0 hb1, hinv a b ha0 ha1 hb0 hb1]
      by_cases h2 : (a = i ∧ i < b) ∨ (b = i ∧ i < a)
      · rw [if_pos h2, if_pos (by omega)]
      · rw [if_neg h2]
        by_cases h1 : (a < b ∧ a < i) ∨ (b < a ∧ b < i)
        · rw [if_pos h1, if_pos (by omega)]
        · rw [if_neg h1, if_neg (by omega)])
  obtain ⟨dm2, e1, e2, e3⟩ := H
  refine ⟨dm2, e1, e2, ?_⟩
  intro a b ha0 ha1 hb0 hb1
  rw [e3 a b ha0 ha1 hb0 hb1]
  by_cases h : a ≠ b
  · rw [if_pos h, if_pos (by omega)]
  · rw [if_neg h, if_neg (by omega)]

theorem print_matrix_ok (N : Nat) (hN : (N : Int) * N ≤ INT_MAX) (dm : List (Option Int))
    (g : Int → Int → Int)
    (h : ∀ a b : Int, 0 ≤ a → a < N → 0 ≤ b → b < N → fetch dm (a * N + b) = some (g a b)) :
    print_matrix N dm = some (matrix_of N g) := by
  have H := for_loop_inv
    (fun d out => out = (List.range d.toNat).map fun i : Nat =>
      (List.range N).map fun j : Nat => g i j)
    0 N
    (fun i out =>
      (for_loop 0 (N : Int)
        (fun j row =>
          (fetch dm (wrap32 (wrap32 (i * (N : Int)) + j))).map fun v => row ++ [v]) []).map
        fun row => out ++ [row]) [] (by omega) (by simp)
    (by
      intro d out hd0 hd1 hout
      have hp := collect_loop_ok (fun j => fetch dm (wrap32 (wrap32 (d * (N : Int)) + j)))
        N (fun j => g d j) (by omega)
        (fun j hj0 hj1 => by
          show fetch dm (wrap32 (wrap32 (d * (N : Int)) + j)) = some (g d j)
          rw [cell_wrap N d j hN hd0 hd1 hj0 hj1]
          exact h d j hd0 hd1 hj0 hj1)
      simp only [Int.toNat_ofNat] at hp
      refine ⟨out ++ [(List.range N).map fun j : Nat => g d j], by simp [hp], ?_⟩
      have e : (d + 1).toNat = d.toNat + 1 := by omega
      show out ++ [(List.range N).map fun j : Nat => g d j] = _
      rw [e, List.range_succ, List.map_append, hout]
      have e2 : ((d.toNat : Nat) : Int) = d := by omega
      simp [e2])
  obtain ⟨out, e1, e2⟩ := H
  unfold print_matrix matrix_of
  rw [e1, e2]
  simp

/-- What the full-matrix branch prints for the indexed trees of a list of trees. -/
theorem full_matrix_branch_eq (rs : List Node)
    (hN : (rs.length : Int) * rs.length ≤ INT_MAX) :
    full_matrix_branch (rs.map compute_tree_info) = some (matrix_of rs.length (mspec rs)) := by
  obtain ⟨dm, e1, e2, e3⟩ := full_matrix_diag_ok rs.length hN
  obtain ⟨dm2, f1, f2, f3⟩ := full_matrix_loop_ok rs hN dm e2
  unfold full_matrix_branch
  simp only [List.length_map, e1, Option.some_bind, f1]
  apply print_matrix_ok _ hN
  intro a b ha0 ha1 hb0 hb1
  rw [f3 a b ha0 ha1 hb0 hb1, e3 a b ha0 ha1 hb0 hb1]
  by_cases h : a = b
  · simp [h, mspec]
  · simp [h]

theorem for_steps_none {σ : Type} (body : Int → σ → Option σ) (k : Int)
    (hk : ∀ s, body k s = none) :
    ∀ (n : Nat) (d : Int) (s : σ), d ≤ k → k < d + n → for_steps n d body s = none := by
  intro n
  induction n with
  | zero =>
    intro d s h1 h2
    simp only [Nat.cast_zero] at h2
    omega
  | succ n ih =>
    intro d s h1 h2
    simp only [for_steps]
    by_cases e : d = k
    · subst e
      rw [hk]
      rfl
    · cases hb : body d s with
      | none => rfl
      | some s2 =>
        simp only [Option.some_bind]
        exact ih (d + 1) s2 (by omega) (by push_cast at h2; omega)

theorem put_neg (a : List (Option Int)) (k : Int) (v : Int) (h : k < 0) : put a k v = none := by
  unfold put seti
  rw [if_neg (by omega)]

/-- With more than 46340 structures the size `num_structures * num_structures` of the
matrix leaves the range of `int`: the allocation fails, or the diagonal loop assigns a
cell at a negative offset. -/
theorem full_matrix_diag_none (N : Int) (h0 : 0 ≤ N) (h1 : N ≤ INT_MAX)
    (h2 : INT_MAX < N * N) : full_matrix_diag N = none := by
  unfold INT_MAX at h1 h2
  have hN : 46341 ≤ N := by
    by_contra hc
    have : N * N ≤ 46340 * 46340 := by nlinarith
    omega
  have hNN : 2147488281 ≤ N * N := by nlinarith
  have hdiv := Int.ediv_add_emod 2147483648 (N + 1)
  have hr0 := Int.emod_nonneg 2147483648 (show N + 1 ≠ 0 by omega)
  have hr1 := Int.emod_lt_of_pos 2147483648 (show 0 < N + 1 by omega)
  obtain ⟨q, hq⟩ : ∃ q : Int, q = 2147483648 / (N + 1) := ⟨_, rfl⟩
  obtain ⟨r, hr⟩ : ∃ r : Int, r = 2147483648 % (N + 1) := ⟨_, rfl⟩
  rw [← hq, ← hr] at hdiv
  rw [← hr] at hr0 hr1
  have e : q * N + q + r = 2147483648 := by
    have : (N + 1) * q = q * N + q := by ring
    omega
  have hq0 : 0 ≤ q := by
    by_contra hc
    have : q * N ≤ 0 := by
      have : q ≤ 0 := by omega
      exact mul_nonpos_of_nonpos_of_nonneg this h0
    omega
  have key : ∃ k : Int, 0 ≤ k ∧ k < N ∧ wrap32 (wrap32 (k * N) + k) < 0 := by
    by_cases hrz : r = 0
    · refine ⟨q, hq0, ?_, ?_⟩
      · by_contra hc
        have : N * N ≤ q * N := by
          apply mul_le_mul_of_nonneg_right <;> omega
        omega
      · rw [wrap32_add]
        have : q * N + q = 2147483648 := by omega
        rw [this]
        unfold wrap32
        omega
    · refine ⟨q + 1, by omega, ?_, ?_⟩
      · by_contra hc
        have : (N - 1) * N ≤ q * N := by
          apply mul_le_mul_of_nonneg_right <;> omega
        have : (N - 1) * N = N * N - N := by ring
        omega
      · rw [wrap32_add]
        have : (q + 1) * N + (q + 1) = 2147483648 - r + N + 1 := by
          have : (q + 1) * N = q * N + N := by ring
          omega
        rw [this]
        unfold wrap32
        omega
  obtain ⟨k, hk0, hk1, hk2⟩ := key
  unfold full_matrix_diag
  cases hm : malloc_cells (wrap32 (N * N)) with
  | none => rfl
  | some dm =>
    simp only [Option.some_bind]
    unfold for_loop
    apply for_steps_none _ k
    · intro s
      exact put_neg s _ 0 hk2
    · exact hk0
    · omega

end RNAted

namespace RNAted

end RNAted

namespace RNAted

theorem length_matrix_of (N : Nat) (g : Int → Int → Int) : (matrix_of N g).length = N := by
  simp [matrix_of]

theorem getElem?_matrix_of (N : Nat) (g : Int → Int → Int) (i : Nat) (hi : i < N) :
    (matrix_of N g)[i]? = some ((List.range N).map fun j : Nat => g i j) := by
  simp [matrix_of, List.getElem?_map, List.getElem?_range hi]

theorem row_length_matrix_of (N : Nat) (g : Int → Int → Int) :
    ∀ row ∈ matrix_of N g, row.length = N := by
  intro row hrow
  simp only [matrix_of, List.mem_map] at hrow
  obtain ⟨i, _, rfl⟩ := hrow
  simp

theorem entry_matrix_of (N : Nat) (g : Int → Int → Int) (i j : Nat) (hi : i < N) (hj : j < N) :
    entry (matrix_of N g) i j = some (g i j) := by
  unfold entry
  rw [getElem?_matrix_of N g i hi]
  simp [List.getElem?_map, List.getElem?_range hj]

theorem main_full (structures : List String) (ti_array : List TreeInfo)
    (h : build_ti_array structures = .ok ti_array) (hN : 1 ≤ structures.length)
    (order : List Int) :
    main false false structures order = full_matrix_branch ti_array := by
  unfold main
  rw [if_neg (by omega), h]
  simp

theorem ted_getElem (rs : List Node) (i j : Nat) (hi : i < rs.length) (hj : j < rs.length) :
    ∃ ti tj, (rs.map compute_tree_info)[i]? = some ti ∧
      (rs.map compute_tree_info)[j]? = some tj ∧
      tree_edit_dist ti tj = some (dspec rs i j) ∧
      tree_edit_dist tj ti = some (dspec rs i j) := by
  refine ⟨compute_tree_info rs[i], compute_tree_info rs[j], by simp [hi], by simp [hj], ?_, ?_⟩
  · rw [tree_edit_dist_eq]
    simp [dspec, List.getD, hi, hj]
  · rw [tree_edit_dist_eq, dspec_symm]
    simp [dspec, List.getD, hi, hj]

/-- What the full-matrix branch prints when the cells of the matrix can be addressed
with `int` offsets. -/
theorem main_full_eq (structures : List String) (rs : List Node)
    (h : build_ti_array structures = .ok (rs.map compute_tree_info))
    (hlen : rs.length = structures.length) (hN : 1 ≤ structures.length)
    (hb : (structures.length : Int) * structures.length ≤ INT_MAX) (order : List Int) :
    main false false structures order = some (matrix_of structures.length (mspec rs)) := by
  rw [main_full structures _ h hN, full_matrix_branch_eq rs (by rw [hlen]; exact hb), hlen]

/-- With more structures than that the full-matrix branch prints no matrix. -/
theorem main_full_none (structures : List String) (ti_array : List TreeInfo)
    (h : build_ti_array structures = .ok ti_array) (hN : 1 ≤ structures.length)
    (hint : (structures.length : Int) ≤ INT_MAX)
    (hb : INT_MAX < (structures.length : Int) * structures.length) (order : List Int) :
    main false false structures order = none := by
  obtain ⟨rs, e1, e2, _⟩ := build_ti_array_ok structures ti_array h
  subst e1
  rw [main_full structures _ h hN]
  unfold full_matrix_branch
  simp only [List.length_map]
  rw [full_matrix_diag_none rs.length (by omega) (by rw [e2]; exact hint)
    (by rw [e2]; exact hb)]
  rfl

/-- The indexed trees of `n` copies of the line ".". -/
theorem build_ti_array_dots (n : Nat) :
    ∃ ti_array, build_ti_array (List.replicate n ".") = .ok ti_array := by
  induction n with
  | zero => exact ⟨[], rfl⟩
  | succ n ih =>
    obtain ⟨tis, e⟩ := ih
    obtain ⟨t, ht⟩ : ∃ t, parse_dot_bracket "." = .ok t := ⟨_, rfl⟩
    refine ⟨compute_tree_info t :: tis, ?_⟩
    simp only [List.replicate_succ, build_ti_array, ht, e]

end RNAted

namespace RNAted

/-! ## Children, first children and leaves in the postorder table -/

theorem find_leftmost_index_first_leaf (v : Node) :
    find_leftmost_index v = (first_leaf v).index ∧ (po v)[0]? = some (first_leaf v) ∧
      (first_leaf v).children = [] := by
  revert v
  apply node_ind_mem
  intro l cs x a b ih
  cases cs with
  | nil => simp [find_leftmost_index, first_leaf, po, poF, Node.index, Node.children]
  | cons c rest =>
    obtain ⟨h1, h2, h3⟩ := ih c (by simp)
    refine ⟨by simpa [find_leftmost_index, first_leaf] using h1, ?_, by simpa [first_leaf] using h3⟩
    have hlen : 0 < (po c).length := by rw [length_po]; exact nsize_pos c
    simp only [po, poF, List.append_assoc, first_leaf]
    rw [List.getElem?_append_left hlen]
    exact h2

theorem keyroots_table_root (r : Node) :
    (((nsize r - 1 : Nat) : Int)) ∈ (compute_tree_info r).keyroots := by
  obtain ⟨kA, kB, _⟩ := cti_keyroots r
  have hpos := nsize_pos r
  obtain ⟨p, e1, e2, e3⟩ := kB (nsize r - 1) (by omega)
  obtain ⟨q, f1, f2, _⟩ := kA _ e1
  have : p = nsize r - 1 := by omega
  rw [← this]; exact e1

end RNAted

namespace RNAted

/-! ## The heap of the parser -/

theorem length_layout_both :
    (∀ t : Node, ∀ a : Nat, (layout a t).length = nsize t) ∧
    (∀ F : List Node, ∀ a : Nat, (layoutL a F).length = fsize F) := by
  apply node_ind
  · intro l cs x i j ih a
    simp [layout, nsize, ih]
  · intro a
    simp [layoutL, fsize]
  · intro c cs ih1 ih2 a
    simp [layoutL, fsize, ih1, ih2]

theorem length_layout (t : Node) (a : Nat) : (layout a t).length = nsize t :=
  length_layout_both.1 t a

theorem length_layoutL (F : List Node) (a : Nat) : (layoutL a F).length = fsize F :=
  length_layout_both.2 F a

theorem layoutL_append (F G : List Node) (a : Nat) :
    layoutL a (F ++ G) = layoutL a F ++ layoutL (a + fsize F) G := by
  induction F generalizing a with
  | nil => simp [layoutL, fsize]
  | cons c cs ih =>
    show layout a c ++ layoutL (a + nsize c) (cs ++ G) = _
    rw [ih]
    simp [layoutL, fsize, Nat.add_assoc]

theorem addrs_append (F G : List Node) (a : Nat) :
    addrs a (F ++ G) = addrs a F ++ addrs (a + fsize F) G := by
  induction F generalizing a with
  | nil => simp [addrs, fsize]
  | cons c cs ih =>
    show a :: addrs (a + nsize c) (cs ++ G) = _
    rw [ih]
    simp [addrs, fsize, Nat.add_assoc]

theorem renderF_append (F G : List Node) : renderF (F ++ G) = renderF F ++ renderF G := by
  induction F with
  | nil => simp [renderF]
  | cons c cs ih => simp [renderF, ih]

theorem length_heapX (cur : List Node) (extra : List Nat) (stack : List (Int × List Node)) :
    (heapX cur extra stack).length = zsize cur stack := by
  induction stack generalizing cur extra with
  | nil => simp [heapX, zsize, length_layoutL]
  | cons f rest ih =>
    obtain ⟨p, before⟩ := f
    simp [heapX, zsize, ih, length_layoutL]
    omega

/-- Adding a completed child to the innermost open node. -/
theorem heapX_add (cur : List Node) (t : Node) (stack : List (Int × List Node)) :
    heapX (cur ++ [t]) [] stack = heapX cur [zsize cur stack] stack ++ layout (zsize cur stack) t ∧
    rootKids (cur ++ [t]) [] stack = rootKids cur [zsize cur stack] stack ∧
    zsize (cur ++ [t]) stack = zsize cur stack + nsize t := by
  cases stack with
  | nil =>
    simp [heapX, rootKids, zsize, layoutL_append, addrs_append, layoutL, addrs, fsize_append,
      fsize]
  | cons f rest =>
    obtain ⟨p, before⟩ := f
    refine ⟨?_, ?_, ?_⟩
    · simp [heapX, zsize, layoutL_append, addrs_append, layoutL, addrs, fsize]
    · simp [rootKids]
    · simp [zsize, fsize_append, fsize]
      omega

/-- The cell of the innermost open node. -/
theorem heapX_open (cur : List Node) (extra : List Nat) (p : Int) (before : List Node)
    (rest : List (Int × List Node)) (more : List ANode) :
    (heapX cur extra ((p, before) :: rest) ++ more)[zsize before rest]? =
      some { label := 'P', children := addrs (zsize before rest + 1) cur ++ extra, index := -1,
             i := p, j := -1 } := by
  simp only [heapX, List.append_assoc]
  rw [List.getElem?_append_right (by rw [length_heapX])]
  simp [length_heapX]

theorem heapX_set (cur : List Node) (extra : List Nat) (p : Int) (before : List Node)
    (rest : List (Int × List Node)) (more : List ANode) (c : ANode) :
    (heapX cur extra ((p, before) :: rest) ++ more).set (zsize before rest) c =
      heapX before [zsize before rest] rest ++ c :: layoutL (zsize before rest + 1) cur ++ more := by
  simp only [heapX, List.append_assoc]
  rw [List.set_append_right _ _ (by rw [length_heapX])]
  simp [length_heapX]

/-- Reading a laid-out tree off the heap gives the tree back. -/
theorem toTree_layout_both :
    (∀ t : Node, ∀ (A B : List ANode) (fuel : Nat), nsize t ≤ fuel →
      ((A ++ layout A.length t ++ B)[A.length]?).bind (toTree (A ++ layout A.length t ++ B) fuel)
        = some t) ∧
    (∀ F : List Node, ∀ (A B : List ANode) (fuel : Nat), fsize F ≤ fuel →
      allSome ((addrs A.length F).map fun c =>
        ((A ++ layoutL A.length F ++ B)[c]?).bind (toTree (A ++ layoutL A.length F ++ B) fuel))
        = some F) := by
  apply node_ind
  · intro l cs x i j ih A B fuel hf
    simp only [nsize] at hf
    obtain ⟨fuel, rfl⟩ : ∃ k, fuel = k + 1 := ⟨fuel - 1, by omega⟩
    have h := ih (A ++ [(⟨l, addrs (A.length + 1) cs, x, i, j⟩ : ANode)]) B fuel (by omega)
    simp only [List.length_append, List.length_singleton, List.append_assoc,
      List.singleton_append] at h
    simp only [layout, List.append_assoc, List.cons_append]
    rw [List.getElem?_append_right (le_refl _)]
    simp only [Nat.sub_self, List.getElem?_cons_zero, Option.some_bind, toTree]
    erw [h]
    rfl
  · intro A B fuel _
    simp [addrs, allSome]
  · intro c cs ih1 ih2 A B fuel hf
    simp only [fsize] at hf
    have h1 := ih1 A (layoutL (A.length + nsize c) cs ++ B) fuel (by omega)
    have h2 := ih2 (A ++ layout A.length c) B fuel (by omega)
    simp only [List.length_append, length_layout, List.append_assoc] at h1 h2
    simp only [addrs, layoutL, List.map_cons, List.append_assoc]
    rw [h1]
    simp only [allSome, h2, Option.map_some']

theorem toTree_root (cur : List Node) (l : Char) (x i j : Int) :
    toTree (layoutL 0 cur) (fsize cur + 1)
      { label := l, children := addrs 0 cur, index := x, i := i, j := j }
      = some (Node.mk l cur x i j) := by
  have h := toTree_layout_both.2 cur [] [] (fsize cur) (le_refl _)
  simp only [List.length_nil, List.nil_append, List.append_nil] at h
  simp only [toTree, h, Option.map_some']

end RNAted

namespace RNAted

/-! ## The steps of the parser -/

theorem GoodL_append (F G : List Node) (o : Int) :
    GoodL o (F ++ G) ↔ GoodL o F ∧ GoodL (o + (renderF F).length) G := by
  induction F generalizing o with
  | nil => simp [GoodL, renderF]
  | cons c cs ih =>
    show Good o c ∧ GoodL (o + (render c).length) (cs ++ G) ↔ _
    rw [ih]
    simp only [GoodL, renderF, List.length_append, Nat.cast_add, and_assoc, Int.add_assoc]

theorem renderZ_add (cur : List Node) (t : Node) (stack : List (Int × List Node)) :
    renderZ (cur ++ [t]) stack = renderZ cur stack ++ render t := by
  cases stack with
  | nil => simp [renderZ, renderF_append, renderF]
  | cons f rest =>
    obtain ⟨p, before⟩ := f
    simp [renderZ, renderF_append, renderF]

theorem GoodZ_add (cur : List Node) (t : Node) (stack : List (Int × List Node))
    (h : GoodZ cur stack) (ht : Good (renderZ cur stack).length t) :
    GoodZ (cur ++ [t]) stack := by
  cases stack with
  | nil =>
    simp only [GoodZ, renderZ] at h ht ⊢
    rw [GoodL_append]
    exact ⟨h, by simpa [GoodL] using ht⟩
  | cons f rest =>
    obtain ⟨p, before⟩ := f
    simp only [GoodZ, renderZ] at h ht ⊢
    refine ⟨h.1, h.2.1, ?_⟩
    rw [GoodL_append]
    refine ⟨h.2.2, ?_⟩
    simp only [GoodL, and_true]
    have e : ((renderZ before rest ++ '(' :: renderF cur).length : Int)
        = p + 1 + (renderF cur).length := by
      rw [h.2.1]; simp; omega
    rw [e] at ht
    exact ht

theorem stackZ_length (stack : List (Int × List Node)) : (stackZ stack).length = stack.length := by
  induction stack with
  | nil => rfl
  | cons f rest ih =>
    obtain ⟨p, before⟩ := f
    simp [stackZ, ih]

/-- The effect of attaching the node at address `n` to the innermost open node. -/
theorem attach_spec (st : PState) (cur : List Node) (stack : List (Int × List Node))
    (more : List ANode) (n : Nat) (len : Int)
    (hn : st.nodes = heapX cur [] stack ++ more)
    (hp : st.parent_stack = stackZ stack ++ [-1])
    (hr : st.root = { label := 'R', children := rootKids cur [] stack, index := -1, i := 0,
                      j := len - 1 }) :
    ∃ st2, attach st n = some st2 ∧ st2.nodes = heapX cur [n] stack ++ more ∧
      st2.root = { label := 'R', children := rootKids cur [n] stack, index := -1, i := 0,
                   j := len - 1 } ∧
      st2.stack = st.stack ∧ st2.parent_stack = st.parent_stack ∧
      st2.open_count = st.open_count ∧ st2.close_count = st.close_count := by
  cases stack with
  | nil =>
    simp only [stackZ, List.nil_append] at hp
    have hroot2 : ∃ root2 : ANode, root2 = { st.root with children := st.root.children ++ [n] } :=
      ⟨_, rfl⟩
    obtain ⟨root2, hroot2⟩ := hroot2
    refine ⟨{ st with root := root2 }, ?_, ?_, ?_, rfl, rfl, rfl, rfl⟩
    · unfold attach
      rw [hp, hroot2]
      simp
    · simpa [heapX] using hn
    · simp [hroot2, hr, rootKids]
  | cons f rest =>
    obtain ⟨p, before⟩ := f
    simp only [stackZ, List.cons_append] at hp
    have hcell := heapX_open cur [] p before rest more
    rw [← hn] at hcell
    have hne : ((zsize before rest : Nat) : Int) ≠ -1 := by omega
    obtain ⟨cell, hc⟩ : ∃ cell : ANode,
        cell = ⟨'P', addrs (zsize before rest + 1) cur ++ [] ++ [n], -1, p, -1⟩ := ⟨_, rfl⟩
    refine ⟨{ st with nodes := st.nodes.set (zsize before rest) cell },
      ?_, ?_, ?_, rfl, rfl, rfl, rfl⟩
    · unfold attach
      rw [hp]
      simp only [hne, if_false, geti_nat, hcell, Int.toNat_ofNat, hc]
    · simp only []
      rw [hn, heapX_set, hc]
      simp [heapX]
    · simp [hr, rootKids]

theorem count_append_one (w : List Char) (c d : Char) :
    (w ++ [c]).count d = w.count d + (if c = d then 1 else 0) := by
  rw [List.count_append]
  by_cases h : c = d
  · simp [h]
  · simp [h, List.count_cons]

/-- The parser on a dot. -/
theorem step_dot (len : Int) (st : PState) (cur : List Node) (stack : List (Int × List Node))
    (w : List Char) (inv : PInv len st cur stack w) :
    ∃ st2, parse_step st w.length '.' = .ok st2 ∧
      PInv len st2 (cur ++ [Node.mk 'U' [] (-1) w.length w.length]) stack (w ++ ['.']) := by
  have hlen : st.nodes.length = zsize cur stack := by rw [inv.nodes_eq, length_heapX]
  obtain ⟨st2, e1, e2, e3, e4, e5, e6, e7⟩ := attach_spec
    { st with nodes := st.nodes ++
      [({ label := 'U', children := [], index := -1, i := w.length, j := w.length } : ANode)] }
    cur stack [{ label := 'U', children := [], index := -1, i := w.length, j := w.length }]
    st.nodes.length len (by simp [inv.nodes_eq]) inv.pstack_eq inv.root_eq
  obtain ⟨a1, a2, a3⟩ := heapX_add cur (Node.mk 'U' [] (-1) w.length w.length) stack
  refine ⟨st2, ?_, ?_⟩
  · unfold parse_step
    simp only [if_true]
    rw [e1]
  · refine ⟨?_, ?_, ?_, ?_, ?_, ?_, ?_, ?_, ?_⟩
    · rw [e2, a1, hlen]
      simp [layout, layoutL, addrs]
    · rw [e3, a2, hlen]
    · rw [e4]; exact inv.stack_eq
    · rw [e5]; exact inv.pstack_eq
    · rw [e6, count_append_one]; simpa using inv.open_eq
    · rw [e7, count_append_one]; simpa using inv.close_eq
    · rw [count_append_one, count_append_one]; simpa using inv.depth_eq
    · rw [renderZ_add, inv.render_eq]; simp [render]
    · apply GoodZ_add _ _ _ inv.good
      rw [inv.render_eq]
      simp [Good]

/-- The parser on an opening bracket. -/
theorem step_open (len : Int) (st : PState) (cur : List Node) (stack : List (Int × List Node))
    (w : List Char) (inv : PInv len st cur stack w) :
    ∃ st2, parse_step st w.length '(' = .ok st2 ∧
      PInv len st2 [] ((w.length, cur) :: stack) (w ++ ['(']) := by
  have hlen : st.nodes.length = zsize cur stack := by rw [inv.nodes_eq, length_heapX]
  obtain ⟨st2, e1, e2, e3, e4, e5, e6, e7⟩ := attach_spec
    { st with open_count := st.open_count + 1, nodes := st.nodes ++
      [({ label := 'P', children := [], index := -1, i := w.length, j := -1 } : ANode)] }
    cur stack [{ label := 'P', children := [], index := -1, i := w.length, j := -1 }]
    st.nodes.length len (by simp [inv.nodes_eq]) inv.pstack_eq inv.root_eq
  refine ⟨{ st2 with stack := (st.nodes.length : Int) :: st2.stack,
                     parent_stack := (st.nodes.length : Int) :: st2.parent_stack }, ?_, ?_⟩
  · unfold parse_step
    rw [if_neg (by decide), if_pos rfl]
    simp only [e1]
  · refine ⟨?_, ?_, ?_, ?_, ?_, ?_, ?_, ?_, ?_⟩
    · simp only [e2, hlen, heapX, addrs, layoutL, List.append_nil]
    · simp only [e3, hlen, rootKids]
    · simp only [e4, hlen, stackZ, inv.stack_eq]
    · simp only [e5, hlen, stackZ, inv.pstack_eq, List.cons_append]
    · simp only [e6]
      rw [count_append_one, inv.open_eq]; simp
    · simp only [e7]
      rw [count_append_one, inv.close_eq]; simp
    · rw [count_append_one, count_append_one]
      have := inv.depth_eq
      simp
      omega
    · simp [renderZ, renderF, inv.render_eq]
    · simp only [GoodZ, GoodL, and_true]
      exact ⟨inv.good, by rw [inv.render_eq]⟩

/-- The parser on a closing bracket when no node is open. -/
theorem step_close_none (len : Int) (st : PState) (cur : List Node) (w : List Char)
    (inv : PInv len st cur [] w) :
    parse_step st w.length ')' = .error (.unmatched_closing w.length) := by
  unfold parse_step
  rw [if_neg (by decide), if_neg (by decide), if_pos rfl, inv.stack_eq]
  rfl

/-- The parser on a closing bracket when a node is open. -/
theorem step_close (len : Int) (st : PState) (cur : List Node) (p : Int) (before : List Node)
    (rest : List (Int × List Node)) (w : List Char)
    (inv : PInv len st cur ((p, before) :: rest) w) :
    ∃ st2, parse_step st w.length ')' = .ok st2 ∧
      PInv len st2 (before ++ [Node.mk 'P' cur (-1) p w.length]) rest (w ++ [')']) := by
  have hcell := heapX_open cur [] p before rest []
  rw [List.append_nil, ← inv.nodes_eq] at hcell
  obtain ⟨a1, a2, a3⟩ := heapX_add before (Node.mk 'P' cur (-1) p w.length) rest
  have hset := heapX_set cur [] p before rest []
    { label := 'P', children := addrs (zsize before rest + 1) cur ++ [], index := -1, i := p,
      j := w.length }
  rw [List.append_nil, ← inv.nodes_eq] at hset
  obtain ⟨cell, hc⟩ : ∃ cell : ANode,
      cell = ⟨'P', addrs (zsize before rest + 1) cur ++ [], -1, p, w.length⟩ := ⟨_, rfl⟩
  refine ⟨{ st with close_count := st.close_count + 1, stack := stackZ rest,
                    nodes := st.nodes.set (zsize before rest) cell,
                    parent_stack := st.parent_stack.tail }, ?_, ?_⟩
  · unfold parse_step
    rw [if_neg (by decide), if_neg (by decide), if_pos rfl, inv.stack_eq]
    simp only [stackZ, geti_nat, hcell, Int.toNat_ofNat, hc]
  · refine ⟨?_, ?_, ?_, ?_, ?_, ?_, ?_, ?_, ?_⟩
    · simp only []
      rw [hc, hset, a1]
      simp [layout]
    · simp only []
      rw [inv.root_eq, a2]
      simp [rootKids]
    · rfl
    · simp only [inv.pstack_eq, stackZ, List.cons_append, List.tail_cons]
    · simp only []
      rw [count_append_one, inv.open_eq]; simp
    · simp only []
      rw [count_append_one, inv.close_eq]; simp
    · rw [count_append_one, count_append_one]
      have := inv.depth_eq
      simp at this ⊢
      omega
    · rw [renderZ_add, ← inv.render_eq]
      simp [renderZ, render]
    · have hg := inv.good
      simp only [GoodZ] at hg
      apply GoodZ_add _ _ _ hg.1
      rw [← hg.2.1]
      simp only [Good, true_and]
      right
      refine ⟨?_, hg.2.2⟩
      rw [← inv.render_eq]
      simp only [renderZ, List.length_append, List.length_cons, Nat.cast_add, Nat.cast_succ]
      rw [hg.2.1]
      omega

/-- The parser on a character outside the alphabet. -/
theorem step_invalid (st : PState) (i : Int) (c : Char) (h1 : c ≠ '.') (h2 : c ≠ '(')
    (h3 : c ≠ ')') : parse_step st i c = .error (.invalid_character i) := by
  unfold parse_step
  rw [if_neg h1, if_neg h2, if_neg h3]

end RNAted

namespace RNAted

/-! ## The loop of the parser and its result -/

/-- The main loop of `parse_dot_bracket` on the rest `cs` of the input: it stops with an
error exactly when `scan` fails on `cs`, and otherwise ends in a state described by the
characters read. -/
theorem parse_loop_spec (len : Int) :
    ∀ (cs : List Char) (st : PState) (cur : List Node) (stack : List (Int × List Node))
      (w : List Char), PInv len st cur stack w →
      (scan cs stack.length = none →
        ∃ e k, parse_loop cs w.length st = .error e ∧
          (e = .unmatched_closing k ∨ e = .invalid_character k)) ∧
      (∀ d, scan cs stack.length = some d →
        ∃ st2 cur2 stack2, parse_loop cs w.length st = .ok st2 ∧
          PInv len st2 cur2 stack2 (w ++ cs) ∧ stack2.length = d) := by
  intro cs
  induction cs with
  | nil =>
    intro st cur stack w inv
    refine ⟨by simp [scan], ?_⟩
    intro d hd
    simp only [scan, Option.some.injEq] at hd
    exact ⟨st, cur, stack, rfl, by simpa using inv, hd⟩
  | cons c cs ih =>
    intro st cur stack w inv
    have hpos : ((w ++ [c]).length : Int) = (w.length : Int) + 1 := by simp
    have happ : w ++ c :: cs = (w ++ [c]) ++ cs := by simp
    by_cases h1 : c = '.'
    · subst h1
      obtain ⟨st2, e1, e2⟩ := step_dot len st cur stack w inv
      have := ih st2 _ stack (w ++ ['.']) e2
      rw [hpos] at this
      simp only [scan, if_true, parse_loop, e1, happ]
      exact this
    · by_cases h2 : c = '('
      · subst h2
        obtain ⟨st2, e1, e2⟩ := step_open len st cur stack w inv
        have := ih st2 _ _ (w ++ ['(']) e2
        rw [hpos] at this
        simp only [scan, if_neg h1, if_true, parse_loop, e1, happ]
        simpa using this
      · by_cases h3 : c = ')'
        · subst h3
          cases stack with
          | nil =>
            have e1 := step_close_none len st cur w inv
            simp only [scan, if_neg h1, if_neg h2, if_true, List.length_nil, parse_loop, e1]
            exact ⟨fun _ => ⟨_, _, rfl, Or.inl rfl⟩, by simp⟩
          | cons f rest =>
            obtain ⟨p, before⟩ := f
            obtain ⟨st2, e1, e2⟩ := step_close len st cur p before rest w inv
            have := ih st2 _ rest (w ++ [')']) e2
            rw [hpos] at this
            simp only [scan, if_neg h1, if_neg h2, if_true, parse_loop, e1, happ,
              List.length_cons]
            simpa using this
        · have e1 := step_invalid st w.length c h1 h2 h3
          simp only [scan, if_neg h1, if_neg h2, if_neg h3, parse_loop, e1]
          exact ⟨fun _ => ⟨_, _, rfl, Or.inr rfl⟩, by simp⟩

theorem pinv_init (len : Int) : PInv len (parse_init len) [] [] [] := by
  refine ⟨?_, ?_, ?_, ?_, ?_, ?_, ?_, ?_, ?_⟩ <;>
    simp [parse_init, heapX, layoutL, rootKids, addrs, stackZ, renderZ, renderF, GoodZ, GoodL]

theorem scan_depth (w : List Char) :
    ∀ d d2 : Nat, scan w d = some d2 → d2 + w.count ')' = d + w.count '(' := by
  induction w with
  | nil =>
    intro d d2 h
    simp only [scan, Option.some.injEq] at h
    simp [h]
  | cons c cs ih =>
    intro d d2 h
    simp only [scan] at h
    by_cases h1 : c = '.'
    · subst h1
      rw [if_pos rfl] at h
      have := ih d d2 h
      simp [List.count_cons] at this ⊢
      omega
    · rw [if_neg h1] at h
      by_cases h2 : c = '('
      · subst h2
        rw [if_pos rfl] at h
        have := ih (d + 1) d2 h
        simp [List.count_cons] at this ⊢
        omega
      · rw [if_neg h2] at h
        by_cases h3 : c = ')'
        · subst h3
          rw [if_pos rfl] at h
          by_cases hd : d = 0
          · rw [if_pos hd] at h; cases h
          · rw [if_neg hd] at h
            have := ih (d - 1) d2 h
            simp [List.count_cons] at this ⊢
            omega
        · rw [if_neg h3] at h; cases h

/-- The result of `parse_dot_bracket`: a tree when `scan` reads the string from depth 0
back to depth 0, and an error otherwise. -/
theorem parse_chars_spec (s : List Char) :
    (scan s 0 = some 0 →
      ∃ cur, parse_chars s = .ok (Node.mk 'R' cur (-1) 0 ((s.length : Int) - 1)) ∧
        GoodL 0 cur ∧ renderF cur = s) ∧
    (scan s 0 ≠ some 0 →
      ∃ e, parse_chars s = .error e ∧
        ((∃ k, e = .unmatched_closing k ∨ e = .invalid_character k) ∨ e = .unbalanced)) := by
  have H := parse_loop_spec s.length s (parse_init s.length) [] [] [] (pinv_init _)
  simp only [List.length_nil, Nat.cast_zero, List.nil_append] at H
  obtain ⟨H1, H2⟩ := H
  constructor
  · intro h
    obtain ⟨st2, cur, stack, e1, inv, e3⟩ := H2 0 h
    have hs : stack = [] := List.length_eq_zero.1 e3
    subst hs
    refine ⟨cur, ?_, by simpa [GoodZ] using inv.good, by simpa [renderZ] using inv.render_eq⟩
    unfold parse_chars
    rw [e1]
    simp only []
    have hoc : st2.open_count = st2.close_count := by
      rw [inv.open_eq, inv.close_eq]
      have := inv.depth_eq
      simp at this
      omega
    rw [if_neg (by simp [hoc]), if_neg (by simp [inv.stack_eq, stackZ])]
    have hn : st2.nodes = layoutL 0 cur := by simpa [heapX] using inv.nodes_eq
    have hr := inv.root_eq
    simp only [rootKids, List.append_nil] at hr
    rw [hn, hr, length_layoutL, toTree_root]
  · intro h
    cases hsc : scan s 0 with
    | none =>
      obtain ⟨e, k, e1, e2⟩ := H1 hsc
      refine ⟨e, ?_, Or.inl ⟨k, e2⟩⟩
      unfold parse_chars
      rw [e1]
    | some d =>
      obtain ⟨st2, cur, stack, e1, inv, e3⟩ := H2 d hsc
      have hd : d ≠ 0 := by
        intro hd
        rw [hd] at hsc
        exact h hsc
      refine ⟨.unbalanced, ?_, Or.inr rfl⟩
      unfold parse_chars
      rw [e1]
      simp only []
      have hoc : st2.open_count ≠ st2.close_count := by
        rw [inv.open_eq, inv.close_eq]
        have := inv.depth_eq
        omega
      rw [if_pos hoc]

/-- The nodes of a forest of 'U' leaves and 'P' nodes are as many as the dots and
opening brackets it is written with. -/
theorem good_size_both :
    (∀ t : Node, ∀ o : Int, Good o t →
      nsize t = (render t).count '.' + (render t).count '(' ∧
      (render t).count '(' = (render t).count ')') ∧
    (∀ F : List Node, ∀ o : Int, GoodL o F →
      fsize F = (renderF F).count '.' + (renderF F).count '(' ∧
      (renderF F).count '(' = (renderF F).count ')') := by
  apply node_ind
  · intro l cs x i j ih o h
    simp only [Good] at h
    rcases h.2.2 with ⟨h1, h2, _⟩ | ⟨h1, _, h3⟩
    · subst h1 h2
      simp [nsize, fsize, render]
    · subst h1
      obtain ⟨g1, g2⟩ := ih _ h3
      simp only [nsize, render]
      simp [List.count_cons, List.count_append, g1, g2]
      omega
  · intro o _
    simp [fsize, renderF]
  · intro c cs ih1 ih2 o h
    simp only [GoodL] at h
    obtain ⟨g1, g2⟩ := ih1 _ h.1
    obtain ⟨f1, f2⟩ := ih2 _ h.2
    simp only [fsize, renderF, List.count_append]
    omega

end RNAted

namespace RNAted

/-! ## Strings that `scan` accepts -/

theorem scan_append (A B : List Char) :
    ∀ d : Nat, scan (A ++ B) d = (scan A d).bind fun d2 => scan B d2 := by
  induction A with
  | nil => intro d; simp [scan]
  | cons c cs ih =>
    intro d
    rw [List.cons_append]
    by_cases h1 : c = '.'
    · subst h1
      simp [scan, ih]
    · by_cases h2 : c = '('
      · subst h2
        simp [scan, ih]
      · by_cases h3 : c = ')'
        · subst h3
          by_cases hd : d = 0
          · simp [scan, hd]
          · simp [scan, hd, ih]
        · simp [scan, h1, h2, h3]

/-- When `scan` fails: on a character outside the alphabet, or on a ')' that has no
open '(' before it. -/
theorem scan_none_iff (w : List Char) :
    ∀ d : Nat, scan w d = none ↔
      ((∃ c ∈ w, c ≠ '.' ∧ c ≠ '(' ∧ c ≠ ')') ∨
       (∃ k, w[k]? = some ')' ∧ d + (w.take k).count '(' ≤ (w.take k).count ')')) := by
  induction w with
  | nil => intro d; simp [scan]
  | cons c cs ih =>
    intro d
    have key : ∀ (d2 : Nat) (a b : Nat), (c = '(' → a = 1) → (c ≠ '(' → a = 0) →
        (c = ')' → b = 1) → (c ≠ ')' → b = 0) → d + a = d2 + b → ¬ (c = ')' ∧ d = 0) →
        ((∃ k, (c :: cs)[k]? = some ')' ∧
            d + ((c :: cs).take k).count '(' ≤ ((c :: cs).take k).count ')') ↔
          (∃ k, cs[k]? = some ')' ∧ d2 + (cs.take k).count '(' ≤ (cs.take k).count ')')) := by
      intro d2 a b ha1 ha0 hb1 hb0 hab hnz
      constructor
      · rintro ⟨k, hk1, hk2⟩
        cases k with
        | zero =>
          simp only [List.getElem?_cons_zero, Option.some.injEq] at hk1
          simp only [List.take_zero, List.count_nil] at hk2
          exact absurd ⟨hk1, by omega⟩ hnz
        | succ k =>
          refine ⟨k, by simpa using hk1, ?_⟩
          simp only [List.take_succ_cons, List.count_cons] at hk2
          by_cases e1 : c = '('
          · have e2 : c ≠ ')' := by rw [e1]; decide
            have := ha1 e1; have := hb0 e2
            simp [e1] at hk2
            omega
          · by_cases e2 : c = ')'
            · have := ha0 e1; have := hb1 e2
              simp [e2] at hk2
              omega
            · have := ha0 e1; have := hb0 e2
              simp [e1, e2] at hk2
              omega
      · rintro ⟨k, hk1, hk2⟩
        refine ⟨k + 1, by simpa using hk1, ?_⟩
        simp only [List.take_succ_cons, List.count_cons]
        by_cases e1 : c = '('
        · have e2 : c ≠ ')' := by rw [e1]; decide
          have := ha1 e1; have := hb0 e2
          simp [e1]
          omega
        · by_cases e2 : c = ')'
          · have := ha0 e1; have := hb1 e2
            simp [e2]
            omega
          · have := ha0 e1; have := hb0 e2
            simp [e1, e2]
            omega
    simp only [scan]
    by_cases h1 : c = '.'
    · rw [if_pos h1, ih d]
      have hk := key d 0 0 (by rw [h1]; decide) (fun _ => rfl) (by rw [h1]; decide)
        (fun _ => rfl) rfl (by rw [h1]; simp)
      rw [hk]
      simp [h1]
    · rw [if_neg h1]
      by_cases h2 : c = '('
      · rw [if_pos h2, ih (d + 1)]
        have hk := key (d + 1) 1 0 (fun _ => rfl) (fun h => absurd h2 h) (by rw [h2]; decide)
          (fun _ => rfl) rfl (by rw [h2]; simp)
        rw [hk]
        simp [h2]
      · rw [if_neg h2]
        by_cases h3 : c = ')'
        · rw [if_pos h3]
          by_cases hd : d = 0
          · rw [if_pos hd]
            simp only [true_iff]
            right
            exact ⟨0, by simp [h3], by simp [hd]⟩
          · rw [if_neg hd, ih (d - 1)]
            have hk := key (d - 1) 0 1 (fun h => absurd h h2) (fun _ => rfl) (fun _ => rfl)
              (fun h => absurd h3 h) (by omega) (by simp [hd])
            rw [hk]
            simp [h3]
        · rw [if_neg h3]
          simp only [true_iff]
          left
          exact ⟨c, by simp, h1, h2, h3⟩

/-- When `parse_dot_bracket` succeeds, in terms of the characters of the string. -/
theorem scan_ok_iff (w : List Char) :
    scan w 0 = some 0 ↔
      ¬ ((∃ c ∈ w, c ≠ '.' ∧ c ≠ '(' ∧ c ≠ ')') ∨
         (∃ k, w[k]? = some ')' ∧ (w.take k).count '(' ≤ (w.take k).count ')') ∨
         w.count '(' ≠ w.count ')') := by
  have hn := scan_none_iff w 0
  simp only [Nat.zero_add] at hn
  constructor
  · intro h
    rintro (h1 | h2 | h3)
    · have := hn.2 (Or.inl h1)
      rw [h] at this; cases this
    · have := hn.2 (Or.inr h2)
      rw [h] at this; cases this
    · have := scan_depth w 0 0 h
      omega
  · intro h
    push_neg at h
    cases hs : scan w 0 with
    | none =>
      rcases hn.1 hs with h1 | h2
      · obtain ⟨c, hc, e1, e2, e3⟩ := h1
        exact absurd e3 (by simpa using h.1 c hc e1 e2)
      · obtain ⟨k, e1, e2⟩ := h2
        have := h.2.1 k e1
        omega
    | some d =>
      have := scan_depth w 0 d hs
      have := h.2.2
      congr 1
      omega

/-- Reading a written-out forest leaves the depth as it was. -/
theorem scan_render_both :
    (∀ t : Node, ∀ o : Int, Good o t → ∀ (rest : List Char) (d : Nat),
      scan (render t ++ rest) d = scan rest d) ∧
    (∀ F : List Node, ∀ o : Int, GoodL o F → ∀ (rest : List Char) (d : Nat),
      scan (renderF F ++ rest) d = scan rest d) := by
  apply node_ind
  · intro l cs x i j ih o h rest d
    simp only [Good] at h
    rcases h.2.2 with ⟨h1, _, _⟩ | ⟨h1, _, h3⟩
    · subst h1
      simp [render, scan]
    · subst h1
      have := ih _ h3 (')' :: rest) (d + 1)
      simp only [render]
      simp [scan, this]
  · intro o _ rest d
    simp [renderF]
  · intro c cs ih1 ih2 o h rest d
    simp only [GoodL] at h
    simp only [renderF, List.append_assoc]
    rw [ih1 _ h.1, ih2 _ h.2]

/-- Two closing brackets that match the same opening bracket are the same. -/
theorem matching_unique (s : List Char) (i j j2 : Nat) (h1 : matching s i j)
    (h2 : matching s i j2) : j = j2 := by
  have key : ∀ a b : Nat, matching s i a → matching s i b → ¬ a < b := by
    intro a b ha hb hab
    obtain ⟨_, a2, a3, a4⟩ := ha
    obtain ⟨_, _, b3, b4⟩ := hb
    have hsplit : (s.drop (i + 1)).take (b - i - 1)
        = (s.drop (i + 1)).take (a - i - 1) ++ ')' ::
            ((s.drop (i + 1)).drop (a - i - 1 + 1)).take (b - i - 1 - (a - i - 1 + 1)) := by
      have e1 : b - i - 1 = (a - i - 1 + 1) + (b - i - 1 - (a - i - 1 + 1)) := by omega
      have hget : (s.drop (i + 1))[a - i - 1]? = some ')' := by
        rw [List.getElem?_drop]
        have : i + 1 + (a - i - 1) = a := by omega
        rw [this]; exact a2
      conv_lhs => rw [e1, List.take_add, List.take_succ, hget]
      simp
    rw [hsplit, scan_append, a4] at b4
    simp [scan] at b4
  rcases Nat.lt_trichotomy j j2 with h | h | h
  · exact absurd h (key j j2 h1 h2)
  · exact h
  · exact absurd h (key j2 j h2 h1)

end RNAted

namespace RNAted

/-! ## The nodes of a parsed tree and the characters of the string -/

theorem good_fields (o : Int) (u : Node) (h : Good o u) :
    u.index = -1 ∧ u.i = o ∧
      ((u.label = 'U' ∧ u.children = [] ∧ u.j = o ∧ render u = ['.']) ∨
       (u.label = 'P' ∧ u.j = o + 1 + (renderF u.children).length ∧ GoodL (o + 1) u.children ∧
         render u = '(' :: (renderF u.children ++ [')']))) := by
  obtain ⟨l, cs, x, i, j⟩ := u
  simp only [Good] at h
  refine ⟨h.1, h.2.1, ?_⟩
  rcases h.2.2 with ⟨h1, h2, h3⟩ | ⟨h1, h2, h3⟩
  · left
    subst h1
    exact ⟨rfl, h2, h3, by simp [render]⟩
  · right
    subst h1
    exact ⟨rfl, h2, h3, by simp [render, Node.children]⟩

/-- Every node of a forest written out from position `o` on is written out, as a tree
of its own, from its position `i` on. -/
theorem good_sub_both :
    (∀ t : Node, ∀ o : Int, Good o t → ∀ u ∈ po t,
      ∃ A B : List Char, render t = A ++ render u ++ B ∧ Good (o + A.length) u) ∧
    (∀ F : List Node, ∀ o : Int, GoodL o F → ∀ u ∈ poF F,
      ∃ A B : List Char, renderF F = A ++ render u ++ B ∧ Good (o + A.length) u) := by
  apply node_ind
  · intro l cs x i j ih o h u hu
    simp only [po, List.mem_append, List.mem_singleton] at hu
    rcases hu with hu | hu
    · have h0 := h
      simp only [Good] at h
      rcases h.2.2 with ⟨_, h2, _⟩ | ⟨h1, _, h3⟩
      · subst h2
        simp [poF] at hu
      · subst h1
        obtain ⟨A, B, e, g⟩ := ih _ h3 u hu
        refine ⟨'(' :: A, B ++ [')'], ?_, ?_⟩
        · simp [render, e]
        · have : o + ((('(' :: A).length : Nat) : Int) = o + 1 + (A.length : Int) := by
            simp only [List.length_cons, Nat.cast_add, Nat.cast_one]; ring
          rw [this]; exact g
    · subst hu
      exact ⟨[], [], by simp, by simpa using h⟩
  · intro o _ u hu
    simp [poF] at hu
  · intro c cs ih1 ih2 o h u hu
    simp only [GoodL] at h
    simp only [poF, List.mem_append] at hu
    rcases hu with hu | hu
    · obtain ⟨A, B, e, g⟩ := ih1 _ h.1 u hu
      exact ⟨A, B ++ renderF cs, by simp [renderF, e], g⟩
    · obtain ⟨A, B, e, g⟩ := ih2 _ h.2 u hu
      refine ⟨render c ++ A, B, by simp [renderF, e], ?_⟩
      have : o + (((render c ++ A).length : Nat) : Int)
          = o + ((render c).length : Int) + (A.length : Int) := by
        simp only [List.length_append, Nat.cast_add]; ring
      rw [this]; exact g

theorem good_pos_ge (F : List Node) (o : Int) (h : GoodL o F) (u : Node) (hu : u ∈ poF F) :
    o ≤ u.i := by
  obtain ⟨A, B, _, g⟩ := good_sub_both.2 F o h u hu
  have := (good_fields _ _ g).2.1
  omega

theorem filter_length_zero {α : Type} (p : α → Bool) (l : List α)
    (h : ∀ u ∈ l, p u = false) : (l.filter p).length = 0 := by
  rw [List.length_eq_zero, List.filter_eq_nil_iff]
  intro u hu
  simp [h u hu]

/-- The number of 'P' nodes at position `o + k`: one when the character there is an
opening bracket, none otherwise. -/
theorem good_count_both :
    (∀ t : Node, ∀ o : Int, Good o t → ∀ k : Nat,
      ((po t).filter fun u => decide (u.label = 'P' ∧ u.i = o + (k : Int))).length
        = if (render t)[k]? = some '(' then 1 else 0) ∧
    (∀ F : List Node, ∀ o : Int, GoodL o F → ∀ k : Nat,
      ((poF F).filter fun u => decide (u.label = 'P' ∧ u.i = o + (k : Int))).length
        = if (renderF F)[k]? = some '(' then 1 else 0) := by
  apply node_ind
  · intro l cs x i j ih o h k
    have hf := good_fields _ _ h
    simp only [Node.label, Node.children, Node.i, Node.j] at hf
    obtain ⟨_, hi, hc⟩ := hf
    subst hi
    simp only [po, List.filter_append, List.length_append]
    rcases hc with ⟨h1, h2, _, h4⟩ | ⟨h1, _, h3, h4⟩
    · subst h1 h2
      rw [h4]
      have : (['.'] : List Char)[k]? ≠ some '(' := by
        cases k with
        | zero => simp
        | succ k => simp
      rw [if_neg this]
      simp [poF, Node.label]
    · subst h1
      rw [h4]
      cases k with
      | zero =>
        have hz : ((poF cs).filter fun u => decide (u.label = 'P' ∧ u.i = i + ((0 : Nat) : Int))).length
            = 0 := by
          apply filter_length_zero
          intro u hu
          have := good_pos_ge cs (i + 1) h3 u hu
          simp only [decide_eq_false_iff_not, not_and]
          intro _
          simp only [Nat.cast_zero]
          omega
        rw [hz]
        simp [Node.label, Node.i]
      | succ k =>
        have e : ∀ u : Node, decide (u.label = 'P' ∧ u.i = i + ((k + 1 : Nat) : Int))
            = decide (u.label = 'P' ∧ u.i = i + 1 + (k : Int)) := by
          intro u
          congr 1
          simp only [Nat.cast_add, Nat.cast_one, eq_iff_iff]
          constructor <;> rintro ⟨a, b⟩ <;> exact ⟨a, by omega⟩
        simp only [e]
        rw [ih _ h3 k]
        have hself : ([Node.mk 'P' cs x i j].filter
            fun u => decide (u.label = 'P' ∧ u.i = i + 1 + (k : Int))).length = 0 := by
          apply filter_length_zero
          intro u hu
          rw [List.mem_singleton] at hu
          subst hu
          simp only [Node.i, decide_eq_false_iff_not, not_and]
          intro _
          omega
        rw [hself, Nat.add_zero]
        simp only [List.getElem?_cons_succ]
        by_cases hk : k < (renderF cs).length
        · simp only [List.getElem?_append_left hk]
        · have hn : (renderF cs)[k]? = none := List.getElem?_eq_none (by omega)
          have hr : (renderF cs ++ [')'])[k]? = ([')'] : List Char)[k - (renderF cs).length]? :=
            List.getElem?_append_right (by omega)
          have : ([')'] : List Char)[k - (renderF cs).length]? ≠ some '(' := by
            cases (k - (renderF cs).length) with
            | zero => simp
            | succ q => simp
          simp only [hn, hr, if_neg this]
          simp
  · intro o _ k
    simp [poF, renderF]
  · intro c cs ih1 ih2 o h k
    simp only [GoodL] at h
    simp only [poF, renderF, List.filter_append, List.length_append]
    rw [ih1 _ h.1 k]
    by_cases hk : k < (render c).length
    · have hz : ((poF cs).filter fun u => decide (u.label = 'P' ∧ u.i = o + (k : Int))).length
          = 0 := by
        apply filter_length_zero
        intro u hu
        have := good_pos_ge cs _ h.2 u hu
        simp only [decide_eq_false_iff_not, not_and]
        intro _
        omega
      have hr : (render c ++ renderF cs)[k]? = (render c)[k]? := List.getElem?_append_left hk
      simp only [hz, hr, Nat.add_zero]
    · have hn : (render c)[k]? = none := List.getElem?_eq_none (by omega)
      have hr : (render c ++ renderF cs)[k]? = (renderF cs)[k - (render c).length]? :=
        List.getElem?_append_right (by omega)
      simp only [hn, hr]
      have e : ∀ u : Node, decide (u.label = 'P' ∧ u.i = o + (k : Int))
          = decide (u.label = 'P' ∧
              u.i = o + ((render c).length : Int) + ((k - (render c).length : Nat) : Int)) := by
        intro u
        congr 1
        simp only [eq_iff_iff]
        constructor <;> rintro ⟨a, b⟩ <;> exact ⟨a, by omega⟩
      simp only [e]
      rw [ih2 _ h.2 (k - (render c).length)]
      simp

/-- The 'P' nodes of a forest are as many as the opening brackets it is written with. -/
theorem good_pairs_both :
    (∀ t : Node, ∀ o : Int, Good o t →
      ((po t).filter fun u => decide (u.label = 'P')).length = (render t).count '(') ∧
    (∀ F : List Node, ∀ o : Int, GoodL o F →
      ((poF F).filter fun u => decide (u.label = 'P')).length = (renderF F).count '(') := by
  apply node_ind
  · intro l cs x i j ih o h
    have hf := good_fields _ _ h
    simp only [Node.label, Node.children, Node.i, Node.j] at hf
    obtain ⟨_, _, hc⟩ := hf
    simp only [po, List.filter_append, List.length_append]
    rcases hc with ⟨h1, h2, _, h4⟩ | ⟨h1, _, h3, h4⟩
    · subst h1 h2
      rw [h4]
      simp [poF, Node.label]
    · subst h1
      rw [h4, ih _ h3]
      simp [Node.label, List.count_cons, List.count_append]
  · intro o _
    simp [poF, renderF]
  · intro c cs ih1 ih2 o h
    simp only [GoodL] at h
    simp only [poF, renderF, List.filter_append, List.length_append, List.count_append]
    rw [ih1 _ h.1, ih2 _ h.2]

/-- The labels of the nodes of a forest of 'U' leaves and 'P' nodes. -/
theorem good_labels (F : List Node) (o : Int) (h : GoodL o F) (u : Node) (hu : u ∈ poF F) :
    (u.label = 'U' ∧ u.children = []) ∨ u.label = 'P' := by
  obtain ⟨A, B, _, g⟩ := good_sub_both.2 F o h u hu
  rcases (good_fields _ _ g).2.2 with ⟨h1, h2, _⟩ | ⟨h1, _⟩
  · exact Or.inl ⟨h1, h2⟩
  · exact Or.inr h1

/-- A 'P' node of a forest written out as `s` from position 0 on: its fields `i` and
`j` are the positions of an opening bracket of `s` and of the closing bracket that
matches it, and its children are written between the two. -/
theorem good_pair_span (F : List Node) (h : GoodL 0 F) (u : Node) (hu : u ∈ poF F)
    (hl : u.label = 'P') :
    ∃ i j : Nat, u.i = (i : Int) ∧ u.j = (j : Int) ∧ matching (renderF F) i j ∧
      ((renderF F).drop (i + 1)).take (j - i - 1) = renderF u.children := by
  obtain ⟨A, B, e, g⟩ := good_sub_both.2 F 0 h u hu
  obtain ⟨_, hi, hc⟩ := good_fields _ _ g
  rcases hc with ⟨h1, _⟩ | ⟨_, hj, hg, hr⟩
  · rw [hl] at h1
    exact absurd h1 (by decide)
  · rw [hr] at e
    have hsub : ((renderF F).drop (A.length + 1)).take
        (A.length + 1 + (renderF u.children).length - A.length - 1) = renderF u.children := by
      rw [e]
      have e1 : A ++ '(' :: (renderF u.children ++ [')']) ++ B
          = (A ++ ['(']) ++ (renderF u.children ++ (')' :: B)) := by simp
      have e2 : A.length + 1 = (A ++ ['(']).length := by simp
      rw [e1, e2, List.drop_left]
      have e3 : (A ++ ['(']).length + (renderF u.children).length - A.length - 1
          = (renderF u.children).length := by
        simp only [List.length_append, List.length_singleton]; omega
      rw [e3, List.take_left]
    refine ⟨A.length, A.length + 1 + (renderF u.children).length, by omega, by omega, ?_, hsub⟩
    refine ⟨?_, ?_, by omega, ?_⟩
    · rw [e, List.append_assoc, List.getElem?_append_right (le_refl _)]
      simp
    · rw [e]
      have e1 : A ++ '(' :: (renderF u.children ++ [')']) ++ B
          = (A ++ '(' :: renderF u.children) ++ (')' :: B) := by simp
      have e2 : A.length + 1 + (renderF u.children).length
          = (A ++ '(' :: renderF u.children).length := by
        simp only [List.length_append, List.length_cons]; omega
      rw [e1, e2, List.getElem?_append_right (le_refl _)]
      simp
    · rw [hsub]
      have := scan_render_both.2 _ _ hg [] 0
      simpa [scan] using this

end RNAted

namespace RNAted

/-! ## The result of the parser -/

/-- The tree that `parse_dot_bracket` returns. -/
theorem parse_ok_inv (s : String) (t : Node) (h : parse_dot_bracket s = .ok t) :
    scan s.toList 0 = some 0 ∧
      ∃ cur, t = Node.mk 'R' cur (-1) 0 ((s.toList.length : Int) - 1) ∧
        GoodL 0 cur ∧ renderF cur = s.toList := by
  unfold parse_dot_bracket at h
  obtain ⟨H1, H2⟩ := parse_chars_spec s.toList
  by_cases hs : scan s.toList 0 = some 0
  · obtain ⟨cur, e, g, r⟩ := H1 hs
    rw [h] at e
    exact ⟨hs, cur, Except.ok.inj e, g, r⟩
  · obtain ⟨e, he, _⟩ := H2 hs
    rw [h] at he
    cases he

/-- Which strings `parse_dot_bracket` accepts. -/
theorem parse_ok_iff (s : String) :
    (∃ t, parse_dot_bracket s = .ok t) ↔ scan s.toList 0 = some 0 := by
  constructor
  · rintro ⟨t, h⟩
    exact (parse_ok_inv s t h).1
  · intro h
    obtain ⟨cur, e, _⟩ := (parse_chars_spec s.toList).1 h
    exact ⟨_, e⟩

/-- Which strings `parse_dot_bracket` rejects. -/
theorem parse_error_iff (s : String) :
    (∃ e, parse_dot_bracket s = .error e) ↔ scan s.toList 0 ≠ some 0 := by
  constructor
  · rintro ⟨e, h⟩ hs
    obtain ⟨t, ht⟩ := (parse_ok_iff s).2 hs
    rw [h] at ht
    cases ht
  · intro h
    obtain ⟨e, he, _⟩ := (parse_chars_spec s.toList).2 h
    exact ⟨e, he⟩

/-- The number of nodes of the tree that `parse_dot_bracket` returns. -/
theorem parse_size (s : String) (t : Node) (h : parse_dot_bracket s = .ok t) :
    nsize t = 1 + s.toList.count '.' + s.toList.count '(' := by
  obtain ⟨_, cur, e, g, r⟩ := parse_ok_inv s t h
  subst e
  have := (good_size_both.2 cur 0 g).1
  rw [r] at this
  simp only [nsize, this]
  omega

theorem scan_replicate_dot (n : Nat) : ∀ d : Nat, scan (List.replicate n '.') d = some d := by
  induction n with
  | zero => intro d; simp [scan]
  | succ n ih => intro d; simp [List.replicate_succ, scan, ih]

/-- The tree of a line of `n` dots has `n + 1` nodes. -/
theorem dots_size (n : Nat) (t : Node)
    (h : parse_dot_bracket (String.mk (List.replicate n '.')) = .ok t) : nsize t = n + 1 := by
  have hs : nsize t = 1 + (List.replicate n '.').count '.'
      + (List.replicate n '.').count '(' := parse_size _ t h
  have c1 : (List.replicate n '.').count '.' = n := List.count_replicate_self _ _
  have c2 : (List.replicate n '.').count '(' = 0 :=
    List.count_eq_zero.2 fun hm => absurd (List.eq_of_mem_replicate hm) (by decide)
  rw [hs, c1, c2]
  omega

end RNAted

namespace RNAted

/-! ## Distance zero -/

/-- Two forests at distance 0 are the same forest. -/
theorem dist_eq_zero (F G : List LTree) : dist F G = 0 → F = G := by
  induction F, G using dist.induct with
  | case1 => intro _; rfl
  | case2 a cs F ih =>
    intro h
    rw [dist] at h
    have := dist_nonneg (cs.reverse ++ F) []
    have := cost_delete_pos a
    omega
  | case3 b ds G ih =>
    intro h
    rw [dist] at h
    have := dist_nonneg [] (ds.reverse ++ G)
    have := cost_insert_pos b
    omega
  | case4 a cs F b ds G ih1 ih2 ih3 ih4 =>
    intro h
    rw [dist] at h
    have n1 := dist_nonneg (cs.reverse ++ F) (LTree.mk b ds :: G)
    have n2 := dist_nonneg (LTree.mk a cs :: F) (ds.reverse ++ G)
    have n3 := dist_nonneg F G
    have n4 := dist_nonneg cs.reverse ds.reverse
    have c1 := cost_delete_pos a
    have c2 := cost_insert_pos b
    have c3 := cost_relabel_nonneg a b
    have h3 : dist F G + dist cs.reverse ds.reverse + cost_relabel a b = 0 := by
      rcases min_cases (dist (cs.reverse ++ F) (LTree.mk b ds :: G) + cost_delete a)
        (min (dist (LTree.mk a cs :: F) (ds.reverse ++ G) + cost_insert b)
          (dist F G + dist cs.reverse ds.reverse + cost_relabel a b)) with e | e
      · rw [e] at h; omega
      · rw [e] at h
        rcases min_cases (dist (LTree.mk a cs :: F) (ds.reverse ++ G) + cost_insert b)
          (dist F G + dist cs.reverse ds.reverse + cost_relabel a b) with e2 | e2
        · rw [e2] at h; omega
        · rw [e2] at h; exact h
    have e1 : F = G := ih3 (by omega)
    have e2 : cs.reverse = ds.reverse := ih4 (by omega)
    have e3 : a = b := by
      by_contra hne
      have : cost_relabel a b = 1 := by simp [cost_relabel, hne]
      omega
    rw [e1, e3, List.reverse_injective e2]

/-- Trees with the same labels and shape are written out alike. -/
theorem render_shape_both :
    (∀ t t2 : Node, shape t = shape t2 → render t = render t2) ∧
    (∀ F F2 : List Node, shapes F = shapes F2 → renderF F = renderF F2) := by
  apply node_ind
  · intro l cs x i j ih t2 h
    obtain ⟨l2, cs2, x2, i2, j2⟩ := t2
    simp only [shape, LTree.mk.injEq] at h
    obtain ⟨h1, h2⟩ := h
    subst h1
    simp only [render, ih cs2 h2]
  · intro F2 h
    cases F2 with
    | nil => rfl
    | cons c cs => simp [shapes] at h
  · intro c cs ih1 ih2 F2 h
    cases F2 with
    | nil => simp [shapes] at h
    | cons c2 cs2 =>
      simp only [shapes, List.cons.injEq] at h
      simp only [renderF, ih1 c2 h.1, ih2 cs2 h.2]

/-! ## The writes into the two index stacks of the parser -/

/-- Every assignment of the main loop to an entry of `stack` or `parent_stack` is made
on an opening bracket, at the number `d` of brackets open before it (`stack[d]`) and at
`d + 1` (`parent_stack[d + 1]`). -/
theorem loop_writes_spec (len : Int) :
    ∀ (cs : List Char) (st : PState) (cur : List Node) (stack : List (Int × List Node))
      (w : List Char), PInv len st cur stack w →
      ∀ wr ∈ loop_writes cs w.length st,
        ∃ (pre post : List Char) (d : Nat), cs = pre ++ '(' :: post ∧
          d + (w ++ pre).count ')' = (w ++ pre).count '(' ∧
          (wr = StackWrite.stack d ∨ wr = StackWrite.parent_stack (d + 1)) := by
  intro cs
  induction cs with
  | nil =>
    intro st cur stack w inv wr hwr
    simp [loop_writes] at hwr
  | cons c cs ih =>
    intro st cur stack w inv wr hwr
    have hpos : ((w ++ [c]).length : Int) = (w.length : Int) + 1 := by simp
    have tail : ∀ st2 cur2 stack2, PInv len st2 cur2 stack2 (w ++ [c]) →
        wr ∈ loop_writes cs ((w.length : Int) + 1) st2 →
        ∃ (pre post : List Char) (d : Nat), c :: cs = pre ++ '(' :: post ∧
          d + (w ++ pre).count ')' = (w ++ pre).count '(' ∧
          (wr = StackWrite.stack d ∨ wr = StackWrite.parent_stack (d + 1)) := by
      intro st2 cur2 stack2 inv2 h2
      rw [← hpos] at h2
      obtain ⟨pre, post, d, e1, e2, e3⟩ := ih st2 cur2 stack2 (w ++ [c]) inv2 wr h2
      refine ⟨c :: pre, post, d, by rw [e1]; rfl, ?_, e3⟩
      simpa using e2
    by_cases h1 : c = '.'
    · subst h1
      obtain ⟨st2, e1, e2⟩ := step_dot len st cur stack w inv
      simp only [loop_writes, e1] at hwr
      rw [if_neg (by decide), List.nil_append] at hwr
      exact tail st2 _ _ e2 hwr
    · by_cases h2 : c = '('
      · subst h2
        obtain ⟨st2, e1, e2⟩ := step_open len st cur stack w inv
        simp only [loop_writes, e1, if_true] at hwr
        simp only [List.cons_append, List.nil_append, List.mem_cons] at hwr
        have hd := inv.depth_eq
        have hs : st.stack.length = stack.length := by rw [inv.stack_eq, stackZ_length]
        have hp : st.parent_stack.length = stack.length + 1 := by
          rw [inv.pstack_eq, List.length_append, stackZ_length]; rfl
        rcases hwr with h | h | h
        · exact ⟨[], cs, stack.length, rfl, by simpa using hd, Or.inl (by rw [h, hs])⟩
        · refine ⟨[], cs, stack.length, rfl, by simpa using hd, Or.inr ?_⟩
          rw [h, hp]
          simp
        · exact tail st2 _ _ e2 h
      · by_cases h3 : c = ')'
        · subst h3
          cases stack with
          | nil =>
            have e1 := step_close_none len st cur w inv
            simp [loop_writes, e1] at hwr
          | cons f rest =>
            obtain ⟨p, before⟩ := f
            obtain ⟨st2, e1, e2⟩ := step_close len st cur p before rest w inv
            simp only [loop_writes, e1] at hwr
            rw [if_neg (by decide), List.nil_append] at hwr
            exact tail st2 _ _ e2 hwr
        · have e1 := step_invalid st w.length c h1 h2 h3
          simp [loop_writes, e1] at hwr

/-- On a run of `n + 1` opening brackets the main loop assigns `parent_stack[d + n + 1]`,
where `d` is the number of brackets open before the run. -/
theorem loop_writes_open (len : Int) :
    ∀ (n : Nat) (st : PState) (cur : List Node) (stack : List (Int × List Node))
      (w : List Char), PInv len st cur stack w →
      StackWrite.parent_stack ((stack.length + n + 1 : Nat) : Int)
        ∈ loop_writes (List.replicate (n + 1) '(') w.length st := by
  intro n
  induction n with
  | zero =>
    intro st cur stack w inv
    obtain ⟨st2, e1, e2⟩ := step_open len st cur stack w inv
    have hp : st.parent_stack.length = stack.length + 1 := by
      rw [inv.pstack_eq, List.length_append, stackZ_length]; rfl
    simp only [List.replicate, loop_writes, e1, if_true, hp]
    simp
  | succ n ih =>
    intro st cur stack w inv
    obtain ⟨st2, e1, e2⟩ := step_open len st cur stack w inv
    have h := ih st2 _ _ (w ++ ['(']) e2
    have hpos : ((w ++ ['(']).length : Int) = (w.length : Int) + 1 := by simp
    rw [hpos] at h
    rw [List.replicate_succ]
    simp only [loop_writes, e1]
    apply List.mem_append_right
    have e : ((((w.length : Int), cur) :: stack).length + n + 1 : Nat)
        = stack.length + (n + 1) + 1 := by
      simp only [List.length_cons]; omega
    rw [e] at h
    exact h

theorem count_eq_length_replicate (l : List Char) (c : Char) (h : l.count c = l.length) :
    l = List.replicate l.length c := by
  rw [List.eq_replicate_iff]
  refine ⟨rfl, ?_⟩
  intro b hb
  exact (List.count_eq_length.1 h b hb).symm

end RNAted

namespace RNAted

/-! ## One edit operation changes the distance by no more than its cost -/

end RNAted

namespace RNAted

/-! ## The distance is the least cost of an edit script -/

end RNAted

namespace RNAted

/-! ## Known values and self-distance -/

/-- C3: on the three hand-derived inputs the pipeline `parse_dot_bracket`,
`compute_tree_info`, `tree_edit_dist` returns 0 for "." against ".", 0 for "()" against
"()" and 1 for "." against "()". -/
theorem known_values :
    distance "." "." = some 0 ∧ distance "()" "()" = some 0 ∧ distance "." "()" = some 1 := by
  decide

/-- C15: for every pair of indexed trees the run of `tree_edit_dist` that keeps a
record of the assigned cells of `treedist`, and fails when `forest_dist` reads a cell of
`treedist` that no earlier call of `forest_dist` assigned, succeeds from every initial
value `init` of the cells; its result is the result of `tree_edit_dist`, which is
therefore the same for every initial value of the cells. -/
theorem treedist_read_after_write (r1 r2 : Node) :
    ∃ d, tree_edit_dist (compute_tree_info r1) (compute_tree_info r2) = some d ∧
      ∀ init : Int,
        tree_edit_dist_g (compute_tree_info r1) (compute_tree_info r2) init = some d ∧
        tree_edit_dist_from (compute_tree_info r1) (compute_tree_info r2) init = some d :=
  ⟨tree_dist (shape r1) (shape r2), tree_edit_dist_eq r1 r2, fun init =>
    ⟨tree_edit_dist_g_eq r1 r2 init,
      tree_edit_dist_erase _ _ _ _ (tree_edit_dist_g_eq r1 r2 init)⟩⟩

/-- C16, as stated, fails: for "(((())))" against "()()()()" the two trees have 5 nodes
each, and the distance that `tree_edit_dist` returns, a value written into `treedist`,
is 12, more than `m + n = 10`. -/
theorem distance_exceeds_initial_value :
    ∃ a b d, parse_dot_bracket "(((())))" = .ok a ∧ parse_dot_bracket "()()()()" = .ok b ∧
      tree_edit_dist (compute_tree_info a) (compute_tree_info b) = some d ∧
      ¬ d ≤ (compute_tree_info a).postorder_size + (compute_tree_info b).postorder_size :=
  ⟨_, _, 12, rfl, rfl, by decide!, by decide!⟩

/-- C16, amended: for every pair of indexed trees with `m` and `n` nodes,
`fill_tree_edit_matrix` started on the table that `tree_edit_dist` allocates succeeds,
every cell of `treedist` then holds a value between 0 and `2 * (m + n)`, and so does the
distance that `tree_edit_dist` returns. -/
theorem treedist_values_bounded (r1 r2 : Node) :
    ∃ td d,
      fill_tree_edit_matrix (compute_tree_info r1) (compute_tree_info r2)
        (List.replicate (compute_tree_info r1).postorder_size.toNat
          (List.replicate (compute_tree_info r2).postorder_size.toNat
            ((compute_tree_info r1).postorder_size + (compute_tree_info r2).postorder_size)))
        = some td ∧
      (∀ x y : Int, 0 ≤ x → x < (compute_tree_info r1).postorder_size → 0 ≤ y →
        y < (compute_tree_info r2).postorder_size →
        ∃ c, get2 td x y = some c ∧ 0 ≤ c ∧
          c ≤ 2 * ((compute_tree_info r1).postorder_size
            + (compute_tree_info r2).postorder_size)) ∧
      tree_edit_dist (compute_tree_info r1) (compute_tree_info r2) = some d ∧ 0 ≤ d ∧
      d ≤ 2 * ((compute_tree_info r1).postorder_size
        + (compute_tree_info r2).postorder_size) := by
  obtain ⟨_, _, _, hm, _⟩ := cti_postorder r1
  obtain ⟨_, _, _, hn, _⟩ := cti_postorder r2
  have hp1 := nsize_pos r1
  have hp2 := nsize_pos r2
  rw [hm, hn]
  simp only [Int.toNat_ofNat]
  obtain ⟨a1, a2⟩ := dims_replicate (nsize r1) (nsize r2) ((nsize r1 : Int) + nsize r2)
  obtain ⟨td, e1, e2, e3, e4⟩ := fill_spec r1 r2 _ a1 a2
  have hd := tree_edit_dist_eq r1 r2
  refine ⟨td, tree_dist (shape r1) (shape r2), e1, ?_, hd, dist_nonneg _ _, ?_⟩
  · intro x y hx0 hx1 hy0 hy1
    obtain ⟨x, rfl⟩ : ∃ k : Nat, x = k := ⟨x.toNat, by omega⟩
    obtain ⟨y, rfl⟩ : ∃ k : Nat, y = k := ⟨y.toNat, by omega⟩
    exact ⟨_, e4 x y (by omega) (by omega), td_spec_nonneg _ _ _ _,
      td_spec_le r1 r2 x y (by omega) (by omega)⟩
  · have := dist_le_size [shape r1] [shape r2]
    simp only [lsizes, lsize_shape_both.1] at this
    unfold tree_dist
    push_cast at this
    omega

/-- C20: for every pair of indexed trees, `fill_tree_edit_matrix` started on the table
that `tree_edit_dist` allocates succeeds, so no access of a call of `forest_dist` falls
outside a table; and for every keyroot pair `(i, j)` and every step `(di, dj)` of the
main double loop, `idx1` and `idx2` are positions of the two trees and the cell of `fd`
read in the subtree branch has its row in `0..di-1` and its column in `0..dj-1`. -/
theorem forest_dist_in_bounds (r1 r2 : Node) :
    (∃ td, fill_tree_edit_matrix (compute_tree_info r1) (compute_tree_info r2)
        (List.replicate (compute_tree_info r1).postorder_size.toNat
          (List.replicate (compute_tree_info r2).postorder_size.toNat
            ((compute_tree_info r1).postorder_size + (compute_tree_info r2).postorder_size)))
        = some td) ∧
    ∀ i ∈ (compute_tree_info r1).keyroots, ∀ j ∈ (compute_tree_info r2).keyroots,
      ∃ l1 l2, geti (compute_tree_info r1).leftmost i = some l1 ∧
        geti (compute_tree_info r2).leftmost j = some l2 ∧
        ∀ di dj : Int, 1 ≤ di → di < i - l1 + 2 → 1 ≤ dj → dj < j - l2 + 2 →
          0 ≤ l1 + di - 1 ∧ l1 + di - 1 < (compute_tree_info r1).postorder_size ∧
          0 ≤ l2 + dj - 1 ∧ l2 + dj - 1 < (compute_tree_info r2).postorder_size ∧
          ∃ lm1 lm2, geti (compute_tree_info r1).leftmost (l1 + di - 1) = some lm1 ∧
            geti (compute_tree_info r2).leftmost (l2 + dj - 1) = some lm2 ∧
            0 ≤ lm1 - l1 ∧ lm1 - l1 ≤ di - 1 ∧ 0 ≤ lm2 - l2 ∧ lm2 - l2 ≤ dj - 1 := by
  obtain ⟨_, _, _, hm, _⟩ := cti_postorder r1
  obtain ⟨_, _, _, hn, _⟩ := cti_postorder r2
  refine ⟨?_, ?_⟩
  · rw [hm, hn]
    simp only [Int.toNat_ofNat]
    obtain ⟨a1, a2⟩ := dims_replicate (nsize r1) (nsize r2) ((nsize r1 : Int) + nsize r2)
    obtain ⟨td, e1, _⟩ := fill_spec r1 r2 _ a1 a2
    exact ⟨td, e1⟩
  · intro i hi j hj
    obtain ⟨p, rfl, hp, _⟩ := (cti_keyroots r1).1 i hi
    obtain ⟨q, rfl, hq, _⟩ := (cti_keyroots r2).1 j hj
    refine ⟨_, _, geti_leftmost r1 p hp, geti_leftmost r2 q hq, ?_⟩
    intro di dj hd1 hd2 he1 he2
    obtain ⟨u1, _, q1, n1, n1b, _⟩ := cell_view r1 p hp di hd1 hd2
    obtain ⟨u2, _, q2, n2, n2b, _⟩ := cell_view r2 q hq dj he1 he2
    rw [hm, hn]
    refine ⟨by omega, by omega, by omega, by omega, _, _, q1, q2, by omega, by omega,
      by omega, by omega⟩

/-! ## The indexed tree -/

/-- C19: in every indexed tree and at every position `i`, the nodes of the subtree
rooted at the node at position `i` are, in postorder, the nodes at the positions
`leftmost[i], ..., i`; `0 ≤ leftmost[i] ≤ i`, and `leftmost[p] ≥ leftmost[i]` for every
position `p` of that range. -/
theorem subtree_positions (r : Node) (i : Nat)
    (hi : i < (compute_tree_info r).postorder.length) :
    ∃ l : Nat, (compute_tree_info r).leftmost[i]? = some (l : Int) ∧ l ≤ i ∧
      po ((compute_tree_info r).postorder.getD i default)
        = ((compute_tree_info r).postorder.drop l).take (i + 1 - l) ∧
      ∀ p : Nat, l ≤ p → p ≤ i →
        ∃ lp : Nat, (compute_tree_info r).leftmost[p]? = some (lp : Int) ∧ l ≤ lp := by
  rw [length_cti_postorder] at hi
  obtain ⟨u, A, B, e1, e2, e3, e4⟩ := cti_block r i hi
  refine ⟨lmOf (compute_tree_info r).postorder i, cti_leftmost r i hi, lmOf_le _ _, ?_, ?_⟩
  · rw [getD_of_getElem? _ _ _ e1]
    have hl : lmOf (compute_tree_info r).postorder i = i + 1 - nsize u := by
      unfold lmOf; rw [getD_of_getElem? _ _ _ e1]
    have hlen : i + 1 - lmOf (compute_tree_info r).postorder i = (po u).length := by
      rw [length_po, hl]; omega
    rw [hlen, ← e4]
    conv_rhs => rw [e3]
    simp [List.append_assoc]
  · intro p hp1 hp2
    exact ⟨lmOf (compute_tree_info r).postorder p, cti_leftmost r p (by omega),
      cti_laminar r i p hi hp1 hp2⟩

/-- Witness for C19: position 1 of the indexed tree of the tree with root 'R' over one
'P' node that has one 'U' child. -/
theorem subtree_positions_witness :
    ∃ l : Nat,
      (compute_tree_info (Node.mk 'R' [Node.mk 'P' [Node.mk 'U' [] 0 0 0] 0 0 0] 0 0 0)).leftmost[1]?
        = some (l : Int) ∧ l ≤ 1 ∧
      po ((compute_tree_info
          (Node.mk 'R' [Node.mk 'P' [Node.mk 'U' [] 0 0 0] 0 0 0] 0 0 0)).postorder.getD 1 default)
        = ((compute_tree_info
          (Node.mk 'R' [Node.mk 'P' [Node.mk 'U' [] 0 0 0] 0 0 0] 0 0 0)).postorder.drop l).take
            (1 + 1 - l) ∧
      ∀ p : Nat, l ≤ p → p ≤ 1 →
        ∃ lp : Nat,
          (compute_tree_info
            (Node.mk 'R' [Node.mk 'P' [Node.mk 'U' [] 0 0 0] 0 0 0] 0 0 0)).leftmost[p]?
            = some (lp : Int) ∧ l ≤ lp :=
  subtree_positions (Node.mk 'R' [Node.mk 'P' [Node.mk 'U' [] 0 0 0] 0 0 0] 0 0 0) 1 (by decide)

/-- C18: in every indexed tree a position `k` is in `keyroots` exactly when no later
position has the same `leftmost` entry; hence every position `p` has exactly one
keyroot `k` with `leftmost[k] = leftmost[p]`, that keyroot is at or after `p`, and the
number of keyroots is the number of leaves. -/
theorem keyroots_zhang_shasha (r : Node) :
    (∀ k : Nat, k < (compute_tree_info r).postorder.length →
      ((k : Int) ∈ (compute_tree_info r).keyroots ↔
        ∀ k2 : Nat, k < k2 → k2 < (compute_tree_info r).postorder.length →
          (compute_tree_info r).leftmost[k2]? ≠ (compute_tree_info r).leftmost[k]?)) ∧
    (∀ p : Nat, p < (compute_tree_info r).postorder.length →
      ∃ k : Nat, (k : Int) ∈ (compute_tree_info r).keyroots ∧
        (compute_tree_info r).leftmost[k]? = (compute_tree_info r).leftmost[p]? ∧ p ≤ k ∧
        ∀ k2 : Nat, (k2 : Int) ∈ (compute_tree_info r).keyroots →
          (compute_tree_info r).leftmost[k2]? = (compute_tree_info r).leftmost[p]? → k2 = k) ∧
    (∀ k ∈ (compute_tree_info r).keyroots,
      ∃ p : Nat, k = (p : Int) ∧ p < (compute_tree_info r).postorder.length) ∧
    (compute_tree_info r).num_keyroots
      = (((compute_tree_info r).postorder.filter fun u => u.children.isEmpty).length : Int) := by
  obtain ⟨kA, kB, _⟩ := cti_keyroots r
  have hlen := length_cti_postorder r
  have heq : ∀ a b : Nat, a < nsize r → b < nsize r →
      ((compute_tree_info r).leftmost[a]? = (compute_tree_info r).leftmost[b]? ↔
        lmOf (compute_tree_info r).postorder a = lmOf (compute_tree_info r).postorder b) := by
    intro a b ha hb
    rw [cti_leftmost r a ha, cti_leftmost r b hb]
    constructor
    · intro h; have := Option.some.inj h; omega
    · intro h; rw [h]
  rw [hlen]
  refine ⟨?_, ?_, ?_, ?_⟩
  · intro k hk
    constructor
    · intro hmem k2 h1 h2 h3
      obtain ⟨p, e1, e2, e3⟩ := kA _ hmem
      have hpk : p = k := by omega
      subst hpk
      have := e3 k2 h2 ((heq k2 p h2 hk).1 h3)
      omega
    · intro h
      obtain ⟨p, e1, e2, e3⟩ := kB k hk
      obtain ⟨q, f1, f2, _⟩ := kA _ e1
      have hpq : p = q := by omega
      by_cases hpk : p = k
      · rw [← hpk]; exact e1
      · exact absurd ((heq p k (by omega) hk).2 e2) (h p (by omega) (by omega))
  · intro p hp
    obtain ⟨k, e1, e2, e3⟩ := kB p hp
    obtain ⟨q, f1, f2, f3⟩ := kA _ e1
    have hkq : k = q := by omega
    subst hkq
    refine ⟨k, e1, (heq k p f2 hp).2 e2, e3, ?_⟩
    intro k2 hk2 hl2
    obtain ⟨q2, g1, g2, g3⟩ := kA _ hk2
    have hk2q : k2 = q2 := by omega
    subst hk2q
    have hl3 := (heq k2 p g2 hp).1 hl2
    have c1 := f3 k2 g2 (by rw [hl3, e2])
    have c2 := g3 k f2 (by rw [hl3, e2])
    omega
  · intro k hk
    obtain ⟨p, e1, e2, _⟩ := kA k hk
    exact ⟨p, e1, e2⟩
  · obtain ⟨_, _, _, _, _, _, _, hnum⟩ := cti_postorder r
    rw [hnum, length_keyroots]

end RNAted

namespace RNAted

/-! ## The output of `main` -/

/-- C11, as stated for every list, fails: `main` computes the size and the offsets of
the matrix in `int`.  For a list of `N ≥ 1` valid structures with `N * N` inside the
range of `int` (at most 46340 structures) the full-matrix mode prints `N` rows of `N`
integers with 0 on the diagonal, equal entries at `(i, j)` and `(j, i)`, and at `(i, j)`
with `i < j` the value that `tree_edit_dist` returns for the indexed trees `i` and `j`.
For a longer list it prints no matrix: the allocation of the matrix fails or the
diagonal loop assigns a cell at a negative offset.  So it is for 46341 lines ".". -/
theorem full_matrix_diag_symm (structures : List String) (ti_array : List TreeInfo)
    (h : build_ti_array structures = .ok ti_array) (hN : 1 ≤ structures.length)
    (hint : (structures.length : Int) ≤ INT_MAX) (order : List Int) :
    ((structures.length : Int) * structures.length ≤ INT_MAX →
      ∃ M, main false false structures order = some M ∧ M.length = structures.length ∧
        (∀ row ∈ M, row.length = structures.length) ∧
        (∀ i : Nat, i < structures.length → entry M i i = some 0) ∧
        (∀ i j : Nat, i < structures.length → j < structures.length →
          ∃ d, entry M i j = some d ∧ entry M j i = some d) ∧
        (∀ i j : Nat, i < j → j < structures.length →
          ∃ ti tj d, ti_array[i]? = some ti ∧ ti_array[j]? = some tj ∧
            tree_edit_dist ti tj = some d ∧ entry M i j = some d)) ∧
    (INT_MAX < (structures.length : Int) * structures.length →
      main false false structures order = none) ∧
    (List.replicate 46341 ".").length = 46341 ∧
    (∃ tis, build_ti_array (List.replicate 46341 ".") = .ok tis) ∧
    main false false (List.replicate 46341 ".") order = none := by
  refine ⟨?_, fun hb => main_full_none structures ti_array h hN hint hb order,
    List.length_replicate _ _, build_ti_array_dots 46341, ?_⟩
  · intro hb
    obtain ⟨rs, e1, e2, _⟩ := build_ti_array_ok structures ti_array h
    subst e1
    rw [main_full_eq structures rs h e2 hN hb order]
    refine ⟨_, rfl, length_matrix_of _ _, row_length_matrix_of _ _, ?_, ?_, ?_⟩
    · intro i hi
      rw [entry_matrix_of _ _ i i hi hi]
      simp [mspec]
    · intro i j hi hj
      exact ⟨mspec rs i j, entry_matrix_of _ _ i j hi hj, by
        rw [entry_matrix_of _ _ j i hj hi, mspec_symm]⟩
    · intro i j hij hj
      obtain ⟨ti, tj, f1, f2, f3, _⟩ := ted_getElem rs i j (by omega) (by omega)
      refine ⟨ti, tj, _, f1, f2, f3, ?_⟩
      rw [entry_matrix_of _ _ i j (by omega) hj]
      unfold mspec
      rw [if_neg (by omega), if_pos (by omega)]
  · obtain ⟨tis, e⟩ := build_ti_array_dots 46341
    have hl : (List.replicate 46341 ".").length = 46341 := List.length_replicate _ _
    apply main_full_none _ tis e
    · rw [hl]; decide
    · rw [hl]; decide
    · rw [hl]; decide

/-- Witness for C11: the two structures "." and "()". -/
theorem full_matrix_diag_symm_witness :
    ∃ ti_array, build_ti_array [".", "()"] = .ok ti_array ∧ 1 ≤ [".", "()"].length ∧
      (([".", "()"].length : Nat) : Int) ≤ INT_MAX ∧
      (([".", "()"].length : Nat) : Int) * ([".", "()"].length : Nat) ≤ INT_MAX ∧
      ∃ M, main false false [".", "()"] [] = some M ∧ M.length = [".", "()"].length ∧
      (∀ row ∈ M, row.length = [".", "()"].length) ∧
      (∀ i : Nat, i < [".", "()"].length → entry M i i = some 0) ∧
      (∀ i j : Nat, i < [".", "()"].length → j < [".", "()"].length →
        ∃ d, entry M i j = some d ∧ entry M j i = some d) ∧
      (∀ i j : Nat, i < j → j < [".", "()"].length →
        ∃ ti tj d, ti_array[i]? = some ti ∧ ti_array[j]? = some tj ∧
          tree_edit_dist ti tj = some d ∧ entry M i j = some d) :=
  ⟨_, rfl, by decide, by decide, by decide,
    (full_matrix_diag_symm [".", "()"] _ rfl (by decide) (by decide) []).1 (by decide)⟩

end RNAted

namespace RNAted

/-! ## The tables of the indexed tree -/

theorem fsize_eq_zero (F : List Node) : fsize F = 0 ↔ F = [] := by
  cases F with
  | nil => simp [fsize]
  | cons c cs =>
    have := nsize_pos c
    simp [fsize]
    omega

/-- C8: in every indexed tree, `leftmost[i]` is the position of the leaf reached from
the node at position `i` by repeatedly following the first child, and `leftmost[i] = i`
exactly when the node at position `i` has no children. -/
theorem leftmost_table (r : Node) (i : Nat) (hi : i < (compute_tree_info r).postorder.length) :
    ∃ u, (compute_tree_info r).postorder[i]? = some u ∧
      (compute_tree_info r).leftmost[i]? = some (first_leaf u).index ∧
      (∃ q : Nat, (first_leaf u).index = (q : Int) ∧
        (compute_tree_info r).postorder[q]? = some (first_leaf u)) ∧
      (first_leaf u).children = [] ∧
      ((compute_tree_info r).leftmost[i]? = some (i : Int) ↔ u.children = []) := by
  rw [length_cti_postorder] at hi
  obtain ⟨u, A, B, e1, e2, e3, e4⟩ := cti_block r i hi
  obtain ⟨_, _, _, _, hidx, hlm, _⟩ := cti_postorder r
  obtain ⟨f1, f2, f3⟩ := find_leftmost_index_first_leaf u
  have hpos := nsize_pos u
  have hw : (compute_tree_info r).postorder[A.length]? = some (first_leaf u) := by
    rw [e3, List.append_assoc, List.getElem?_append_right (le_refl _)]
    rw [List.getElem?_append_left (by rw [length_po]; simpa using hpos)]
    simpa using f2
  have hl : (compute_tree_info r).leftmost[i]? = some (first_leaf u).index := by
    rw [hlm, List.getElem?_map, e1]
    simp [f1]
  refine ⟨u, e1, hl, ⟨A.length, hidx _ _ hw, hw⟩, f3, ?_⟩
  rw [cti_leftmost r i hi]
  have hm : lmOf (compute_tree_info r).postorder i = i + 1 - nsize u := by
    unfold lmOf; rw [getD_of_getElem? _ _ _ e1]
  have hn := nsize_eq u
  rw [← fsize_eq_zero]
  constructor
  · intro h
    have := Option.some.inj h
    omega
  · intro h
    congr 1
    omega

/-- Witness for C8: position 1 of the indexed tree of the tree with root 'R' over one
'P' node that has one 'U' child. -/
theorem leftmost_table_witness :
    ∃ u, (compute_tree_info
        (Node.mk 'R' [Node.mk 'P' [Node.mk 'U' [] 0 0 0] 0 0 0] 0 0 0)).postorder[1]? = some u ∧
      (compute_tree_info
        (Node.mk 'R' [Node.mk 'P' [Node.mk 'U' [] 0 0 0] 0 0 0] 0 0 0)).leftmost[1]?
          = some (first_leaf u).index ∧
      (∃ q : Nat, (first_leaf u).index = (q : Int) ∧
        (compute_tree_info
          (Node.mk 'R' [Node.mk 'P' [Node.mk 'U' [] 0 0 0] 0 0 0] 0 0 0)).postorder[q]?
            = some (first_leaf u)) ∧
      (first_leaf u).children = [] ∧
      ((compute_tree_info
        (Node.mk 'R' [Node.mk 'P' [Node.mk 'U' [] 0 0 0] 0 0 0] 0 0 0)).leftmost[1]?
          = some ((1 : Nat) : Int) ↔ u.children = []) :=
  leftmost_table (Node.mk 'R' [Node.mk 'P' [Node.mk 'U' [] 0 0 0] 0 0 0] 0 0 0) 1 (by decide)

/-- C10, as stated, fails: in the indexed tree of "..", the root over two leaves, the
leaf at position 1 lies in the subtrees of two keyroots, itself and the root at
position 2 (by C19 the subtree of position `k` is the range `leftmost[k]..k`). -/
theorem two_keyroots_above :
    ∃ t, parse_dot_bracket ".." = .ok t ∧
      (1 : Int) ∈ (compute_tree_info t).keyroots ∧ (2 : Int) ∈ (compute_tree_info t).keyroots ∧
      (∃ l : Int, (compute_tree_info t).leftmost[1]? = some l ∧ l ≤ 1 ∧ (1 : Int) ≤ 1) ∧
      (∃ l : Int, (compute_tree_info t).leftmost[2]? = some l ∧ l ≤ 1 ∧ (1 : Int) ≤ 2) :=
  ⟨_, rfl, by decide!, by decide!, ⟨1, by decide!, by decide, by decide⟩,
    ⟨0, by decide!, by decide, by decide⟩⟩

/-- C10, amended: in every indexed tree and for every position `p`, exactly one keyroot
`k` has the leftmost leaf of `p`; the position `p` lies in the subtree of that keyroot,
that is `leftmost[k] ≤ p ≤ k`, and in the subtree of the root, which is a keyroot
too. -/
theorem keyroot_on_leftmost_path (r : Node) (p : Nat)
    (hp : p < (compute_tree_info r).postorder.length) :
    (∃ k l : Nat, (k : Int) ∈ (compute_tree_info r).keyroots ∧
      (compute_tree_info r).leftmost[k]? = some (l : Int) ∧
      (compute_tree_info r).leftmost[p]? = some (l : Int) ∧ l ≤ p ∧ p ≤ k ∧
      ∀ k2 : Nat, (k2 : Int) ∈ (compute_tree_info r).keyroots →
        (compute_tree_info r).leftmost[k2]? = (compute_tree_info r).leftmost[p]? → k2 = k) ∧
    ((((compute_tree_info r).postorder.length - 1 : Nat) : Int) ∈ (compute_tree_info r).keyroots ∧
      (compute_tree_info r).leftmost[(compute_tree_info r).postorder.length - 1]?
        = some 0 ∧ p ≤ (compute_tree_info r).postorder.length - 1) := by
  obtain ⟨kA, kB, kS⟩ := cti_keyroots r
  have hlen := length_cti_postorder r
  rw [hlen] at hp ⊢
  have hpos := nsize_pos r
  refine ⟨?_, ?_⟩
  · obtain ⟨k, e1, e2, e3⟩ := kB p hp
    obtain ⟨q, f1, f2, f3⟩ := kA _ e1
    have hkq : k = q := by omega
    subst hkq
    refine ⟨k, lmOf (compute_tree_info r).postorder p, e1, ?_, cti_leftmost r p hp,
      lmOf_le _ _, e3, ?_⟩
    · rw [cti_leftmost r k f2, e2]
    · intro k2 hk2 hl2
      obtain ⟨q2, g1, g2, g3⟩ := kA _ hk2
      have hk2q : k2 = q2 := by omega
      subst hk2q
      rw [cti_leftmost r k2 g2, cti_leftmost r p hp] at hl2
      have hl3 : lmOf (compute_tree_info r).postorder k2
          = lmOf (compute_tree_info r).postorder p := by
        have := Option.some.inj hl2; omega
      have c1 := f3 k2 g2 (by rw [hl3, e2])
      have c2 := g3 k f2 (by rw [hl3, e2])
      omega
  · refine ⟨(keyroots_table_root r), ?_, by omega⟩
    rw [cti_leftmost r (nsize r - 1) (by omega)]
    obtain ⟨u, A, B, e1, e2, e3, e4⟩ := cti_block r (nsize r - 1) (by omega)
    have hu : u = (compute_tree_info r).root := by
      have := getD_root r
      rw [getD_of_getElem? _ _ _ e1] at this
      exact this
    obtain ⟨_, _, h3, _⟩ := cti_postorder r
    have : lmOf (compute_tree_info r).postorder (nsize r - 1) = 0 := by
      unfold lmOf
      rw [getD_of_getElem? _ _ _ e1, hu, h3]
      omega
    rw [this]
    rfl

/-- Witness for C10, amended: position 1 of the indexed tree of the tree with root 'R'
over two 'U' leaves. -/
theorem keyroot_on_leftmost_path_witness :
    ∃ k l : Nat,
      (k : Int) ∈ (compute_tree_info
        (Node.mk 'R' [Node.mk 'U' [] 0 0 0, Node.mk 'U' [] 0 0 0] 0 0 0)).keyroots ∧
      (compute_tree_info
        (Node.mk 'R' [Node.mk 'U' [] 0 0 0, Node.mk 'U' [] 0 0 0] 0 0 0)).leftmost[k]?
          = some (l : Int) ∧
      (compute_tree_info
        (Node.mk 'R' [Node.mk 'U' [] 0 0 0, Node.mk 'U' [] 0 0 0] 0 0 0)).leftmost[1]?
          = some (l : Int) ∧ l ≤ 1 ∧ 1 ≤ k :=
  match (keyroot_on_leftmost_path
      (Node.mk 'R' [Node.mk 'U' [] 0 0 0, Node.mk 'U' [] 0 0 0] 0 0 0) 1 (by decide)).1 with
  | ⟨k, l, h1, h2, h3, h4, h5, _⟩ => ⟨k, l, h1, h2, h3, h4, h5⟩

end RNAted

namespace RNAted

/-! ## The structure parser -/

/-- C4: for every string `s`, `parse_dot_bracket` fails exactly when `s` has a character
outside '.', '(' and ')', or a ')' at a position before which the closing brackets are
no fewer than the opening ones (no '(' is open), or different numbers of '(' and ')';
in every other case it returns a tree.  It fails on ")(", on "((" and on "(.x)". -/
theorem parse_fails_iff (s : String) :
    ((∃ e, parse_dot_bracket s = .error e) ↔
      ((∃ c ∈ s.toList, c ≠ '.' ∧ c ≠ '(' ∧ c ≠ ')') ∨
       (∃ k, s.toList[k]? = some ')' ∧
          (s.toList.take k).count '(' ≤ (s.toList.take k).count ')') ∨
       s.toList.count '(' ≠ s.toList.count ')')) ∧
    ((∃ t, parse_dot_bracket s = .ok t) ↔
      ¬ ((∃ c ∈ s.toList, c ≠ '.' ∧ c ≠ '(' ∧ c ≠ ')') ∨
         (∃ k, s.toList[k]? = some ')' ∧
            (s.toList.take k).count '(' ≤ (s.toList.take k).count ')') ∨
         s.toList.count '(' ≠ s.toList.count ')')) ∧
    parse_dot_bracket ")(" = .error (.unmatched_closing 0) ∧
    parse_dot_bracket "((" = .error .unbalanced ∧
    parse_dot_bracket "(.x)" = .error (.invalid_character 2) := by
  refine ⟨?_, ?_, rfl, rfl, rfl⟩
  · rw [parse_error_iff, Ne, scan_ok_iff, not_not]
  · rw [parse_ok_iff, scan_ok_iff]

/-- C5: the tree that `parse_dot_bracket` returns for `s` has half as many 'P' nodes as
`s` has brackets; the fields `i`, `j` of every 'P' node are the positions of a '(' of
`s` and of the ')' that matches it; and every matched pair of brackets of `s` is recorded
by exactly one 'P' node. -/
theorem pair_nodes_are_matched_pairs (s : String) (t : Node)
    (h : parse_dot_bracket s = .ok t) :
    2 * ((po t).filter fun u => decide (u.label = 'P')).length
        = s.toList.count '(' + s.toList.count ')' ∧
    (∀ u ∈ po t, u.label = 'P' →
      ∃ i j : Nat, u.i = (i : Int) ∧ u.j = (j : Int) ∧ matching s.toList i j) ∧
    (∀ i j : Nat, matching s.toList i j →
      ((po t).filter fun u =>
        decide (u.label = 'P' ∧ u.i = (i : Int) ∧ u.j = (j : Int))).length = 1) := by
  obtain ⟨_, cur, e, g, r⟩ := parse_ok_inv s t h
  subst e
  have hroot : ∀ p : Node → Prop, [DecidablePred p] → (∀ u, p u → u.label = 'P') →
      (po (Node.mk 'R' cur (-1) 0 ((s.toList.length : Int) - 1))).filter (fun u => decide (p u))
        = (poF cur).filter (fun u => decide (p u)) := by
    intro p _ hp
    simp only [po, List.filter_append]
    have : ([Node.mk 'R' cur (-1) 0 ((s.toList.length : Int) - 1)].filter
        fun u => decide (p u)) = [] := by
      rw [List.filter_eq_nil_iff]
      intro u hu
      rw [List.mem_singleton] at hu
      subst hu
      simp only [decide_eq_true_eq]
      intro hpu
      exact absurd (hp _ hpu) (by simp [Node.label])
    rw [this, List.append_nil]
  refine ⟨?_, ?_, ?_⟩
  · rw [hroot (fun u => u.label = 'P') (fun _ hu => hu), good_pairs_both.2 cur 0 g, r]
    have := (good_size_both.2 cur 0 g).2
    rw [r] at this
    omega
  · intro u hu hl
    simp only [po, List.mem_append, List.mem_singleton] at hu
    rcases hu with hu | hu
    · obtain ⟨i, j, e1, e2, m, _⟩ := good_pair_span cur g u hu hl
      rw [r] at m
      exact ⟨i, j, e1, e2, m⟩
    · subst hu
      exact absurd hl (by simp [Node.label])
  · intro i j m
    rw [hroot (fun u => u.label = 'P' ∧ u.i = (i : Int) ∧ u.j = (j : Int)) (fun _ hu => hu.1)]
    have hc := good_count_both.2 cur 0 g i
    rw [r, if_pos m.1] at hc
    rw [← hc]
    congr 1
    apply List.filter_congr
    intro u hu
    congr 1
    simp only [zero_add, eq_iff_iff]
    constructor
    · rintro ⟨a, b, _⟩
      exact ⟨a, b⟩
    · rintro ⟨a, b⟩
      refine ⟨a, b, ?_⟩
      obtain ⟨i2, j2, e1, e2, m2, _⟩ := good_pair_span cur g u hu a
      rw [r] at m2
      have hi : i2 = i := by omega
      subst hi
      rw [e2, matching_unique _ _ _ _ m2 m]

/-- Witness for C5: the string "(.)". -/
theorem pair_nodes_are_matched_pairs_witness :
    ∃ t, parse_dot_bracket "(.)" = .ok t ∧
      2 * ((po t).filter fun u => decide (u.label = 'P')).length
          = "(.)".toList.count '(' + "(.)".toList.count ')' ∧
      (∀ u ∈ po t, u.label = 'P' →
        ∃ i j : Nat, u.i = (i : Int) ∧ u.j = (j : Int) ∧ matching "(.)".toList i j) ∧
      (∀ i j : Nat, matching "(.)".toList i j →
        ((po t).filter fun u =>
          decide (u.label = 'P' ∧ u.i = (i : Int) ∧ u.j = (j : Int))).length = 1) :=
  ⟨_, rfl, pair_nodes_are_matched_pairs "(.)" _ rfl⟩

/-- C6: the tree that `parse_dot_bracket` returns for `s` is written back out as `s`:
its root is its one node labeled 'R' and `s` is the renders of the children of the root
in order; every other node is a 'U' node without children or a 'P' node; and the
children of a 'P' node with fields `i`, `j` are written out, in order, as the characters
of `s` strictly between positions `i` and `j`. -/
theorem render_parse (s : String) (t : Node) (h : parse_dot_bracket s = .ok t) :
    render t = s.toList ∧
    renderF t.children = s.toList ∧
    t.label = 'R' ∧
    (∀ u ∈ po t, u.label = 'R' → u = t) ∧
    (∀ u ∈ po t, u = t ∨ (u.label = 'U' ∧ u.children = []) ∨ u.label = 'P') ∧
    (∀ u ∈ po t, u.label = 'U' → u.children = [] ∧ render u = ['.']) ∧
    (∀ u ∈ po t, u.label = 'P' →
      render u = '(' :: (renderF u.children ++ [')']) ∧
      ∃ i j : Nat, u.i = (i : Int) ∧ u.j = (j : Int) ∧ i < j ∧
        (s.toList.drop (i + 1)).take (j - i - 1) = renderF u.children) := by
  obtain ⟨_, cur, e, g, r⟩ := parse_ok_inv s t h
  subst e
  have hmem : ∀ u ∈ po (Node.mk 'R' cur (-1) 0 ((s.toList.length : Int) - 1)),
      u = Node.mk 'R' cur (-1) 0 ((s.toList.length : Int) - 1) ∨ u ∈ poF cur := by
    intro u hu
    simp only [po, List.mem_append, List.mem_singleton] at hu
    exact hu.symm
  refine ⟨?_, ?_, rfl, ?_, ?_, ?_, ?_⟩
  · simp [render, r]
  · simpa [Node.children] using r
  · intro u hu hl
    rcases hmem u hu with e | hu
    · exact e
    · rcases good_labels cur 0 g u hu with ⟨e, _⟩ | e <;> rw [hl] at e <;>
        exact absurd e (by decide)
  · intro u hu
    rcases hmem u hu with e | hu
    · exact Or.inl e
    · exact Or.inr (good_labels cur 0 g u hu)
  · intro u hu hl
    rcases hmem u hu with e | hu
    · subst e
      exact absurd hl (by simp [Node.label])
    · obtain ⟨A, B, _, gu⟩ := good_sub_both.2 cur 0 g u hu
      rcases (good_fields _ _ gu).2.2 with ⟨_, e2, _, e4⟩ | ⟨e1, _⟩
      · exact ⟨e2, e4⟩
      · rw [hl] at e1
        exact absurd e1 (by decide)
  · intro u hu hl
    rcases hmem u hu with e | hu
    · subst e
      exact absurd hl (by simp [Node.label])
    · obtain ⟨A, B, _, gu⟩ := good_sub_both.2 cur 0 g u hu
      obtain ⟨i, j, e1, e2, m, e3⟩ := good_pair_span cur g u hu hl
      rw [r] at e3
      refine ⟨?_, i, j, e1, e2, m.2.2.1, e3⟩
      rcases (good_fields _ _ gu).2.2 with ⟨e1, _⟩ | ⟨_, _, _, e4⟩
      · rw [hl] at e1
        exact absurd e1 (by decide)
      · exact e4

/-- Witness for C6: the string "(.)". -/
theorem render_parse_witness :
    ∃ t, parse_dot_bracket "(.)" = .ok t ∧ render t = "(.)".toList ∧
      renderF t.children = "(.)".toList ∧
      t.label = 'R' ∧
      (∀ u ∈ po t, u.label = 'R' → u = t) ∧
      (∀ u ∈ po t, u = t ∨ (u.label = 'U' ∧ u.children = []) ∨ u.label = 'P') ∧
      (∀ u ∈ po t, u.label = 'U' → u.children = [] ∧ render u = ['.']) ∧
      (∀ u ∈ po t, u.label = 'P' →
        render u = '(' :: (renderF u.children ++ [')']) ∧
        ∃ i j : Nat, u.i = (i : Int) ∧ u.j = (j : Int) ∧ i < j ∧
          ("(.)".toList.drop (i + 1)).take (j - i - 1) = renderF u.children) :=
  ⟨_, rfl, render_parse "(.)" _ rfl⟩

/-! ## The postorder buffer -/

/-- C17, as stated, fails: the line of 1000 dots is well formed and has no more than
1023 characters, and its tree has 1001 nodes, so that `postorder_traversal` writes 1001
entries, one more than the `max_nodes = 1000` entries of the buffer.  In general the
tree of a well-formed line has one node more than the line has dots and opening
brackets. -/
theorem postorder_exceeds_max_nodes :
    (String.mk (List.replicate 1000 '.')).length ≤ 1023 ∧
    (∃ t, parse_dot_bracket (String.mk (List.replicate 1000 '.')) = .ok t ∧
      (compute_tree_info t).postorder.length = 1001 ∧
      (compute_tree_info t).postorder_size = 1001 ∧
      max_nodes < (compute_tree_info t).postorder_size) ∧
    (∀ (s : String) (t : Node), parse_dot_bracket s = .ok t →
      (compute_tree_info t).postorder.length
        = 1 + s.toList.count '.' + s.toList.count '(') := by
  refine ⟨?_, ?_, ?_⟩
  · show (List.replicate 1000 '.').length ≤ 1023
    rw [List.length_replicate]
    decide
  · obtain ⟨t, ht⟩ := (parse_ok_iff (String.mk (List.replicate 1000 '.'))).2
      (scan_replicate_dot 1000 0)
    have hn : nsize t = 1001 := dots_size 1000 t ht
    refine ⟨t, ht, ?_, ?_, ?_⟩
    · rw [length_cti_postorder, hn]
    · rw [(cti_postorder t).2.2.2.1, hn]; rfl
    · rw [(cti_postorder t).2.2.2.1, hn]; decide
  · intro s t h
    rw [length_cti_postorder, parse_size s t h]

end RNAted

namespace RNAted

/-! ## The index stacks of the parser -/

/-- C21, as stated, fails: on "(", of length 1, `parse_dot_bracket` assigns
`parent_stack[1]`, and on every string of `n + 1` opening brackets it assigns
`parent_stack[n + 1]`, one entry past the `n + 1` entries allocated.  These are the only
writes outside the two stacks: on a non-empty string of length `len` every assignment
`stack[k]` has `0 ≤ k < len`, and every assignment `parent_stack[k]` has `0 ≤ k ≤ len`,
with `k = len` only when all characters of the string are opening brackets. -/
theorem parent_stack_write_outside :
    (StackWrite.parent_stack 1 ∈ stack_writes "(" ∧ "(".toList.length = 1) ∧
    (∀ n : Nat, StackWrite.parent_stack ((n + 1 : Nat) : Int)
        ∈ stack_writes (String.mk (List.replicate (n + 1) '(')) ∧
      (String.mk (List.replicate (n + 1) '(')).toList.length = n + 1) ∧
    (∀ (s : String) (k : Int), s.toList ≠ [] → StackWrite.stack k ∈ stack_writes s →
      0 ≤ k ∧ k < (s.toList.length : Int)) ∧
    (∀ (s : String) (k : Int), s.toList ≠ [] → StackWrite.parent_stack k ∈ stack_writes s →
      0 ≤ k ∧ k ≤ (s.toList.length : Int) ∧
        (k = (s.toList.length : Int) → s.toList = List.replicate s.toList.length '(')) := by
  have hopen : ∀ n : Nat, StackWrite.parent_stack ((n + 1 : Nat) : Int)
      ∈ stack_writes (String.mk (List.replicate (n + 1) '(')) := by
    intro n
    have h := loop_writes_open ((List.replicate (n + 1) '(').length : Int) n
      (parse_init _) [] [] [] (pinv_init _)
    simp only [List.length_nil, Nat.zero_add, Nat.cast_zero] at h
    exact List.mem_cons_of_mem _ h
  have hloop : ∀ (s : String) (wr : StackWrite),
      wr ∈ loop_writes s.toList 0 (parse_init s.toList.length) →
      ∃ (pre post : List Char) (d : Nat), s.toList = pre ++ '(' :: post ∧
        d + pre.count ')' = pre.count '(' ∧
        (wr = StackWrite.stack d ∨ wr = StackWrite.parent_stack (d + 1)) := by
    intro s wr h
    have := loop_writes_spec (s.toList.length : Int) s.toList (parse_init _) [] [] []
      (pinv_init _) wr (by simpa using h)
    simpa using this
  refine ⟨⟨hopen 0, rfl⟩, fun n => ⟨hopen n, by simp⟩, ?_, ?_⟩
  · intro s k _ h
    simp only [stack_writes, List.mem_cons] at h
    rcases h with h | h
    · cases h
    · obtain ⟨pre, post, d, e1, e2, e3⟩ := hloop s _ h
      have hc := List.count_le_length '(' pre
      rcases e3 with e3 | e3
      · simp only [StackWrite.stack.injEq] at e3
        rw [e1, e3]
        simp only [List.length_append, List.length_cons, Nat.cast_add, Nat.cast_one]
        omega
      · cases e3
  · intro s k hne h
    simp only [stack_writes, List.mem_cons] at h
    rcases h with h | h
    · simp only [StackWrite.parent_stack.injEq] at h
      subst h
      have : 0 < s.toList.length := List.length_pos.2 hne
      refine ⟨le_refl _, by omega, ?_⟩
      intro e
      omega
    · obtain ⟨pre, post, d, e1, e2, e3⟩ := hloop s _ h
      have hc := List.count_le_length '(' pre
      rcases e3 with e3 | e3
      · cases e3
      · simp only [StackWrite.parent_stack.injEq] at e3
        have hl : s.toList.length = pre.length + 1 + post.length := by
          rw [e1]
          simp only [List.length_append, List.length_cons]
          omega
        refine ⟨by omega, by omega, ?_⟩
        intro e
        apply count_eq_length_replicate
        have hp : post = [] := List.length_eq_zero.1 (by omega)
        rw [e1, hp]
        simp only [List.count_append, List.count_cons_self, List.count_nil, List.length_append,
          List.length_cons, List.length_nil]
        omega

/-! ## Distance zero -/

/-- C22: for all well-formed dot-bracket strings `s` and `t`, if `tree_edit_dist` of the
indexed trees of their parsed trees is 0, then `s = t`. -/
theorem distance_zero_identical (s t : String) (a b : Node)
    (h1 : parse_dot_bracket s = .ok a) (h2 : parse_dot_bracket t = .ok b)
    (h : tree_edit_dist (compute_tree_info a) (compute_tree_info b) = some 0) : s = t := by
  rw [tree_edit_dist_eq, Option.some.injEq, tree_dist] at h
  have e := dist_eq_zero _ _ h
  simp only [List.cons.injEq, and_true] at e
  have hr := render_shape_both.1 a b e
  obtain ⟨_, c1, ea, _, r1⟩ := parse_ok_inv s a h1
  obtain ⟨_, c2, eb, _, r2⟩ := parse_ok_inv t b h2
  subst ea eb
  simp only [render] at hr
  rw [if_neg (by decide), if_neg (by decide), if_neg (by decide), if_neg (by decide), r1, r2]
    at hr
  exact String.ext hr

/-- Witness for C22: the string "()" against itself. -/
theorem distance_zero_identical_witness :
    ∃ a b, parse_dot_bracket "()" = .ok a ∧ parse_dot_bracket "()" = .ok b ∧
      tree_edit_dist (compute_tree_info a) (compute_tree_info b) = some 0 ∧ "()" = "()" :=
  ⟨_, _, rfl, rfl, by decide, distance_zero_identical "()" "()" _ _ rfl rfl (by decide)⟩

end RNAted

namespace RNAted

/-! ## The distance engine against edit scripts -/

end RNAted
